import Mathlib

/-!
# Atom: ElGamal layer, encryption proofs, threshold recombination, trustee check

A shallow embedding of parts of `crypto/` and `trustee/` of the Atom mix-net.

Conventions of the embedding.

* The prime-order group of the suite (`SUITE`, edwards25519 in the prime-order
  subgroup) is a parameter: scalars are a field `F`, points an additive
  commutative group `P` with scalar multiplication (`Module F P`), and the base
  point `G : P` is an explicit argument (`SUITE.Point().Mul(r, nil)` is `r • G`).
* `*Point` cells are modelled by their values, the cells of the ciphertexts at hand
  being distinct (as they are when ciphertexts come from `Encrypt` or from decoding).
  A function that overwrites its argument in place (`Reblind`) returns the new value;
  the argument keeps denoting the value before the call.
* A random stream (`random.New()`) is a function `rnd : ℕ → F`; `rnd k` is the
  scalar returned by the `k`-th call of `Pick` on that stream.
* A Go run-time panic (index out of range, division by zero) is the result `none`.
* Byte strings are lists of numbers; a Go `int` is an integer, with 64-bit wrap-around
  where the code adds or converts.
* Goroutines that write disjoint slots are run one after the other; a channel is the
  list of the values sent on it, oldest first.
-/

namespace Atom

/-! ## Data model (`crypto/types.go`) -/

/-- A user-submitted ciphertext: `R`, `C` and `Y` are slices of points; `Y = none`
is the `nil` slice of a ciphertext that was never re-encrypted. -/
structure Ciphertext (P : Type) where
  R : List P
  C : List P
  Y : Option (List P)
deriving DecidableEq, Repr

section ElGamal

variable {F P : Type} [Field F] [AddCommGroup P] [Module F P]

/-! ## Keys (`crypto/keys.go`) -/

/-- Go `NullKey`: the identity point used as a public key. -/
def NullKey : P := 0

/-- Go `PubFromPriv`: the base point multiplied by the private scalar. -/
def PubFromPriv (G : P) (priv : F) : P := priv • G

/-- Go `CombinePrivateKeys`: the loop `t = t + privs[i]` started at zero. -/
def CombinePrivateKeys (privs : List F) : F :=
  privs.foldl (fun t s => t + s) 0

/-- Go `CombinePublicKeys`: the loop `h = h + pubs[i]` started at the identity. -/
def CombinePublicKeys (pubs : List P) : P :=
  pubs.foldl (fun h p => h + p) 0

/-! ## ElGamal (`crypto/crypto.go`) -/

/-- Loop body of `Encrypt` from index `idx` on: one scalar `r` is picked per
position, `R[idx] = r·G` and `C[idx] = msg[idx] + r·X`. -/
def encryptLoop (G X : P) (rnd : ℕ → F) : ℕ → List P → List P × List P
  | _, [] => ([], [])
  | idx, m :: msg =>
    let r := rnd idx
    let rest := encryptLoop G X rnd (idx + 1) msg
    (r • G :: rest.1, (m + r • X) :: rest.2)

/-- Go `Encrypt(X, msg)` with the random stream `rnd`. -/
def Encrypt (G X : P) (msg : List P) (rnd : ℕ → F) : Ciphertext P :=
  let RC := encryptLoop G X rnd 0 msg
  { R := RC.1, C := RC.2, Y := none }

/-- Loop of `Decrypt` over `c.C`, the remaining parts of `c.R` and `c.C` in
lockstep: `msg[idx] = C[idx] - x·R[idx]`; a missing `R[idx]` is the panic. -/
def decryptLoop (x : F) : List P → List P → Option (List P)
  | _, [] => some []
  | [], _ :: _ => none
  | r :: R, c :: C => (decryptLoop x R C).map fun msg => (c - x • r) :: msg

/-- Go `Decrypt(x, c)`. -/
def Decrypt (x : F) (c : Ciphertext P) : Option (List P) :=
  decryptLoop x c.R c.C

/-- Loop of `Reblind` over `c.C`: a scalar `r` is picked per position and
`R[idx] = R[idx] + r·G`, `C[idx] = C[idx] + r·X`.  Entries of `c.R` beyond
`len(c.C)` are left as they are; a missing `R[idx]` is the panic. -/
def reblindLoop (G X : P) (rnd : ℕ → F) : ℕ → List P → List P → Option (List P × List P)
  | _, R, [] => some (R, [])
  | _, [], _ :: _ => none
  | idx, r :: R, c :: C =>
    (reblindLoop G X rnd (idx + 1) R C).map fun rest =>
      ((r + rnd idx • G) :: rest.1, (c + rnd idx • X) :: rest.2)

/-- Go `Reblind(X, c)`: the value of `c` after the loop (the Go code overwrites the
points of `c` and returns `c`); `Y` is not touched. -/
def Reblind (G X : P) (c : Ciphertext P) (rnd : ℕ → F) : Option (Ciphertext P) :=
  (reblindLoop G X rnd 0 c.R c.C).map fun RC => { R := RC.1, C := RC.2, Y := c.Y }

/-- Loop of `Reencrypt` over `c.C` with `c.R` and `c.Y` in lockstep:
`newR = R[idx] + rBar·G`, `newC = (C[idx] - x·Y[idx]) + rBar·XBar`, `Y[idx]` kept.
The result is `none` when `R[idx]` or `Y[idx]` is missing (panic) and also when
`c.R` or `c.Y` is longer than `c.C`, where the Go result keeps unfilled (`nil`)
slots and is not a list of points. -/
def reencryptLoop (G : P) (x : F) (XBar : P) (rnd : ℕ → F) :
    ℕ → List P → List P → List P → Option (List P × List P × List P)
  | _, [], [], [] => some ([], [], [])
  | idx, r :: R, c :: C, y :: Y =>
    (reencryptLoop G x XBar rnd (idx + 1) R C Y).map fun rest =>
      ((r + rnd idx • G) :: rest.1, ((c - x • y) + rnd idx • XBar) :: rest.2.1, y :: rest.2.2)
  | _, _, _, _ => none

/-- Go `Reencrypt(x, XBar, c)`: on the first re-encryption (`c.Y == nil`) the old `R`
becomes `Y` and `R` is filled with identity points. -/
def Reencrypt (G : P) (x : F) (XBar : P) (c : Ciphertext P) (rnd : ℕ → F) :
    Option (Ciphertext P) :=
  let RY : List P × List P :=
    match c.Y with
    | none => (List.replicate c.R.length 0, c.R)
    | some Y => (c.R, Y)
  (reencryptLoop G x XBar rnd 0 RY.1 c.C RY.2).map fun out =>
    { R := out.1, C := out.2.1, Y := some out.2.2 }

/-- A chain of re-encryptions `c_k = Reencrypt(x_k, XBar, c_(k-1))`, one private key
and one fresh random stream per step, as in the loop of `TestThresholdSharing`. -/
def reencryptChain (G XBar : P) : List (F × (ℕ → F)) → Ciphertext P → Option (Ciphertext P)
  | [], c => some c
  | (x, rnd) :: steps, c => (Reencrypt G x XBar c rnd).bind (reencryptChain G XBar steps)

/-- The relation kept along a chain of re-encryptions towards the key `y·G`, when
the keys still to be removed sum to `s`: position by position
`C[i] - s·Y[i] - y·R[i] = msg[i]`, all four lists having the same length. -/
def chainInv (s y : F) : List P → List P → List P → List P → Prop
  | [], [], [], [] => True
  | m :: msg, r :: R, c :: C, yy :: Y => c - s • yy - y • r = m ∧ chainInv s y msg R C Y
  | _, _, _, _ => False

end ElGamal

/-! ## Shuffle (`crypto/shuffle.go`) -/

section Loops

/-- A counted loop `for i := start; ...; i++` running `n` iterations of a body that
may panic. -/
def forLoop {σ : Type} (body : ℕ → σ → Option σ) : ℕ → ℕ → σ → Option σ
  | 0, _, s => some s
  | n + 1, i, s => (body i s).bind (forLoop body n (i + 1))

/-- The loop `for i := start; i < stop; i++`. -/
def forRange {σ : Type} (start stop : ℕ) (body : ℕ → σ → Option σ) (s : σ) : Option σ :=
  forLoop body (stop - start) start s

/-- The split of `k` items over the CPUs: `(chunks, div)` as computed at the top of
`Shuffle`, `ReencryptBatches` and their proving variants.  `k / chunks` with no CPU
is the integer-division panic. -/
def chunking (numCPU k : ℕ) : Option (ℕ × ℕ) :=
  if numCPU = 0 then none
  else if k < numCPU then some (k, 1)
  else if k % numCPU ≠ 0 then some (numCPU, k / numCPU + 1)
  else some (numCPU, k / numCPU)

/-- The workers `d = 0 .. chunks-1`, worker `d` running `body` on the indices of
`[d·div, min((d+1)·div, k))`.  The index ranges are disjoint and each `body i`
writes slot `i` only, so the workers are run one after the other. -/
def runWorkers {σ : Type} (chunks div k : ℕ) (body : ℕ → σ → Option σ) (s : σ) : Option σ :=
  forLoop (fun d s =>
    let start := d * div
    let stop := if (d + 1) * div > k then k else (d + 1) * div
    forRange start stop body s) chunks 0 s

/-- The loop `for i := k - 1; i > 0; i--` of random swaps on `pi`; `rand n` is the
value of the `n`-th call of `randUint64`.  Here `i` counts down from its first
argument and `n` counts the calls.  Both `j` and `i` are below `len(pi)`. -/
def swapLoop (rand : ℕ → ℕ) : ℕ → ℕ → List ℕ → List ℕ
  | 0, _, pi => pi
  | i + 1, n, pi =>
    let j := rand n % (i + 1 + 1)
    let pi' := if j ≠ i + 1 then (pi.set j (pi.getD (i + 1) 0)).set (i + 1) (pi.getD j 0) else pi
    swapLoop rand i (n + 1) pi'

/-- The loop `ciphertexts[i] = tmp[pi[i]]`; an index outside `tmp` is the panic. -/
def gather {α : Type} (tmp : List α) : List ℕ → Option (List α)
  | [] => some []
  | p :: pi => (tmp[p]?).bind fun c => (gather tmp pi).map fun rest => c :: rest

end Loops

section ShuffleDef

variable {F P : Type} [Field F] [AddCommGroup P] [Module F P]

/-- Go `Shuffle(X, cs)` on a machine with `numCPU` CPUs.  `rnds i` is the random stream
of the call `Reblind(X, cs[i])`, `rand` the outcomes of `randUint64`. -/
def Shuffle (G X : P) (numCPU : ℕ) (cs : List (Ciphertext P)) (rnds : ℕ → ℕ → F)
    (rand : ℕ → ℕ) : Option (List (Ciphertext P)) :=
  let k := cs.length
  (chunking numCPU k).bind fun cd =>
  (runWorkers cd.1 cd.2 k
    (fun i tmp => (cs[i]?).bind fun c => (Reblind G X c (rnds i)).map fun c' => tmp.set i c')
    (List.replicate k { R := [], C := [], Y := none })).bind fun tmp =>
  let pi := swapLoop rand (k - 1) 0 (List.range k)
  gather tmp pi

end ShuffleDef

/-! ## Encryption proof (`crypto/nizk.go`) -/

/-- Primitives of kyber and `x/crypto` that the code calls, taken as parameters.
Byte strings are lists of numbers. -/
structure Extern (F P : Type) where
  /-- Go `Point.MarshalBinary` (its error result is discarded by the callers). -/
  MarshalBinary : P → List ℕ
  /-- Go `sha3.Sum256`. -/
  Sum256 : List ℕ → List ℕ
  /-- Go `Scalar.SetBytes`. -/
  SetBytes : List ℕ → F
  /-- Go `sha3.ShakeSum128` with a 32-byte output. -/
  ShakeSum128 : List ℕ → List ℕ
  /-- Go `secretbox.Seal(nil, message, nonce, key)`. -/
  Seal : List ℕ → List ℕ → List ℕ → List ℕ
  /-- Go `secretbox.Open(nil, box, nonce, key)`; `none` is `auth = false`. -/
  Open : List ℕ → List ℕ → List ℕ → Option (List ℕ)

/-- The proof of `ProveEncrypt`: commitments `S` and responses `U`. -/
structure EncProof (F P : Type) where
  S : List P
  U : List F
deriving DecidableEq

/-- The ciphertext of `CCA2Encrypt`: ephemeral point and sealed box. -/
structure InnerCiphertext (P : Type) where
  R : P
  C : List ℕ
deriving DecidableEq

section NIZK

variable {F P : Type} [Field F] [AddCommGroup P] [Module F P]

/-- The challenge `t = SetBytes(Sum256(Cbin ‖ sbin ‖ Xbin))`, computed in the same
way by `ProveEncrypt` and by `VerifyEncrypt`. -/
def challenge (E : Extern F P) (X Ci S : P) : F :=
  let Xbin := E.MarshalBinary X
  let Cbin := E.MarshalBinary Ci
  let sbin := E.MarshalBinary S
  let inp := Cbin ++ sbin
  let inp := inp ++ Xbin
  E.SetBytes (E.Sum256 inp)

/-- Loop of `ProveEncrypt`; `n` counts the scalars picked so far (`r`, then `s`, at
each position).  The result lists are `R`, `C`, `proof.S`, `proof.U`. -/
def proveEncryptLoop (E : Extern F P) (G X : P) (rnd : ℕ → F) :
    ℕ → List P → List P × List P × List P × List F
  | _, [] => ([], [], [], [])
  | n, m :: msg =>
    let r := rnd n
    let R := r • G
    let C := m + r • X
    let s := rnd (n + 1)
    let S := s • G
    let t := challenge E X C S
    let u := s + t * r
    let rest := proveEncryptLoop E G X rnd (n + 2) msg
    (R :: rest.1, C :: rest.2.1, S :: rest.2.2.1, u :: rest.2.2.2)

/-- Go `ProveEncrypt(X, msg)`. -/
def ProveEncrypt (E : Extern F P) (G X : P) (msg : List P) (rnd : ℕ → F) :
    Ciphertext P × EncProof F P :=
  let out := proveEncryptLoop E G X rnd 0 msg
  ({ R := out.1, C := out.2.1, Y := none }, { S := out.2.2.1, U := out.2.2.2 })

/-- Loop of `VerifyEncrypt` over `c.C`, with `c.R`, `proof.S` and `proof.U` in
lockstep.  `some (.ok ())` is the `nil` error, `some (.error _)` the returned error
and `none` the panic on a missing `proof.U[idx]`, `proof.S[idx]` or `c.R[idx]`. -/
def verifyEncryptLoop [DecidableEq P] (E : Extern F P) (G X : P) :
    List P → List P → List P → List F → Option (Except String Unit)
  | [], _, _, _ => some (.ok ())
  | c :: C, r :: R, s :: S, u :: U =>
    let Upt := u • G
    let t := challenge E X c s
    let Rpt := s + t • r
    if ¬ (Upt = Rpt) then some (.error "Encproof verify failed")
    else verifyEncryptLoop E G X C R S U
  | _ :: _, _, _, _ => none

/-- Go `VerifyEncrypt(X, c, proof)`. -/
def VerifyEncrypt [DecidableEq P] (E : Extern F P) (G X : P) (c : Ciphertext P)
    (proof : EncProof F P) : Option (Except String Unit) :=
  verifyEncryptLoop E G X c.C c.R proof.S proof.U

/-! ## CCA2 hybrid encryption (`crypto/cca2.go`) -/

/-- The array `nonce24` after `copy(nonce24[:], nonce)`: the first 24 bytes of
`nonce`, padded with zeros. -/
def nonce24 (nonce : List ℕ) : List ℕ :=
  nonce.take 24 ++ List.replicate (24 - nonce.length) 0

/-- Go `CCA2Encrypt(plaintext, nonce, X)`; `rnd 0` is the ephemeral scalar. -/
def CCA2Encrypt (E : Extern F P) (G : P) (plaintext nonce : List ℕ) (X : P)
    (rnd : ℕ → F) : InnerCiphertext P :=
  let r := rnd 0
  let R := r • G
  let shared := r • X
  let sharedBytes := E.MarshalBinary shared
  let pubBytes := E.MarshalBinary X
  let key_nonce := pubBytes ++ sharedBytes
  let key := E.ShakeSum128 key_nonce
  let ciphertext := E.Seal plaintext (nonce24 nonce) key
  { R := R, C := ciphertext }

/-- Go `CCA2Decrypt(inner, nonce, x, X)`. -/
def CCA2Decrypt (E : Extern F P) (inner : InnerCiphertext P) (nonce : List ℕ) (x : F)
    (X : P) : Except String (List ℕ) :=
  let shared := x • inner.R
  let sharedBytes := E.MarshalBinary shared
  let pubBytes := E.MarshalBinary X
  let key_nonce := pubBytes ++ sharedBytes
  let key := E.ShakeSum128 key_nonce
  match E.Open inner.C (nonce24 nonce) key with
  | none => .error "Misauthenticated msg"
  | some msg => .ok msg

end NIZK

/-! ## Lagrange recombination (`crypto/threshold.go`) -/

section Threshold

variable {F : Type} [Field F]

/-- Go `Threshold.Lagrange(group)` for the member at index `myIdx` holding the share
value `share` (`t.secret.Share.V`).  Member indices are positions in the group, so
`1 + int64(idx)` does not wrap; `SetInt64` is the cast into the scalar field, and
`Div` multiplies by the inverse. -/
def Lagrange (myIdx : ℕ) (share : F) (group : List ℕ) : F :=
  let xServer : F := ((1 + myIdx : ℕ) : F)
  let nd : F × F := group.foldl (fun nd j =>
    if j = myIdx then nd
    else (nd.1 * ((1 + j : ℕ) : F), nd.2 * (((1 + j : ℕ) : F) - xServer))) (1, 1)
  let numer := nd.1 / nd.2
  numer * share

end Threshold

/-! ## Trap commitments (`crypto/crypto.go`) -/

/-- A trap: entry-group id (a Go `int`) and nonce bytes. -/
structure Trap where
  Gid : Int
  Nonce : List ℕ
deriving DecidableEq, Repr

/-- The conversion `uint64(x)` of a Go `int`. -/
def uint64 (x : Int) : ℕ := (x % 2 ^ 64).toNat

/-- The loop of `binary.PutUvarint` writing `x` into the rest of the buffer:
`buf[i] = byte(x) | 0x80; x >>= 7` while `x >= 0x80`, then `buf[i] = byte(x)`.
Running out of buffer is the index-out-of-range panic. -/
def putUvarintLoop : ℕ → List ℕ → Option (List ℕ)
  | _, [] => none
  | x, _ :: buf =>
    if x ≥ 0x80 then (putUvarintLoop (x >>> 7) buf).map fun rest => (x % 256 ||| 0x80) :: rest
    else some (x % 256 :: buf)

/-- Go `binary.PutUvarint(buf, x)`: the buffer after the call (the byte count it returns
is not used by the callers). -/
def PutUvarint (buf : List ℕ) (x : ℕ) : Option (List ℕ) := putUvarintLoop x buf

/-- The byte string `b` that `Commit` and `VerifyCommitment` hash: the 8-byte buffer
after `PutUvarint`, followed by the nonce. -/
def commitInput (trap : Trap) : Option (List ℕ) :=
  let buf := List.replicate 8 0
  let gid := uint64 trap.Gid
  (PutUvarint buf gid).map fun buf => buf ++ trap.Nonce

/-- Go `Commit(trap)`, with `sha3.Sum256` as a parameter. -/
def Commit (Sum256 : List ℕ → List ℕ) (trap : Trap) : Option (List ℕ) :=
  (commitInput trap).map Sum256

/-- Go `VerifyCommitment(trap, comm)`. -/
def VerifyCommitment (Sum256 : List ℕ → List ℕ) (trap : Trap) (comm : List ℕ) : Option Bool :=
  (commitInput trap).map fun b =>
    let res := Sum256 b
    if res = comm then true else false

/-- Reading back a buffer written by `PutUvarint`: bytes with the top bit set carry
seven more bits each. -/
def uvarintValue : List ℕ → ℕ
  | [] => 0
  | b :: rest => if b ≥ 128 then (b - 128) + 128 * uvarintValue rest else b

/-! ## Trustee report check (`trustee/trustee.go`) -/

/-- The struct `ReportArgs` of `atomrpc/types.go`. -/
structure ReportArgs where
  Round : Int
  Sid : Int
  Uid : Int
  CorrectHash : Bool
  CorrectTraps : Bool
  NoDups : Bool
  NumTraps : Int
  NumMsgs : Int
deriving DecidableEq, Repr

/-- A Go `int` result on a 64-bit platform: two's-complement wrap-around. -/
def wrapInt64 (x : Int) : Int := (x + 2 ^ 63) % 2 ^ 64 - 2 ^ 63

/-- A `map[int]int` as an association list in insertion order; `m[k]` is the zero
value for a missing key. -/
def mapGet (m : List (Int × Int)) (k : Int) : Int := (m.lookup k).getD 0

/-- The assignment `m[k] = v`. -/
def mapSet (m : List (Int × Int)) (k v : Int) : List (Int × Int) :=
  if (m.lookup k).isSome then m.map (fun p => if p.1 = k then (k, v) else p)
  else m ++ [(k, v)]

/-- The expected number of reports, set in `getDirectory`. -/
def NumReports (NumGroups Threshold : ℕ) : ℕ := NumGroups * Threshold

/-- The local state of `checkReports` together with `sent`, the values that the
goroutine has put on the channel `roundGood[round]`, oldest first.  A send on the
full channel waits for a receiver, so `sent` lists the values in the order in which
receivers get them; values after the last receive are never delivered. -/
structure CheckState where
  totalTraps : List (Int × Int)
  totalMsgs : List (Int × Int)
  sent : List Bool

/-- Go `returnResult(round, res)`: `NumReports` sends of `res`. -/
def returnResult (numReports : ℕ) (res : Bool) (sent : List Bool) : List Bool :=
  sent ++ List.replicate numReports res

/-- One iteration of the first loop of `checkReports`, for the report just taken
from `reports[round]`.  A call of `returnResult` does not leave the loop. -/
def checkStep (numReports : ℕ) (st : CheckState) (report : ReportArgs) : CheckState :=
  let sent :=
    if !report.CorrectHash || !report.CorrectTraps || !report.NoDups then
      returnResult numReports false st.sent
    else st.sent
  let absent := (st.totalTraps.lookup report.Uid).isNone
  let totalTraps := if absent then mapSet st.totalTraps report.Uid report.NumTraps
    else st.totalTraps
  let totalMsgs := if absent then mapSet st.totalMsgs report.Uid report.NumMsgs
    else st.totalMsgs
  let sent :=
    if mapGet totalTraps report.Uid != report.NumTraps ||
        mapGet totalMsgs report.Uid != report.NumMsgs then
      returnResult numReports false sent
    else sent
  { totalTraps := totalTraps, totalMsgs := totalMsgs, sent := sent }

/-- Go `checkReports(round)` run on the reports that arrive on `reports[round]`, in
order of arrival; the result is the sequence of values sent on `roundGood[round]`.
With fewer than `NumReports` reports the goroutine stays in the first loop.  The
second loop visits the keys of `totalTraps` (in any order: the sums do not depend on
it) and adds in `int` arithmetic. -/
def checkReports (numReports : ℕ) (reports : List ReportArgs) : List Bool :=
  let st := (reports.take numReports).foldl (checkStep numReports)
    { totalTraps := [], totalMsgs := [], sent := [] }
  if reports.length < numReports then st.sent
  else
    let sums := (st.totalTraps.map Prod.fst).foldl (fun (acc : Int × Int) uid =>
      (wrapInt64 (acc.1 + mapGet st.totalTraps uid), wrapInt64 (acc.2 + mapGet st.totalMsgs uid)))
      (0, 0)
    let sent := if sums.1 != sums.2 then returnResult numReports false st.sent else st.sent
    returnResult numReports true sent

/-- Go `TrusteeRPC.Report` for the caller that makes the `k`-th receive on
`roundGood[round]`: the reply carries the trustee's private key `Priv` when the value
is `true`, otherwise the error is returned; `none` when no value ever arrives. -/
def Report {K : Type} (Priv : K) (sent : List Bool) (k : ℕ) : Option (Except String K) :=
  (sent[k]?).map fun ok => if ok then .ok Priv else .error "Report failed"

/-- The `NumTraps` carried by the reports of group `uid` (of the first such report;
`0` when there is none). -/
def numTrapsOf (reports : List ReportArgs) (uid : Int) : Int :=
  ((reports.find? (fun r => r.Uid == uid)).map ReportArgs.NumTraps).getD 0

/-- The `NumMsgs` carried by the reports of group `uid`. -/
def numMsgsOf (reports : List ReportArgs) (uid : Int) : Int :=
  ((reports.find? (fun r => r.Uid == uid)).map ReportArgs.NumMsgs).getD 0

/-- The reports pass on their own: every flag is true and reports with the same
`Uid` carry the same `NumTraps` and `NumMsgs`. -/
def reportsConsistent (reports : List ReportArgs) : Prop :=
  (∀ r ∈ reports, r.CorrectHash = true ∧ r.CorrectTraps = true ∧ r.NoDups = true) ∧
  (∀ r ∈ reports, ∀ r' ∈ reports, r.Uid = r'.Uid →
    r.NumTraps = r'.NumTraps ∧ r.NumMsgs = r'.NumMsgs)

/-- The acceptance condition that `checkReports` computes: the reports are consistent
and the sum of `NumTraps` over the distinct `Uid`s equals the sum of `NumMsgs` over the
distinct `Uid`s, both sums taken as Go `int` values, with 64-bit wrap-around. -/
def reportsAcceptedInt (reports : List ReportArgs) : Prop :=
  reportsConsistent reports ∧
  wrapInt64 (∑ uid ∈ (reports.map ReportArgs.Uid).toFinset, numTrapsOf reports uid)
    = wrapInt64 (∑ uid ∈ (reports.map ReportArgs.Uid).toFinset, numMsgsOf reports uid)

/-- The acceptance condition of the trustee in the words of the specification: the
reports are consistent and the sum of `NumTraps` over the distinct `Uid`s equals the
sum of `NumMsgs` over the distinct `Uid`s, the sums being the exact integers. -/
def reportsAccepted (reports : List ReportArgs) : Prop :=
  reportsConsistent reports ∧
  ∑ uid ∈ (reports.map ReportArgs.Uid).toFinset, numTrapsOf reports uid
    = ∑ uid ∈ (reports.map ReportArgs.Uid).toFinset, numMsgsOf reports uid

/-- The integer is the value of a Go `int` on a 64-bit platform. -/
def fitsInt64 (x : Int) : Prop := -2 ^ 63 ≤ x ∧ x < 2 ^ 63

/-- The relation between the reports `pre` taken so far and the state of
`checkReports`: both maps hold, per `Uid`, the counts of the first report of that
`Uid`; nothing has been sent while the reports are consistent, and otherwise the
first `n` values sent are `false`. -/
def CheckInv (n : ℕ) (pre : List ReportArgs) (st : CheckState) : Prop :=
  (∀ u, st.totalTraps.lookup u
    = (pre.find? (fun r => r.Uid == u)).map ReportArgs.NumTraps) ∧
  (∀ u, st.totalMsgs.lookup u
    = (pre.find? (fun r => r.Uid == u)).map ReportArgs.NumMsgs) ∧
  (st.totalTraps.map Prod.fst).Nodup ∧
  (reportsConsistent pre → st.sent = []) ∧
  (¬ reportsConsistent pre → ∃ rest, st.sent = List.replicate n false ++ rest)

/-! ## Encodings (`crypto/encoding.go`, `crypto/crypto.go`) -/

/-- The unsigned-varint encoding of a number, as the specification names it
(`uvarint(gid)`): seven bits per byte, least significant group first, the top bit set
on every byte but the last. -/
def uvarintBytes (x : ℕ) : List ℕ :=
  if x < 128 then [x] else (x % 128 + 128) :: uvarintBytes (x / 128)
termination_by x
decreasing_by omega

/-- The conversion `uint32(x)` of a Go `int`. -/
def uint32 (x : Int) : ℕ := (x % 2 ^ 32).toNat

/-- The four bytes written by `binary.Write(buf, binary.LittleEndian, v)` for a
`uint32`. -/
def putUint32LE (v : ℕ) : List ℕ :=
  [v % 256, v / 256 % 256, v / 65536 % 256, v / 16777216 % 256]

/-- Go `Trap.MarshalBinary`: the little-endian `uint32(t.Gid)`, then the nonce.  Writes
to a `bytes.Buffer` do not fail. -/
def Trap.MarshalBinary (t : Trap) : Except String (List ℕ) :=
  let buf := putUint32LE (uint32 t.Gid)
  let buf := buf ++ t.Nonce
  .ok buf

/-- The constant `NONCE_LEN`. -/
def NONCE_LEN : ℕ := 16

/-- Go `Trap.UnmarshalBinary` run on a fresh trap: the trap it leaves, or the error.
`binary.Read` fails on fewer than four bytes; `buf.Read(nonce)` fails only on an empty
rest and otherwise fills the front of the 16-byte `nonce` with what is there. -/
def Trap.UnmarshalBinary (data : List ℕ) : Except String Trap :=
  match data with
  | b0 :: b1 :: b2 :: b3 :: rest =>
    let tmp := b0 + 256 * b1 + 65536 * b2 + 16777216 * b3
    let Gid : Int := (tmp : ℕ)
    if rest = [] then .error "EOF"
    else
      let nonce := rest.take NONCE_LEN ++ List.replicate (NONCE_LEN - rest.length) 0
      .ok { Gid := Gid, Nonce := nonce }
  | [] => .error "EOF"
  | _ => .error "unexpected EOF"

/-! ## Messages (`crypto/crypto_helper.go`) -/

/-- The message type `MSG`. -/
def MSG : ℕ := 0

/-- The message type `TRAP`. -/
def TRAP : ℕ := 1

/-- The message type `OTHER`. -/
def OTHER : ℕ := 2

/-- The embedding of bytes into points provided by kyber, taken as a parameter;
`R` is the type of the random streams handed to `Embed`. -/
structure Embedding (R P : Type) where
  /-- Go `Point.EmbedLen()`, the value of `PickLen()`. -/
  EmbedLen : ℕ
  /-- Go `Point.Embed(data, rand)`. -/
  Embed : List ℕ → R → P
  /-- Go `Point.Data()`. -/
  Data : P → Except String (List ℕ)

/-- Go `compareArray`: equal lengths and equal bytes. -/
def compareArray : List ℕ → List ℕ → Bool
  | [], [] => true
  | a :: arr1, b :: arr2 => if a ≠ b then false else compareArray arr1 arr2
  | _, _ => false

/-- The first loop of `ExtractPlaintext`: the data of the points appended in order,
or the first error of `Data`. -/
def extractLoop {R P : Type} (E : Embedding R P) : List P → Except String (List ℕ)
  | [] => .ok []
  | pt :: msg =>
    match E.Data pt with
    | .error err => .error err
    | .ok p =>
      match extractLoop E msg with
      | .error err => .error err
      | .ok rest => .ok (p ++ rest)

/-- Go `ExtractPlaintext(msg)`: `.ok (plaintext, msgType)` or the error of `Data`.
The result is `none` where the Go code indexes the empty `plaintext` (panic), and
where a trap is cut to `4 + NONCE_LEN` bytes that are not all there (a slice bound
beyond the length: a panic beyond the capacity, bytes that were never written below
it). -/
def ExtractPlaintext {R P : Type} (E : Embedding R P) (msg : List P) :
    Option (Except String (List ℕ × ℕ)) :=
  match extractLoop E msg with
  | .error err => some (.error err)
  | .ok plaintext =>
    match plaintext.getLast? with
    | none => none
    | some msgType =>
      if msgType = TRAP then
        if 4 + NONCE_LEN ≤ plaintext.length then some (.ok (plaintext.take (4 + NONCE_LEN), msgType))
        else none
      else if msgType = MSG then some (.ok (plaintext.dropLast, msgType))
      else some (.ok (plaintext, msgType))

/-- The loop `for !done` of `GenMsg` from chunk `i` on: chunk `i` of `plaintext` is
embedded with its own random stream `rnd i`.  The count bounds the iterations; the
loop needs at most `len(plaintext)` of them when `EmbedLen ≥ 1` and does not end when
`EmbedLen = 0`. -/
def genPoints {R P : Type} (E : Embedding R P) (plaintext : List ℕ) (rnd : ℕ → R) :
    ℕ → ℕ → Option (List P)
  | 0, _ => none
  | fuel + 1, i =>
    let l := E.EmbedLen
    let start := i * l
    let stop := if (i + 1) * l > plaintext.length then plaintext.length else (i + 1) * l
    if start > stop then none
    else
      let pt := E.Embed ((plaintext.drop start).take (stop - start)) (rnd i)
      if stop = plaintext.length then some [pt]
      else (genPoints E plaintext rnd fuel (i + 1)).map fun pts => pt :: pts

/-- Go `GenMsg(msg)`: attempts `a, a + 1, …` until `ExtractPlaintext` gives the bytes
back with type `MSG`; `rnds a i` is the random stream of the `i`-th `Embed` of attempt
`a`, and the first argument bounds the number of attempts (`none`: no result within
the bound, or a panic). -/
def GenMsg {R P : Type} (E : Embedding R P) (msg : List ℕ) (rnds : ℕ → ℕ → R) :
    ℕ → ℕ → Option (List P)
  | 0, _ => none
  | fuel + 1, a =>
    let plaintext := msg ++ [MSG]
    match genPoints E plaintext (rnds a) plaintext.length 0 with
    | none => none
    | some pts =>
      match ExtractPlaintext E pts with
      | none => none
      | some (.ok (res, ty)) =>
        if ty = MSG ∧ compareArray msg res = true then some pts
        else GenMsg E msg rnds fuel (a + 1)
      | some (.error _) => GenMsg E msg rnds fuel (a + 1)

/-! ## Group generation (`common/group_gen.go`, `common/lib.go`, `crypto/rand.go`) -/

/-- The network type `BUTTERFLY`. -/
def BUTTERFLY : Int := 0

/-- The network type `SQUARE`. -/
def SQUARE : Int := 1

/-- The struct `Group` of `common/types.go`.  A pointer `*Group` of `AdjList` is the
position `(level, gid)` of the group in the network that `GenerateGroups` returns, or
`none` for `nil`; the `nil` slice is the empty list. -/
structure Group (P : Type) where
  Members : List Int
  MemberKeys : List P
  GroupKey : Option P
  Level : Int
  Gid : Int
  Uid : Int
  AdjList : List (Option (ℕ × ℕ))
deriving DecidableEq, Repr

/-- The group `groupss[level][gid]` of a network. -/
def groupAt {P : Type} (groupss : List (List (Group P))) (level gid : ℕ) : Option (Group P) :=
  (groupss[level]?).bind fun groups => groups[gid]?

/-- The loop of `binary.Uvarint` at byte `i` of the buffer, with the value `x` and the
shift `s` reached so far; the results with a count `≤ 0` carry the value `0`. -/
def uvarintLoop : List ℕ → ℕ → ℕ → ℕ → ℕ
  | [], _, _, _ => 0
  | b :: buf, i, x, s =>
    if i = 10 then 0
    else if b < 0x80 then
      if i = 9 ∧ b > 1 then 0
      else x ||| (b <<< s) % 2 ^ 64
    else uvarintLoop buf (i + 1) (x ||| ((b &&& 0x7f) <<< s) % 2 ^ 64) (s + 7)

/-- Go `binary.Uvarint(buf)`: the value (the byte count is dropped by the caller). -/
def Uvarint (buf : List ℕ) : ℕ := uvarintLoop buf 0 0 0

/-- Go `Reader.UInt()`, the `n`-th call on a reader whose byte stream is `rand`: eight
bytes of the stream are read and decoded.  Eight bytes carry at most 56 bits, so that
`int(tmp)` is `tmp`. -/
def UInt (rand : ℕ → ℕ) (n : ℕ) : Int :=
  let buf := (List.range 8).map fun j => rand (8 * n + j) % 256
  let tmp := Uvarint buf
  (tmp : Int)

/-- Go `IsMember(val, set)`. -/
def IsMember (val : Int) : List Int → Bool
  | [] => false
  | v :: set => if val = v then true else IsMember val set

/-- The loop `for { idx := rand.UInt() % numServers; … }` of `GenRandomGroup` for one
slot, started after `n` calls of `UInt`: the server picked and the number of calls
made.  The first count bounds the iterations. -/
def pickServer (rand : ℕ → ℕ) (numServers : ℕ) (group : List Int) : ℕ → ℕ → Option (Int × ℕ)
  | 0, _ => none
  | fuel + 1, n =>
    if numServers = 0 then none
    else
      let idx := UInt rand n % (numServers : Int)
      if !IsMember idx group then some (idx, n + 1)
      else pickServer rand numServers group fuel (n + 1)

/-- Go `GenRandomGroup(numServers, numGroups, perGroup, rand)` on a reader that has
made `n` calls: the group and the number of calls after it. -/
def GenRandomGroup (rand : ℕ → ℕ) (fuel numServers numGroups perGroup n : ℕ) :
    Option (List Int × ℕ) :=
  let group := List.replicate perGroup (-1 : Int)
  forLoop (fun s (st : List Int × ℕ) =>
    (pickServer rand numServers st.1 fuel st.2).map fun r => (st.1.set s r.1, r.2))
    perGroup 0 (group, n)

/-- A loop `for i := range out` that fills the slots of a fresh slice `out` in order,
with a state threaded through: the slice and the last state. -/
def forCollect {σ α : Type} (body : ℕ → σ → Option (α × σ)) : ℕ → ℕ → σ → Option (List α × σ)
  | 0, _, s => some ([], s)
  | n + 1, i, s =>
    match body i s with
    | none => none
    | some (a, s') =>
      match forCollect body n (i + 1) s' with
      | none => none
      | some (out, s'') => some (a :: out, s'')

/-- One iteration of the loop over `baseGroups`: the random group is sorted
(`sort.Ints`: the ascending arrangement) and rotated; `gid % perGroup` panics for
`perGroup = 0`. -/
def baseGroup (rand : ℕ → ℕ) (fuel numServers numGroups perGroup gid n : ℕ) :
    Option (List Int × ℕ) :=
  match GenRandomGroup rand fuel numServers numGroups perGroup n with
  | none => none
  | some (group, n') =>
    let sorted := group.insertionSort (· ≤ ·)
    if perGroup = 0 then none
    else some (sorted.drop (gid % perGroup) ++ sorted.take (gid % perGroup), n')

/-- The loop `for { uid = rand.UInt(); … }`: the uid, the number of calls made and the
new `usedUids`.  The map `usedUids` (all of whose values are `true`) is the list of its
keys. -/
def pickUid (rand : ℕ → ℕ) (usedUids : List Int) : ℕ → ℕ → Option (Int × ℕ × List Int)
  | 0, _ => none
  | fuel + 1, n =>
    let uid := UInt rand n
    if IsMember uid usedUids then pickUid rand usedUids fuel (n + 1)
    else some (uid, n + 1, usedUids ++ [uid])

/-- The loop `for m, member := range members` over `publicKeys[member]`. -/
def memberKeysOf {P : Type} (publicKeys : List P) : List Int → Option (List P)
  | [] => some []
  | member :: members =>
    if member < 0 then none
    else
      match publicKeys[member.toNat]? with
      | none => none
      | some key => (memberKeysOf publicKeys members).map fun keys => key :: keys

/-- The body of the loop over `groupss[level]`: the group `(level, gid)` before the
adjacency lists are set.  The state is the number of calls of `UInt` and `usedUids`. -/
def newGroup {P : Type} (rand : ℕ → ℕ) (fuel : ℕ) (baseGroups : List (List Int))
    (publicKeys : List P) (level gid : ℕ) (st : ℕ × List Int) :
    Option (Group P × ℕ × List Int) :=
  match baseGroups[gid]? with
  | none => none
  | some members =>
    match memberKeysOf publicKeys members with
    | none => none
    | some memberKeys =>
      match pickUid rand st.2 fuel st.1 with
      | none => none
      | some (uid, n', usedUids) =>
        some ({ Members := members, MemberKeys := memberKeys, GroupKey := none,
                Level := level, Gid := gid, Uid := uid, AdjList := [] }, n', usedUids)

/-- The body of the two loops of the branch `netType == BUTTERFLY` for `(gid, level)`:
the new `AdjList`.  `level % oneButterfly` panics for `oneButterfly = 0`, and so does
`groupss[level+1][nextGroup]` for `nextGroup` outside `[0, numGroups)`. -/
def butterflyAdj (oneButterfly numGroups numLevels level gid : ℕ) :
    Option (List (Option (ℕ × ℕ))) :=
  if oneButterfly = 0 then none
  else
    let shift := level % oneButterfly
    let nextGroup : Int :=
      if (gid >>> shift) &&& 1 = 0 then wrapInt64 (gid + wrapInt64 ((1 <<< shift : ℕ) : Int))
      else wrapInt64 (gid - wrapInt64 ((1 <<< shift : ℕ) : Int))
    if (level : Int) < (numLevels : Int) - 1 then
      if 0 ≤ nextGroup ∧ nextGroup < numGroups then
        some [some (level + 1, gid), some (level + 1, nextGroup.toNat)]
      else none
    else some [none, none]

/-- The body of the two loops of the branch `netType == SQUARE`. -/
def squareAdj (numGroups numLevels level : ℕ) : List (Option (ℕ × ℕ)) :=
  if (level : Int) < (numLevels : Int) - 1 then
    (List.range numGroups).map fun neighbor => some (level + 1, neighbor)
  else []

/-- A loop over the slots of a slice that replaces each element. -/
def mapIdxOpt {α β : Type} (f : ℕ → α → Option β) : List α → ℕ → Option (List β)
  | [], _ => some []
  | a :: l, i =>
    match f i a with
    | none => none
    | some b => (mapIdxOpt f l (i + 1)).map fun out => b :: out

/-- The assignments `groupss[level][gid].AdjList = …` for all levels and gids.  The
iterations write different groups and read none, so they are run level by level. -/
def setAdjLists {P : Type} (adj : ℕ → ℕ → Option (List (Option (ℕ × ℕ))))
    (groupss : List (List (Group P))) : Option (List (List (Group P))) :=
  mapIdxOpt (fun level groups =>
    mapIdxOpt (fun gid (g : Group P) => (adj level gid).map fun a => { g with AdjList := a })
      groups 0) groupss 0

/-- Go `GenerateGroups(seed, netType, numServers, numGroups, perGroup, numLevels,
publicKeys)`.  The counts are natural numbers (`make` panics on a negative length).
`rand` is the byte stream of SHAKE128 on the seed, `fuel` bounds the iterations of each
retry loop, and `Log2` is Go `Log2` of `common/lib.go`, which goes through `float64`.
The result is `none` for a panic and for a retry loop that does not end within the
bound. -/
def GenerateGroups {P : Type} (Log2 : ℕ → ℕ) (rand : ℕ → ℕ) (fuel : ℕ) (netType : Int)
    (numServers numGroups perGroup numLevels : ℕ) (publicKeys : List P) :
    Option (List (List (Group P))) :=
  match forCollect (baseGroup rand fuel numServers numGroups perGroup) numGroups 0 0 with
  | none => none
  | some (baseGroups, n) =>
    match forCollect (fun level st =>
        forCollect (newGroup rand fuel baseGroups publicKeys level) numGroups 0 st)
        numLevels 0 (n, []) with
    | none => none
    | some (groupss, _) =>
      if netType = BUTTERFLY then
        let oneButterfly := Log2 numGroups
        setAdjLists (butterflyAdj oneButterfly numGroups numLevels) groupss
      else if netType = SQUARE then
        setAdjLists (fun level _ => some (squareAdj numGroups numLevels level)) groupss
      else some groupss

/-! ## Output database (`db/db.go`) and the end of a round (`server/server.go`) -/

/-- The mode `VER_MODE`. -/
def VER_MODE : Int := 0

/-- The mode `TRAP_MODE`. -/
def TRAP_MODE : Int := 1

/-- The struct `DBArgs` of `atomrpc/types.go`. -/
structure DBArgs where
  Round : Int
  NumGroups : Int
  Msgs : List (List ℕ)
deriving DecidableEq, Repr

/-- The struct `entry` of `db/db.go`, the record of one round: `numGroups` is, in the
words of the source, the "number of groups who sent you msg in a round". -/
structure entry where
  numGroups : Int
  msgs : List (List ℕ)
deriving DecidableEq, Repr

/-- The entry made by `createEntry`. -/
def createEntry : entry := { numGroups := 0, msgs := [] }

/-- Go `DB.Write(args)` on the entry of round `args.Round`. -/
def DB.Write (e : entry) (args : DBArgs) : entry :=
  { msgs := e.msgs ++ args.Msgs, numGroups := wrapInt64 (e.numGroups + 1) }

/-- Go `DB.Read(args)` on the entry of round `args.Round`: `none` while the call
waits for `numGroups` to reach `args.NumGroups`. -/
def DB.Read (e : entry) (args : DBArgs) : Option (List (List ℕ)) :=
  if e.numGroups < args.NumGroups then none else some e.msgs

/-- The calls of `DB.Write` made by one run of `finalize` for the member with index
`idx` in its group, where `args.Group = Group`.  In an honest round every check and
every trustee report succeeds; `plaintexts` stands for `args.Plaintexts` in
verifiable mode and for the decrypted inner ciphertexts of the member's results in
trap mode.  `args.Group[len(args.Group)-1]` panics on an empty `Group`. -/
def finalize (Mode NumGroups Round : Int) (Group : List Int) (idx : Int)
    (plaintexts : List (List ℕ)) : Option (List DBArgs) :=
  match Group.getLast? with
  | none => none
  | some g =>
    let last := g == idx
    if Mode = VER_MODE then
      if last then some [{ Round := Round, NumGroups := NumGroups, Msgs := plaintexts }]
      else some []
    else some [{ Round := Round, NumGroups := NumGroups, Msgs := plaintexts }]

/-- The calls of `DB.Write` of a round in trap mode, entry group by entry group: the
last server of every exit group sends `Finalize` for each `group` of `network[0]` to
the members `group.Members[idx]`, `idx` in `args.Group`, and each of these members
runs `finalize` once (`finalizeStarted`) on the inner ciphertexts of its entry group,
whose plaintexts are `plaintextsOf gid`. -/
def roundWrites (NumGroups Round : Int) (Group : List Int)
    (plaintextsOf : ℕ → List (List ℕ)) : Option (List DBArgs) :=
  (forCollect (fun gid (_ : Unit) =>
    (forCollect (fun i (_ : Unit) =>
      match Group[i]? with
      | none => none
      | some idx =>
        (finalize TRAP_MODE NumGroups Round Group idx (plaintextsOf gid)).map fun w => (w, ()))
      Group.length 0 ()).map fun r => (r.1.flatten, ()))
    NumGroups.toNat 0 ()).map fun r => r.1.flatten

/-- A condition on the stream under which the loop of `GenRandomGroup` ends within
`fuel` draws: among any `fuel` consecutive draws every server id occurs. -/
def drawsCover (rand : ℕ → ℕ) (fuel numServers : ℕ) : Prop :=
  ∀ n x, x < numServers → ∃ j, j < fuel ∧ UInt rand (n + j) % (numServers : Int) = (x : Int)

/-- A condition on the stream under which the uid loop ends within `fuel` draws when
fewer than `fuel` uids are in use: any `fuel` consecutive draws differ from each
other. -/
def drawsDistinct (rand : ℕ → ℕ) (fuel : ℕ) : Prop :=
  ∀ n j1 j2, j1 < j2 → j2 < fuel → UInt rand (n + j1) ≠ UInt rand (n + j2)

/-- The state of the loop of `GenRandomGroup` before slot `s`: the slots before `s`
hold different server ids, the other slots hold `-1`. -/
def groupInv (numServers perGroup s : ℕ) (st : List Int × ℕ) : Prop :=
  st.1.length = perGroup ∧ (st.1.take s).Nodup ∧
  (∀ x ∈ st.1.take s, 0 ≤ x ∧ x < (numServers : Int)) ∧ (∀ x ∈ st.1.drop s, x = -1)

/-! ## Division of a batch among the neighbours (`server/member.go`) -/

/-- The slice expression `l[lo:hi]`: the bounds must satisfy `lo ≤ hi ≤ len(l)` (all
slices taken in this development end within the length); `none` is the panic. -/
def sliceOf {α : Type} (l : List α) (lo hi : ℕ) : Option (List α) :=
  if lo ≤ hi ∧ hi ≤ l.length then some ((l.take hi).drop lo) else none

/-- Go `Member.divide(cs)` for a member whose group has `numAdj = len(AdjList)`
neighbours. -/
def divide {α : Type} (numAdj : ℕ) (cs : List α) : Option (List (List α)) :=
  let numNeighbors := if numAdj = 0 then 1 else numAdj
  let batchSize := cs.length / numNeighbors
  (forCollect (fun b (_ : Unit) =>
    (sliceOf cs (b * batchSize) ((b + 1) * batchSize)).map fun batch => (batch, ()))
    numNeighbors 0 ()).map fun r => r.1

/-! ## The trap check of `finalize` (`server/server.go`, `server/helper.go`) -/

/-- Go `memberCommitment(comm, comms)`. -/
def memberCommitment (comm : List ℕ) : List (List ℕ) → Bool
  | [] => false
  | c :: comms => if comm = c then true else memberCommitment comm comms

/-- The loop `comms[t] = Commit(traps[t])`. -/
def commitAll (Sum256 : List ℕ → List ℕ) : List Trap → Option (List (List ℕ))
  | [] => some []
  | trap :: traps =>
    match Commit Sum256 trap with
    | none => none
    | some comm => (commitAll Sum256 traps).map fun comms => comm :: comms

/-- The value of `correctTraps` in `finalize` for the received `traps` and the stored
commitments `expComms` of the round; `none` when `Commit` panics. -/
def correctTraps (Sum256 : List ℕ → List ℕ) (traps : List Trap) (expComms : List (List ℕ)) :
    Option Bool :=
  (commitAll Sum256 traps).map fun comms =>
    let correctTraps : Bool := expComms.length == comms.length
    expComms.foldl (fun correctTraps comm => correctTraps && memberCommitment comm comms)
      correctTraps

/-! ## Re-encryption proof (`crypto/nizk.go`) -/

/-- The public values of the predicate `Rep("Y'-Y", "-h", "X", "r", "B")` of kyber's
`proof` package, which states `Y'-Y = (-h)·X + r·B`; `YY` is the point named
`"Y'-Y"`. -/
structure RepPub (P : Type) where
  B : P
  X : P
  YY : P
deriving DecidableEq, Repr

/-- The hash proofs of kyber's `proof` package, taken as parameters. -/
structure ProofExtern (F P : Type) where
  /-- Go `proof.HashProve(SUITE, "Decrypt", p.Prover(SUITE, sec, pub, nil))` for the
  secrets `"-h"` and `"r"`; the number selects the randomness of the prover. -/
  HashProve : ℕ → F → F → RepPub P → Except String (List ℕ)
  /-- Go `proof.HashVerify(SUITE, "Decrypt", p.Verifier(SUITE, pub), proof)`. -/
  HashVerify : RepPub P → List ℕ → Except String Unit

section ReencProof

variable {F P : Type} [Field F] [AddCommGroup P] [Module F P]

/-- The body of the loop of `ProveReencrypt` at one position with `c.R[idx] = r`,
`c.C[idx] = c`, `c.Y[idx] = y` and the fresh scalar `rBar`: the new `R`, `C`, `Y` and
the public values given to the prover.  The methods of a kyber point store their result
in the receiver: `ctmp` is the point `blind` after `blind.Sub(c, blind)`, and
`ctmp.Add(ctmp, newBlind)` overwrites it, so that `newC` and `ctmp` are one point when
`"Y'-Y"` is computed as `Sub(ctmp, c)`. -/
def proveReencryptStep (G : P) (x : F) (XBar : P) (r c y : P) (rBar : F) :
    P × P × P × RepPub P :=
  let blind := x • y
  let blind := c - blind
  let ctmp := blind
  let newR := rBar • G
  let newR := r + newR
  let newBlind := rBar • XBar
  let ctmp := ctmp + newBlind
  let newC := ctmp
  let pub : RepPub P := { B := XBar, X := y, YY := ctmp - c }
  (newR, newC, y, pub)

/-- Loop of `ProveReencrypt` over `c.C` with `c.R` and `c.Y` in lockstep, as
`reencryptLoop`; per position the new `R`, `C`, `Y`, the public values and the proof.
An error of `HashProve` ends the program (`log.Fatal`): `none`. -/
def proveReencryptLoop (PE : ProofExtern F P) (G : P) (x : F) (XBar : P) (rnd : ℕ → F) :
    ℕ → List P → List P → List P → Option (List (P × P × P × RepPub P × List ℕ))
  | _, [], [], [] => some []
  | idx, r :: R, c :: C, y :: Y =>
    let negx := -x
    let rBar := rnd idx
    let step := proveReencryptStep G x XBar r c y rBar
    match PE.HashProve idx negx rBar step.2.2.2 with
    | .error _ => none
    | .ok proof =>
      (proveReencryptLoop PE G x XBar rnd (idx + 1) R C Y).map fun rest =>
        (step.1, step.2.1, step.2.2.1, step.2.2.2, proof) :: rest
  | _, _, _, _ => none

/-- The positions of `ProveReencrypt(x, XBar, c)`. -/
def proveReencryptSteps (PE : ProofExtern F P) (G : P) (x : F) (XBar : P) (c : Ciphertext P)
    (rnd : ℕ → F) : Option (List (P × P × P × RepPub P × List ℕ)) :=
  let RY : List P × List P :=
    match c.Y with
    | none => (List.replicate c.R.length 0, c.R)
    | some Y => (c.R, Y)
  proveReencryptLoop PE G x XBar rnd 0 RY.1 c.C RY.2

/-- Go `ProveReencrypt(x, XBar, c)`: the ciphertext and the proofs. -/
def ProveReencrypt (PE : ProofExtern F P) (G : P) (x : F) (XBar : P) (c : Ciphertext P)
    (rnd : ℕ → F) : Option (Ciphertext P × List (List ℕ)) :=
  (proveReencryptSteps PE G x XBar c rnd).map fun steps =>
    ({ R := steps.map fun s => s.1, C := steps.map fun s => s.2.1,
       Y := some (steps.map fun s => s.2.2.1) },
     steps.map fun s => s.2.2.2.2)

/-- The public values that `VerifyReencrypt(X, old, new, proofs)` computes at one
position from `new.C[idx]`, `new.Y[idx]` and `old.C[idx]`. -/
def verifyReencryptPub (X : P) (newC newY oldC : P) : RepPub P :=
  { B := X, X := newY, YY := newC - oldC }

/-- Loop of `VerifyReencrypt` over `new.C`, with `new.Y`, `old.C` and `proofs` in
lockstep; `none` is the panic on a missing entry. -/
def verifyReencryptLoop (PE : ProofExtern F P) (X : P) :
    List P → List P → List P → List (List ℕ) → Option (Except String Unit)
  | [], _, _, _ => some (.ok ())
  | nc :: newC, ny :: newY, oc :: oldC, proof :: proofs =>
    match PE.HashVerify (verifyReencryptPub X nc ny oc) proof with
    | .error err => some (.error err)
    | .ok _ => verifyReencryptLoop PE X newC newY oldC proofs
  | _ :: _, _, _, _ => none

/-- Go `VerifyReencrypt(X, old, new, proofs)`. -/
def VerifyReencrypt (PE : ProofExtern F P) (X : P) (old new : Ciphertext P)
    (proofs : List (List ℕ)) : Option (Except String Unit) :=
  verifyReencryptLoop PE X new.C (new.Y.getD []) old.C proofs

end ReencProof

/-! ## Batched re-encryption (`crypto/crypto.go`) -/

section ReencBatches

variable {F P : Type} [Field F] [AddCommGroup P] [Module F P]

/-- The inner loop `for i := range batches[b]` of the first loop nest of
`ReencryptBatches`, on the state `(ciphertexts, pubs, idx)`; an `idx` outside
`ciphertexts` and a missing `pubKeys[b]` are panics. -/
def fillBatch (pubKeys : List P) (b : ℕ) :
    List (Ciphertext P) → List (Ciphertext P) × List (Option P) × ℕ →
      Option (List (Ciphertext P) × List (Option P) × ℕ)
  | [], st => some st
  | c :: batch, st =>
    if st.2.2 < st.1.length then
      match pubKeys[b]? with
      | none => none
      | some X =>
        fillBatch pubKeys b batch (st.1.set st.2.2 c, st.2.1.set st.2.2 (some X), st.2.2 + 1)
    else none

/-- The first loop nest of `ReencryptBatches` from batch `b` on. -/
def fillBatches (pubKeys : List P) :
    ℕ → List (List (Ciphertext P)) → List (Ciphertext P) × List (Option P) × ℕ →
      Option (List (Ciphertext P) × List (Option P) × ℕ)
  | _, [], st => some st
  | b, batch :: batches, st =>
    (fillBatch pubKeys b batch st).bind (fillBatches pubKeys (b + 1) batches)

/-- The call `Reencrypt(priv, pubs[i], c)` of a worker.  With a `nil` key the call
panics as soon as the loop of `Reencrypt` runs. -/
def reencryptAt (G : P) (priv : F) (pubs : List (Option P)) (rnds : ℕ → ℕ → F) (i : ℕ)
    (c : Ciphertext P) : Option (Ciphertext P) :=
  match pubs[i]? with
  | some (some X) => Reencrypt G priv X c (rnds i)
  | some none => if c.C.isEmpty then Reencrypt G priv 0 c (rnds i) else none
  | none => none

/-- The loop of the second loop nest of `ReencryptBatches` for one batch:
`result[b][i] = ciphertexts[idx]; idx++`. -/
def regroupBatch {α β : Type} (ciphertexts : List α) : List β → ℕ → Option (List α × ℕ)
  | [], idx => some ([], idx)
  | _ :: batch, idx =>
    match ciphertexts[idx]? with
    | none => none
    | some c => (regroupBatch ciphertexts batch (idx + 1)).map fun r => (c :: r.1, r.2)

/-- The second loop nest of `ReencryptBatches`. -/
def regroup {α β : Type} (ciphertexts : List α) : List (List β) → ℕ → Option (List (List α))
  | [], _ => some []
  | batch :: batches, idx =>
    match regroupBatch ciphertexts batch idx with
    | none => none
    | some r => (regroup ciphertexts batches r.2).map fun rest => r.1 :: rest

/-- Go `ReencryptBatches(priv, pubKeys, batches)` on a machine with `numCPU` CPUs;
`rnds idx` is the random stream of the call of `Reencrypt` for `ciphertexts[idx]`.
The workers write different slots and are run one after the other, as in `Shuffle`.
`batches[0]` panics on an empty list. -/
def ReencryptBatches (G : P) (numCPU : ℕ) (priv : F) (pubKeys : List P)
    (batches : List (List (Ciphertext P))) (rnds : ℕ → ℕ → F) :
    Option (List (List (Ciphertext P))) :=
  match batches with
  | [] => none
  | batch0 :: _ =>
    let numBatches := batches.length
    let batchSize := batch0.length
    let k := numBatches * batchSize
    let ciphertexts : List (Ciphertext P) := List.replicate k { R := [], C := [], Y := none }
    let pubs : List (Option P) := List.replicate k none
    (fillBatches pubKeys 0 batches (ciphertexts, pubs, 0)).bind fun st =>
    (chunking numCPU k).bind fun cd =>
    (runWorkers cd.1 cd.2 k
      (fun i ciphertexts => (ciphertexts[i]?).bind fun c =>
        (reencryptAt G priv st.2.1 rnds i c).map fun c' => ciphertexts.set i c')
      st.1).bind fun ciphertexts =>
    regroup ciphertexts batches 0

/-- The result of `ReencryptBatches` in the words of the specification: entry `(b, i)`
is `Reencrypt(priv, pubKeys[b], batches[b][i])`, the call for this entry drawing from
the stream `rnds (b·batchSize + i)`. -/
def reencryptEach (G : P) (priv : F) (pubKeys : List P) (batchSize : ℕ)
    (batches : List (List (Ciphertext P))) (rnds : ℕ → ℕ → F) :
    Option (List (List (Ciphertext P))) :=
  mapIdxOpt (fun b batch =>
    mapIdxOpt (fun i c =>
      (pubKeys[b]?).bind fun X => Reencrypt G priv X c (rnds (b * batchSize + i))) batch 0)
    batches 0

end ReencBatches

/-- The value of `pubs` after the first loop nest of `ReencryptBatches` for `n` batches
of `batchSize` ciphertexts from batch `b` on: `pubKeys[b]` repeated `batchSize` times,
batch after batch. -/
def keysOf {P : Type} (pubKeys : List P) (batchSize : ℕ) : ℕ → ℕ → List (Option P)
  | _, 0 => []
  | b, n + 1 => List.replicate batchSize (pubKeys[b]?) ++ keysOf pubKeys batchSize (b + 1) n

/-! ## Inner ciphertexts and traps (`crypto/crypto_helper.go`) -/

/-- The loop of `ExtractInnerAndTraps` with the slices `inners` and `traps` built so
far.  The result is `none` where the Go code panics: a message without points
(`msgs[m][len(msgs[m])-1]`), a last point without data (`p[len(p)-1]`), and a panic of
`ExtractPlaintext` on `msgs[m][1:]`. -/
def extractInnerLoop {R P : Type} (E : Embedding R P) :
    List (List P) → List (InnerCiphertext P) → List Trap →
      Option (Except String (List (InnerCiphertext P) × List Trap))
  | [], inners, traps => some (.ok (inners, traps))
  | msg :: msgs, inners, traps =>
    match msg.getLast? with
    | none => none
    | some last =>
      match E.Data last with
      | .error err => some (.error err)
      | .ok p =>
        match p.getLast? with
        | none => none
        | some msgType =>
          if msgType = TRAP then
            match Trap.UnmarshalBinary p with
            | .error err => some (.error err)
            | .ok trap => extractInnerLoop E msgs inners (traps ++ [trap])
          else
            match ExtractPlaintext E msg.tail with
            | none => none
            | some (.error err) => some (.error err)
            | some (.ok (c, _)) =>
              match msg.head? with
              | none => none
              | some R0 => extractInnerLoop E msgs (inners ++ [{ R := R0, C := c }]) traps

/-- Go `ExtractInnerAndTraps(msgs)`. -/
def ExtractInnerAndTraps {R P : Type} (E : Embedding R P) (msgs : List (List P)) :
    Option (Except String (List (InnerCiphertext P) × List Trap)) :=
  extractInnerLoop E msgs [] []

/-! ## Client (`client/client.go`, `atomrpc/types.go`, `common/lib.go`) -/

/-- Go `Xrange(extent)`: the indices `0, …, extent-1`. -/
def Xrange (extent : ℕ) : List ℕ := List.range extent

/-- The fields of `SystemParameter` that the client reads. -/
structure SystemParameter where
  Mode : Int
  NumMsgs : ℕ
  MsgSize : ℕ
  Threshold : ℕ
deriving DecidableEq, Repr

/-- The struct `ArgInfo` of `atomrpc/types.go`. -/
structure ArgInfo where
  Round : Int
  Level : Int
  Gid : Int
  Cur : Int
  Group : List ℕ
deriving DecidableEq, Repr

/-- The struct `SubmitArgs` of `atomrpc/types.go`. -/
structure SubmitArgs (F P : Type) where
  Id : Int
  Ciphertexts : List (Ciphertext P)
  EncProofs : List (EncProof F P)
  info : ArgInfo
deriving DecidableEq

/-- The struct `CommitArgs` of `atomrpc/types.go`. -/
structure CommitArgs where
  Id : Int
  Comms : List (List ℕ)
  info : ArgInfo
deriving DecidableEq, Repr

/-- The fields of `Client` that `Submit` reads: the client id, the parameters, the
group keys `network[0][gid].GroupKey` of the entry groups and the loaded trustee keys
`LoadPubKey(directory.RoundKeys[round])`. -/
structure Client (P : Type) where
  id : Int
  params : SystemParameter
  groupKeys : List P
  RoundKeys : List P

/-- The randomness drawn during a call of `Submit`: the scalars of `CCA2Encrypt` for
plaintext `i`, the streams of the calls of `Embed` of `GenMsg` for plaintext `i`, the
nonce read by `GenTrap` for trap `t`, the streams of the calls of `Embed` of
`TrapToMessage` for trap `t`, and the scalars of `ProveEncrypt` for message `c`. -/
structure ClientRand (F R : Type) where
  enc : ℕ → ℕ → F
  msg : ℕ → ℕ → ℕ → R
  nonce : ℕ → List ℕ
  trap : ℕ → ℕ → R
  prove : ℕ → ℕ → F

/-- The element at a Go `int` index; `none` is the index-out-of-range panic. -/
def atInt {α : Type} (l : List α) (i : Int) : Option α :=
  if 0 ≤ i then l[i.toNat]? else none

/-- Go `GenTrap(gid)`, with the nonce that `rand.Read` fills in. -/
def GenTrap (gid : Int) (nonce : List ℕ) : Trap := { Gid := gid, Nonce := nonce }

/-- The loop `for` of `TrapToMessage`: attempts `a, a + 1, …` until the point gives
the buffer back; the first argument bounds the number of attempts. -/
def trapPoint {R P : Type} (E : Embedding R P) (buf : List ℕ) (rnd : ℕ → R) :
    ℕ → ℕ → Option P
  | 0, _ => none
  | fuel + 1, a =>
    let pt := E.Embed buf (rnd a)
    match E.Data pt with
    | .error _ => trapPoint E buf rnd fuel (a + 1)
    | .ok res =>
      if compareArray buf res = true then some pt else trapPoint E buf rnd fuel (a + 1)

/-- Go `TrapToMessage(trap, numPts)`: `numPts` copies of the point that embeds the
marshalled trap followed by the type byte. -/
def TrapToMessage {R P : Type} (E : Embedding R P) (trap : Trap) (numPts : ℕ)
    (rnd : ℕ → R) (fuel : ℕ) : Option (Except String (List P)) :=
  match trap.MarshalBinary with
  | .error err => some (.error err)
  | .ok buf =>
    let buf := buf ++ [TRAP]
    (trapPoint E buf rnd fuel 0).map fun pt => .ok (List.replicate numPts pt)

section ClientDef

variable {F P R : Type} [Field F] [AddCommGroup P] [Module F P]

/-- Go `Client.generateMessages(round, plaintexts)`.  In trap mode each plaintext is
sealed for the trustee key of the round, and the message is the ephemeral point
followed by the points of `GenMsg` on the box. -/
def generateMessages (X : Extern F P) (E : Embedding R P) (G : P) (c : Client P)
    (rnd : ClientRand F R) (fuel : ℕ) (round : Int) (plaintexts : List (List ℕ)) :
    Option (List (List P)) :=
  if c.params.Mode = TRAP_MODE then
    let buf := putUint32LE (uint32 round)
    (atInt c.RoundKeys round).bind fun trusteeKey =>
    let inners := plaintexts.enum.map fun ip =>
      CCA2Encrypt X G ip.2 buf trusteeKey (rnd.enc ip.1)
    mapIdxOpt (fun i (inner : InnerCiphertext P) =>
      (GenMsg E inner.C (rnd.msg i) fuel 0).map fun cMessage => inner.R :: cMessage)
      inners 0
  else
    mapIdxOpt (fun m plaintext => GenMsg E plaintext (rnd.msg m) fuel 0) plaintexts 0

/-- Go `Client.generateTraps(gid)`. -/
def generateTraps (c : Client P) (rnd : ClientRand F R) (gid : Int) : List Trap :=
  (List.range c.params.NumMsgs).map fun t => GenTrap gid (rnd.nonce t)

/-- Go `Client.generateTrapMsgs(traps, msgSize)`; `PickLen() = 0` is a division by
zero, an error of `TrapToMessage` is fatal, and more traps than `NumMsgs` overrun
`msgs`. -/
def generateTrapMsgs (E : Embedding R P) (c : Client P) (rnd : ClientRand F R) (fuel : ℕ)
    (traps : List Trap) (msgSize : ℕ) : Option (List (List P)) :=
  if E.EmbedLen = 0 then none
  else
    let numPts := c.params.MsgSize / E.EmbedLen
    let numPts := if c.params.MsgSize % E.EmbedLen ≠ 0 then numPts + 1 else numPts
    let msgs : List (List P) := List.replicate c.params.NumMsgs []
    (mapIdxOpt (fun t trap =>
      match TrapToMessage E trap numPts (rnd.trap t) fuel with
      | some (.ok msg) => if t < c.params.NumMsgs then some msg else none
      | _ => none) traps 0).map fun filled => filled ++ msgs.drop filled.length

/-- Go `Client.generateSubmitArgs(gid, round, msgs)`; `prove c` is the randomness of
the call of `ProveEncrypt` for `msgs[c]`. -/
def generateSubmitArgs (X : Extern F P) (G : P) (c : Client P) (rnd : ClientRand F R)
    (gid round : Int) (msgs : List (List P)) : Option (SubmitArgs F P) :=
  (atInt c.groupKeys gid).map fun GroupKey =>
    let info : ArgInfo :=
      { Round := round, Level := 0, Gid := gid, Cur := 0, Group := Xrange c.params.Threshold }
    let out := msgs.enum.map fun im => ProveEncrypt X G GroupKey im.2 (rnd.prove im.1)
    { Id := c.id, Ciphertexts := out.map Prod.fst, EncProofs := out.map Prod.snd, info := info }

/-- Go `Client.generateCommitArgs(gid, traps)`. -/
def generateCommitArgs (X : Extern F P) (c : Client P) (gid : Int) (traps : List Trap) :
    Option CommitArgs :=
  let info : ArgInfo :=
    { Round := 0, Level := 0, Gid := gid, Cur := 0, Group := Xrange c.params.Threshold }
  (mapIdxOpt (fun _ trap => Commit X.Sum256 trap) traps 0).map fun comms =>
    { Id := c.id, Comms := comms, info := info }

/-- Go `Client.Submit(gid, round, plaintexts)`: the call `c.commit(g, cargs)` of trap
mode, if any, and the call `c.submit(gid, submitArgs)`, each with the entry group it
goes to and its arguments.  Both calls read `c.network[0][g]`, and `msgs[0]` needs a
first message. -/
def Submit (X : Extern F P) (E : Embedding R P) (G : P) (c : Client P)
    (rnd : ClientRand F R) (fuel : ℕ) (gid round : Int) (plaintexts : List (List ℕ)) :
    Option (Option (Int × CommitArgs) × (Int × SubmitArgs F P)) :=
  (generateMessages X E G c rnd fuel round plaintexts).bind fun msgs =>
  let sendSubmit := fun (msgs : List (List P)) (commit : Option (Int × CommitArgs)) =>
    (generateSubmitArgs X G c rnd gid round msgs).map fun submitArgs =>
      (commit, (gid, submitArgs))
  if c.params.Mode = TRAP_MODE then
    let traps := generateTraps c rnd c.id
    match msgs with
    | [] => none
    | msg0 :: _ =>
      (generateTrapMsgs E c rnd fuel traps msg0.length).bind fun trapMsgs =>
      let msgs := msgs ++ trapMsgs
      (generateCommitArgs X c c.id traps).bind fun cargs =>
      (atInt c.groupKeys c.id).bind fun _ =>
      sendSubmit msgs (some (c.id, cargs))
  else sendSubmit msgs none

end ClientDef

/-! ## The chain of a group (`server/server.go`, `server/member.go`)

Server ids and the entries of `Group` are non-negative Go `int`s and are natural
numbers here; an index found by a search loop is an integer, `-1` when the search
fails. -/

/-- The search loops `idx := -1; for i := range l { if l[i] == x { idx = i; break } }`
of `NewMember` and of the handlers, from position `i` on. -/
def searchIdx (x : Int) : List ℕ → ℕ → Int
  | [], _ => -1
  | a :: l, i => if (a : Int) = x then (i : Int) else searchIdx x l (i + 1)

/-- The member index `member.idx` that `NewMember(sid, …, group)` computes. -/
def memberIdx (Members : List ℕ) (sid : ℕ) : Int := searchIdx (sid : Int) Members 0

/-- The expression `args.Group[(idx+1)%len(args.Group)]`; an empty `Group` is a
division by zero. -/
def nextInGroup (Group : List ℕ) (idx : Int) : Option ℕ :=
  if Group.length = 0 then none else Group[((idx + 1) % (Group.length : Int)).toNat]?

/-- The remote procedures of the chain. -/
inductive RPC where
  | Shuffle
  | VerifyShuffle
  | ShuffleOK
  | Reencrypt
  | VerifyReencrypt
  | ReencryptOK
deriving DecidableEq, Repr

/-- A call `AtomRPC(s.servers[next], rpc, args)` within one group and round: the
procedure, the server id `next` and the field `Cur` of the arguments. -/
structure Call where
  rpc : RPC
  server : ℕ
  Cur : ℕ
deriving DecidableEq, Repr

/-- What a chain handler does besides its cryptographic work: the number of signals it
dequeues first, the verification requests it sends, in order, and the call that passes
the batch on inside the group (`none`: the batch leaves the group, to `Finalize` on the
last level and to the neighbours otherwise). -/
structure Step where
  waits : ℕ
  verify : List Call
  next : Option Call
deriving DecidableEq, Repr

/-- The number of iterations of `for i := 0; i < len(args.Group)-2; i++` behind the
test `Mode == VER_MODE && args.Cur != args.Group[0]`. -/
def waitCount (Mode : Int) (Group : List ℕ) (Cur : ℕ) : Option ℕ :=
  if Mode = VER_MODE then
    (Group[0]?).map fun g0 => if Cur ≠ g0 then Group.length - 2 else 0
  else some 0

/-- The loop `for _, idx := range args.Group` that asks the other servers to verify,
with the value of `info.Cur` threaded through: every iteration that is not skipped sets
`info.Cur = args.Cur` and calls `rpc` on `member.group.Members[idx]`. -/
def verifyLoop (rpc : RPC) (Members : List ℕ) (Cur : ℕ) : List ℕ → ℕ → Option (List Call × ℕ)
  | [], infoCur => some ([], infoCur)
  | idx :: Group, infoCur =>
    if idx = Cur then verifyLoop rpc Members Cur Group infoCur
    else
      match Members[idx]? with
      | none => none
      | some next =>
        (verifyLoop rpc Members Cur Group Cur).map fun r =>
          ({ rpc := rpc, server := next, Cur := Cur } :: r.1, r.2)

/-- Go `Server.shuffle(args)` run by the member with index `idx` of the group with
members `Members`, on `args.Group = Group` and `args.Cur = Cur`. -/
def shuffle (Mode : Int) (Members : List ℕ) (idx : Int) (Group : List ℕ) (Cur : ℕ) :
    Option Step :=
  (waitCount Mode Group Cur).bind fun waits =>
  (Group.getLast?).bind fun lastIdx =>
  let last : Bool := decide ((lastIdx : Int) = idx)
  (if Mode = VER_MODE then verifyLoop RPC.VerifyShuffle Members Cur Group 0
    else some ([], 0)).bind fun v =>
  if !last then
    let pos := searchIdx idx Group 0
    (nextInGroup Group pos).bind fun nextIdx =>
    (Members[nextIdx]?).map fun next =>
      { waits := waits, verify := v.1,
        next := some { rpc := RPC.Shuffle, server := next, Cur := nextIdx } }
  else
    (Group[0]?).bind fun nextIdx =>
    (Members[nextIdx]?).map fun next =>
      { waits := waits, verify := v.1,
        next := some { rpc := RPC.Reencrypt, server := next, Cur := nextIdx } }

/-- Go `Server.verifyShuffle(args)` run by the member with index `idx`, the proof
check giving `ok`: the `ShuffleOK` call it makes, if any.  A bad proof at the next
member of the chain is fatal. -/
def verifyShuffle (Members : List ℕ) (idx : Int) (Group : List ℕ) (Cur : ℕ) (ok : Bool) :
    Option (Option Call) :=
  let pos := searchIdx (Cur : Int) Group 0
  (nextInGroup Group pos).bind fun nextIdx =>
  (Members[nextIdx]?).bind fun next =>
  if (nextIdx : Int) = idx then
    if ok then some none else none
  else some (some { rpc := RPC.ShuffleOK, server := next, Cur := Cur })

/-- Go `Server.reencrypt(args)` run by the member with index `idx`. -/
def reencrypt (Mode : Int) (Members : List ℕ) (idx : Int) (Group : List ℕ) (Cur : ℕ) :
    Option Step :=
  (waitCount Mode Group Cur).bind fun waits =>
  (Group.getLast?).bind fun lastIdx =>
  let last : Bool := decide ((lastIdx : Int) = idx)
  let pos := searchIdx idx Group 0
  (nextInGroup Group pos).bind fun nextIdx =>
  (Members[nextIdx]?).bind fun next =>
  (if Mode = VER_MODE then verifyLoop RPC.VerifyReencrypt Members Cur Group nextIdx
    else some ([], nextIdx)).map fun v =>
  if !last then
    { waits := waits, verify := v.1,
      next := some { rpc := RPC.Reencrypt, server := next, Cur := v.2 } }
  else { waits := waits, verify := v.1, next := none }

/-- Go `Server.verifyReencrypt(args)` run by the member with index `idx`: the
`ReencryptOK` call it makes. -/
def verifyReencrypt (Members : List ℕ) (idx : Int) (Group : List ℕ) (Cur : ℕ) :
    Option Call :=
  let pos := searchIdx idx Group 0
  (nextInGroup Group pos).bind fun nextIdx =>
  (Members[nextIdx]?).map fun next =>
    { rpc := RPC.ReencryptOK, server := next, Cur := Cur }

/-- The state of a group in one round: the number of signals in the channels
`shufOK[round]` and `reencOK[round]` of the member of each server, and the chain
handlers run so far, each with the index of the member that ran it. -/
structure ChainState where
  shufOK : ℕ → ℕ
  reencOK : ℕ → ℕ
  trace : List (RPC × Int)

/-- One more signal in the channel of `server`. -/
def queueOK (q : ℕ → ℕ) (server : ℕ) : ℕ → ℕ :=
  fun s => if s = server then q s + 1 else q s

/-- The channel of `server` after `n` signals were taken out. -/
def dequeOK (q : ℕ → ℕ) (server n : ℕ) : ℕ → ℕ :=
  fun s => if s = server then q s - n else q s

/-- The verification requests of one chain step handled one after the other, each by
the member of the server it was sent to, with proofs that verify; the resulting signal
is put into the channel of the server it is sent to. -/
def verifyAll (Members Group : List ℕ) : List Call → ChainState → Option ChainState
  | [], st => some st
  | c :: calls, st =>
    let idx := memberIdx Members c.server
    match c.rpc with
    | RPC.VerifyShuffle =>
      match verifyShuffle Members idx Group c.Cur true with
      | none => none
      | some none => verifyAll Members Group calls st
      | some (some ok) =>
        verifyAll Members Group calls { st with shufOK := queueOK st.shufOK ok.server }
    | RPC.VerifyReencrypt =>
      match verifyReencrypt Members idx Group c.Cur with
      | none => none
      | some ok =>
        verifyAll Members Group calls { st with reencOK := queueOK st.reencOK ok.server }
    | _ => none

/-- A chain call handled by the member of the server it was sent to: the handler
dequeues its signals (`none` when they are not there: it waits forever), is recorded,
and its verification requests are handled before the batch is passed on. -/
def chainStep (Mode : Int) (Members Group : List ℕ) (st : ChainState) (c : Call) :
    Option (ChainState × Option Call) :=
  let idx := memberIdx Members c.server
  match c.rpc with
  | RPC.Shuffle =>
    (shuffle Mode Members idx Group c.Cur).bind fun step =>
    if st.shufOK c.server < step.waits then none
    else
      (verifyAll Members Group step.verify
        { st with shufOK := dequeOK st.shufOK c.server step.waits,
                  trace := st.trace ++ [(RPC.Shuffle, idx)] }).map fun st' =>
        (st', step.next)
  | RPC.Reencrypt =>
    (reencrypt Mode Members idx Group c.Cur).bind fun step =>
    if st.reencOK c.server < step.waits then none
    else
      (verifyAll Members Group step.verify
        { st with reencOK := dequeOK st.reencOK c.server step.waits,
                  trace := st.trace ++ [(RPC.Reencrypt, idx)] }).map fun st' =>
        (st', step.next)
  | _ => none

/-- The chain calls of a group followed from the call `c` until the batch leaves the
group; the first argument bounds the number of handlers run. -/
def runChain (Mode : Int) (Members Group : List ℕ) : ℕ → ChainState → Call → Option ChainState
  | 0, _, _ => none
  | fuel + 1, st, c =>
    match chainStep Mode Members Group st c with
    | none => none
    | some (st', none) => some st'
    | some (st', some c') => runChain Mode Members Group fuel st' c'

/-- The state of a group at the start of a round: empty channels, nothing run. -/
def startState : ChainState := { shufOK := fun _ => 0, reencOK := fun _ => 0, trace := [] }

/-- The first chain call of a group: `collect` starts `shuffle` at the member whose
index is `Cur = Group[0]`. -/
def startCall (Members Group : List ℕ) : Option Call :=
  (Group[0]?).bind fun cur => (Members[cur]?).map fun server =>
    { rpc := RPC.Shuffle, server := server, Cur := cur }

/-! ## A small instance of the parameters

The group of order 7 written additively (`ZMod 7` as a module over itself, base
point `1`), toy hash and box functions, and small inputs.  They serve to run the
definitions and to show that the hypotheses of the theorems can be met. -/

instance fact_prime_seven : Fact (Nat.Prime 7) := ⟨by norm_num⟩

/-- Toy primitives over `ZMod 7`. -/
def toyExtern : Extern (ZMod 7) (ZMod 7) where
  MarshalBinary := fun p => [p.val]
  Sum256 := fun b => b
  SetBytes := fun b => (b.sum : ℕ)
  ShakeSum128 := fun b => b
  Seal := fun m _ _ => m
  Open := fun box _ _ => some box

/-- A batch of three one-point ciphertexts. -/
def toyBatch : List (Ciphertext (ZMod 7)) :=
  [{ R := [1], C := [2], Y := none }, { R := [3], C := [4], Y := none },
   { R := [5], C := [6], Y := none }]

/-- A two-point ciphertext. -/
def toyCiphertext : Ciphertext (ZMod 7) := { R := [1, 3], C := [2, 4], Y := none }

/-- A random stream: `4, 5, 6, 0, 1, …`. -/
def toyRnd : ℕ → ZMod 7 := fun i => ((i + 4 : ℕ) : ZMod 7)

/-- Two reports of one group with equal counts. -/
def toyReports : List ReportArgs :=
  [{ Round := 0, Sid := 0, Uid := 5, CorrectHash := true, CorrectTraps := true, NoDups := true,
     NumTraps := 4, NumMsgs := 4 },
   { Round := 0, Sid := 1, Uid := 5, CorrectHash := true, CorrectTraps := true, NoDups := true,
     NumTraps := 4, NumMsgs := 4 }]

/-- The report built in `TestReport` of `trustee/trustee_test.go`: `NoDups` is not set
and so has the zero value `false`. -/
def testReport : ReportArgs :=
  { Round := 0, Sid := 0, Uid := 0, CorrectHash := true, CorrectTraps := true, NoDups := false,
    NumTraps := 128, NumMsgs := 128 }

/-- The report of `TestReport` with `NoDups` set. -/
def goodReport : ReportArgs :=
  { Round := 0, Sid := 0, Uid := 0, CorrectHash := true, CorrectTraps := true, NoDups := true,
    NumTraps := 128, NumMsgs := 128 }

/-- Two reports of one group, each with `NumTraps = NumMsgs`, with different counts. -/
def unequalReports : List ReportArgs :=
  [{ Round := 0, Sid := 0, Uid := 0, CorrectHash := true, CorrectTraps := true, NoDups := true,
     NumTraps := 1, NumMsgs := 1 },
   { Round := 0, Sid := 1, Uid := 0, CorrectHash := true, CorrectTraps := true, NoDups := true,
     NumTraps := 2, NumMsgs := 2 }]

/-- Three reports of three groups with all flags set, whose `NumTraps` add up to `2^64`
and whose `NumMsgs` add up to `0`. -/
def overflowReports : List ReportArgs :=
  [{ Round := 0, Sid := 0, Uid := 1, CorrectHash := true, CorrectTraps := true, NoDups := true,
     NumTraps := 2 ^ 63 - 1, NumMsgs := 0 },
   { Round := 0, Sid := 1, Uid := 2, CorrectHash := true, CorrectTraps := true, NoDups := true,
     NumTraps := 2 ^ 63 - 1, NumMsgs := 0 },
   { Round := 0, Sid := 2, Uid := 3, CorrectHash := true, CorrectTraps := true, NoDups := true,
     NumTraps := 2, NumMsgs := 0 }]

/-- A toy embedding: a point is the byte string itself, two bytes per point. -/
def toyEmbedding : Embedding Unit (List ℕ) where
  EmbedLen := 2
  Embed := fun d _ => d
  Data := fun p => .ok p

/-- A byte stream on which the `n`-th call of `UInt` gives `n % 128`. -/
def toyStream : ℕ → ℕ := fun i => if i % 8 = 0 then i / 8 % 128 else 0

/-- The butterfly network of two levels of two groups of two servers out of three that
`GenerateGroups` builds on `toyStream`. -/
def toyButterfly : List (List (Group ℕ)) :=
  [[{ Members := [0, 1], MemberKeys := [10, 11], GroupKey := none, Level := 0, Gid := 0,
      Uid := 4, AdjList := [some (1, 0), some (1, 1)] },
    { Members := [2, 0], MemberKeys := [12, 10], GroupKey := none, Level := 0, Gid := 1,
      Uid := 5, AdjList := [some (1, 1), some (1, 0)] }],
   [{ Members := [0, 1], MemberKeys := [10, 11], GroupKey := none, Level := 1, Gid := 0,
      Uid := 6, AdjList := [none, none] },
    { Members := [2, 0], MemberKeys := [12, 10], GroupKey := none, Level := 1, Gid := 1,
      Uid := 7, AdjList := [none, none] }]]

/-- The group `(0, 1)` of `toyButterfly`. -/
def toyGroup01 : Group ℕ :=
  { Members := [2, 0], MemberKeys := [12, 10], GroupKey := none, Level := 0, Gid := 1,
    Uid := 5, AdjList := [some (1, 1), some (1, 0)] }

/-- The group `(1, 1)` of `toyButterfly`. -/
def toyGroup11 : Group ℕ :=
  { Members := [2, 0], MemberKeys := [12, 10], GroupKey := none, Level := 1, Gid := 1,
    Uid := 7, AdjList := [none, none] }

/-- Toy hash proofs: the proof lists the two secrets; every proof is accepted. -/
def toyProofExtern : ProofExtern (ZMod 7) (ZMod 7) where
  HashProve := fun _ a b _ => .ok [a.val, b.val]
  HashVerify := fun _ _ => .ok ()

/-- The ciphertext that `ProveReencrypt` gives for `toyCiphertext` with the private key
`3`, the next key `2` and the stream `toyRnd`. -/
def toyReencrypted : Ciphertext (ZMod 7) := { R := [4, 5], C := [0, 5], Y := some [1, 3] }

/-- The marshalled trap of entry group `0` with nonce `9, …, 9`, and its type byte. -/
def toyTrapBytes : List ℕ := [0, 0, 0, 0] ++ List.replicate 16 9 ++ [TRAP]

/-- A toy embedding into `ZMod 7` with 29 bytes per point: the point `1` carries
`toyTrapBytes`, the point `2` carries the bytes `3, 4, MSG`, and no other point carries
data. -/
def toyTable : Embedding Unit (ZMod 7) where
  EmbedLen := 29
  Embed := fun d _ => if d = toyTrapBytes then 1 else if d = [3, 4, MSG] then 2 else 0
  Data := fun p =>
    if p = 1 then .ok toyTrapBytes else if p = 2 then .ok [3, 4, MSG] else .error "no data"

/-- A client with id `0` in trap mode: one message of two bytes, two entry groups. -/
def toyClient : Client (ZMod 7) where
  id := 0
  params := { Mode := TRAP_MODE, NumMsgs := 1, MsgSize := 2, Threshold := 2 }
  groupKeys := [2, 5]
  RoundKeys := [3, 4]

/-- The randomness of a call of `Submit`. -/
def toyClientRand : ClientRand (ZMod 7) Unit where
  enc := fun _ => toyRnd
  msg := fun _ _ _ => ()
  nonce := fun _ => List.replicate 16 9
  trap := fun _ _ => ()
  prove := fun _ => toyRnd

/-- The arguments of the call of `ServerRPC.Commit` that `toyClient` makes. -/
def toyCommitArgs : CommitArgs where
  Id := 0
  Comms := [List.replicate 8 0 ++ List.replicate 16 9]
  info := { Round := 0, Level := 0, Gid := 0, Cur := 0, Group := [0, 1] }

/-- The arguments of the call of `ServerRPC.Submit` that `toyClient` makes for entry
group `1` in round `1`. -/
def toySubmitArgs : SubmitArgs (ZMod 7) (ZMod 7) where
  Id := 0
  Ciphertexts := [{ R := [4, 6], C := [3, 4], Y := none }, { R := [4], C := [0], Y := none }]
  EncProofs := [{ S := [5, 0], U := [1, 5] }, { S := [5], U := [3] }]
  info := { Round := 1, Level := 0, Gid := 1, Cur := 0, Group := [0, 1] }

/-! ## Theorems -/

section ElGamalProofs

variable {F P : Type} [Field F] [AddCommGroup P] [Module F P]

theorem encryptLoop_length (G X : P) (rnd : ℕ → F) (msg : List P) (idx : ℕ) :
    (encryptLoop G X rnd idx msg).1.length = msg.length ∧
      (encryptLoop G X rnd idx msg).2.length = msg.length := by
  induction msg generalizing idx with
  | nil => simp [encryptLoop]
  | cons m msg ih => simp [encryptLoop, ih]

theorem decryptLoop_encryptLoop (G : P) (x : F) (rnd : ℕ → F) (msg : List P) (idx : ℕ) :
    decryptLoop x (encryptLoop G (x • G) rnd idx msg).1 (encryptLoop G (x • G) rnd idx msg).2
      = some msg := by
  induction msg generalizing idx with
  | nil => simp [encryptLoop, decryptLoop]
  | cons m msg ih =>
    simp only [encryptLoop, decryptLoop, ih, Option.map_some']
    rw [smul_comm x (rnd idx) G, add_sub_cancel_right]

/-- C1: for every private key `x` with public key `X = x·G`, every message and every
random stream, `Decrypt(x, Encrypt(X, msg))` returns a message of the same length as
`msg` that equals `msg` element by element (it returns exactly `msg`). -/
theorem Decrypt_Encrypt (G : P) (x : F) (msg : List P) (rnd : ℕ → F) :
    Decrypt x (Encrypt G (PubFromPriv G x) msg rnd) = some msg := by
  simp only [Decrypt, Encrypt, PubFromPriv]
  exact decryptLoop_encryptLoop G x rnd msg 0

theorem decryptLoop_reblindLoop (G : P) (x : F) (rnd : ℕ → F) (C : List P) :
    ∀ (R : List P) (idx : ℕ), C.length ≤ R.length →
      ∃ RC msg, reblindLoop G (x • G) rnd idx R C = some RC ∧
        decryptLoop x RC.1 RC.2 = some msg ∧ decryptLoop x R C = some msg := by
  induction C with
  | nil => intro R idx _; exact ⟨(R, []), [], by simp [reblindLoop], by simp [decryptLoop],
      by simp [decryptLoop]⟩
  | cons c C ih =>
    intro R idx h
    cases R with
    | nil => simp at h
    | cons r R =>
      obtain ⟨RC, msg, h1, h2, h3⟩ := ih R (idx + 1) (by simpa using h)
      refine ⟨((r + rnd idx • G) :: RC.1, (c + rnd idx • (x • G)) :: RC.2), (c - x • r) :: msg,
        by simp [reblindLoop, h1], ?_, by simp [decryptLoop, h3]⟩
      simp only [decryptLoop, h2, Option.map_some', Option.some.injEq, List.cons.injEq, and_true]
      rw [smul_add, smul_comm x (rnd idx) G]
      abel

theorem Reblind_keeps_plaintext (G : P) (x : F) (c : Ciphertext P) (rnd : ℕ → F)
    (hlen : c.R.length = c.C.length) :
    ∃ c' msg, Reblind G (PubFromPriv G x) c rnd = some c' ∧
      Decrypt x c' = some msg ∧ Decrypt x c = some msg := by
  obtain ⟨RC, msg, h1, h2, h3⟩ := decryptLoop_reblindLoop G x rnd c.C c.R 0 (le_of_eq hlen.symm)
  exact ⟨{ R := RC.1, C := RC.2, Y := c.Y }, msg, by simp [Reblind, PubFromPriv, h1],
    by simpa [Decrypt] using h2, by simpa [Decrypt] using h3⟩

/-- C5: for every key pair `(x, X = x·G)`, every ciphertext `c` with `|c.R| = |c.C|` and
every choice of blinding scalars, `Reblind(X, c)` returns a ciphertext whose decryption
under `x` is the decryption of `c` as it was before the call (both are the same
message). -/
theorem Decrypt_Reblind (G : P) (x : F) (c : Ciphertext P) (rnd : ℕ → F)
    (hlen : c.R.length = c.C.length) :
    ∃ c' msg, Reblind G (PubFromPriv G x) c rnd = some c' ∧
      Decrypt x c' = some msg ∧ Decrypt x c = some msg :=
  Reblind_keeps_plaintext G x c rnd hlen

theorem Decrypt_Reblind_witness :
    toyCiphertext.R.length = toyCiphertext.C.length ∧
    ∃ c' msg, Reblind (1 : ZMod 7) (PubFromPriv (1 : ZMod 7) (3 : ZMod 7)) toyCiphertext toyRnd
        = some c' ∧
      Decrypt (3 : ZMod 7) c' = some msg ∧ Decrypt (3 : ZMod 7) toyCiphertext = some msg :=
  ⟨by decide, Decrypt_Reblind (1 : ZMod 7) (3 : ZMod 7) toyCiphertext toyRnd (by decide)⟩

theorem CombinePublicKeys_foldl (G : P) (keys : List F) (a : F) :
    (keys.map (PubFromPriv G)).foldl (fun h p => h + p) (a • G) = (a + keys.sum) • G := by
  induction keys generalizing a with
  | nil => simp
  | cons k keys ih =>
    simp only [List.map_cons, List.foldl_cons, List.sum_cons, PubFromPriv]
    rw [← add_smul, ih, add_assoc]

theorem CombinePublicKeys_map (G : P) (keys : List F) :
    CombinePublicKeys (keys.map (PubFromPriv G)) = keys.sum • G := by
  have h := CombinePublicKeys_foldl G keys 0
  simpa [CombinePublicKeys] using h

theorem chainInv_encryptLoop (G : P) (s y : F) (rnd : ℕ → F) (msg : List P) (idx : ℕ) :
    chainInv s y msg (List.replicate (encryptLoop G (s • G) rnd idx msg).1.length 0)
      (encryptLoop G (s • G) rnd idx msg).2 (encryptLoop G (s • G) rnd idx msg).1 := by
  induction msg generalizing idx with
  | nil => simp [encryptLoop, chainInv]
  | cons m msg ih =>
    simp only [encryptLoop, List.length_cons, List.replicate_succ, chainInv]
    refine ⟨?_, ih (idx + 1)⟩
    rw [smul_comm s (rnd idx) G]
    simp

theorem chainInv_reencryptLoop (G : P) (x s y : F) (rnd : ℕ → F) (msg : List P) :
    ∀ (R C Y : List P) (idx : ℕ), chainInv (x + s) y msg R C Y →
      ∃ out, reencryptLoop G x (y • G) rnd idx R C Y = some out ∧ out.2.2 = Y ∧
        chainInv s y msg out.1 out.2.1 Y := by
  induction msg with
  | nil =>
    intro R C Y idx h
    cases R <;> cases C <;> cases Y <;> simp_all [chainInv, reencryptLoop]
  | cons m msg ih =>
    intro R C Y idx h
    cases R with
    | nil => cases C <;> cases Y <;> simp_all [chainInv]
    | cons r R =>
      cases C with
      | nil => cases Y <;> simp_all [chainInv]
      | cons c C =>
        cases Y with
        | nil => simp_all [chainInv]
        | cons yy Y =>
          obtain ⟨hm, hrest⟩ := h
          obtain ⟨out, h1, h2, h3⟩ := ih R C Y (idx + 1) hrest
          refine ⟨((r + rnd idx • G) :: out.1, ((c - x • yy) + rnd idx • (y • G)) :: out.2.1,
            yy :: out.2.2), by simp [reencryptLoop, h1], by simp [h2], ?_⟩
          refine ⟨?_, h3⟩
          rw [← hm, smul_add, add_smul, smul_comm y (rnd idx) G]
          abel

theorem chainInv_reencryptChain (G : P) (y : F) (msg : List P) (steps : List (F × (ℕ → F))) :
    ∀ (c : Ciphertext P) (Y : List P), c.Y = some Y →
      chainInv (steps.map Prod.fst).sum y msg c.R c.C Y →
      ∃ cn, reencryptChain G (y • G) steps c = some cn ∧ chainInv 0 y msg cn.R cn.C Y := by
  induction steps with
  | nil => intro c Y _ h; exact ⟨c, rfl, by simpa using h⟩
  | cons st steps ih =>
    intro c Y hY h
    obtain ⟨x, rnd⟩ := st
    simp only [List.map_cons, List.sum_cons] at h
    obtain ⟨out, h1, h2, h3⟩ := chainInv_reencryptLoop G x _ y rnd msg c.R c.C Y 0 h
    have hre : Reencrypt G x (y • G) c rnd = some { R := out.1, C := out.2.1, Y := some out.2.2 } := by
      simp [Reencrypt, hY, h1]
    obtain ⟨cn, h4, h5⟩ := ih { R := out.1, C := out.2.1, Y := some out.2.2 } Y (by simp [h2]) h3
    exact ⟨cn, by simp [reencryptChain, hre, h4], h5⟩

theorem chainInv_zero_decryptLoop (y : F) (msg : List P) :
    ∀ (R C Y : List P), chainInv 0 y msg R C Y → decryptLoop y R C = some msg := by
  induction msg with
  | nil => intro R C Y h; cases R <;> cases C <;> cases Y <;> simp_all [chainInv, decryptLoop]
  | cons m msg ih =>
    intro R C Y h
    cases R with
    | nil => cases C <;> cases Y <;> simp_all [chainInv]
    | cons r R =>
      cases C with
      | nil => cases Y <;> simp_all [chainInv]
      | cons c C =>
        cases Y with
        | nil => simp_all [chainInv]
        | cons yy Y =>
          obtain ⟨hm, hrest⟩ := h
          simp only [decryptLoop, ih R C Y hrest, Option.map_some', Option.some.injEq,
            List.cons.injEq, and_true]
          simpa using hm

theorem decryptLoop_zero (msg : List P) :
    ∀ (R C : List P), decryptLoop (0 : F) R C = some msg → C = msg := by
  induction msg with
  | nil =>
    intro R C h
    cases C with
    | nil => rfl
    | cons c C => cases R <;> simp [decryptLoop] at h
  | cons m msg ih =>
    intro R C h
    cases C with
    | nil => simp [decryptLoop] at h
    | cons c C =>
      cases R with
      | nil => simp [decryptLoop] at h
      | cons r R =>
        simp only [decryptLoop, zero_smul, sub_zero, Option.map_eq_some'] at h
        obtain ⟨a, ha, hcons⟩ := h
        simp only [List.cons.injEq] at hcons
        rw [hcons.1, ih R C (by rw [ha, hcons.2])]

theorem reencryptChain_first (G : P) (x₁ : F) (rnd₁ : ℕ → F) (steps : List (F × (ℕ → F)))
    (y : F) (msg : List P) (rnd₀ : ℕ → F) :
    ∃ cn, reencryptChain G (y • G) ((x₁, rnd₁) :: steps)
        (Encrypt G (CombinePublicKeys ((x₁ :: steps.map Prod.fst).map (PubFromPriv G))) msg rnd₀)
          = some cn ∧ Decrypt y cn = some msg := by
  rw [CombinePublicKeys_map]
  have h0 := chainInv_encryptLoop G (x₁ :: steps.map Prod.fst).sum y rnd₀ msg 0
  rw [List.sum_cons] at h0
  obtain ⟨out, h1, h2, h3⟩ := chainInv_reencryptLoop G x₁ _ y rnd₁ msg _ _ _ 0 h0
  obtain ⟨cn, h4, h5⟩ := chainInv_reencryptChain G y msg steps
    { R := out.1, C := out.2.1, Y := some out.2.2 } _ (by simp [h2]) h3
  refine ⟨cn, ?_, chainInv_zero_decryptLoop y msg _ _ _ h5⟩
  simp only [reencryptChain, Reencrypt, Encrypt, List.sum_cons]
  rw [h1]
  simpa using h4

/-- C3: for `n ≥ 1` private keys `x₁, …, xₙ` (the first one and the keys of `steps`),
a target key pair `(y, Y = y·G)`, a message and any random choices: with
`c₀ = Encrypt(CombinePublicKeys([x₁·G, …, xₙ·G]), msg)` and
`c_k = Reencrypt(x_k, Y, c_(k-1))`, the chain returns `cₙ` with `Decrypt(y, cₙ) = msg`;
and when the target key is `NullKey()` the `C` component of `cₙ` is `msg`. -/
theorem Reencrypt_chain_Decrypt (G : P) (x₁ : F) (rnd₁ : ℕ → F)
    (steps : List (F × (ℕ → F))) (y : F) (msg : List P) (rnd₀ : ℕ → F) :
    (∃ cn, reencryptChain G (PubFromPriv G y) ((x₁, rnd₁) :: steps)
        (Encrypt G (CombinePublicKeys ((x₁ :: steps.map Prod.fst).map (PubFromPriv G))) msg rnd₀)
          = some cn ∧ Decrypt y cn = some msg) ∧
    (∃ cn, reencryptChain G NullKey ((x₁, rnd₁) :: steps)
        (Encrypt G (CombinePublicKeys ((x₁ :: steps.map Prod.fst).map (PubFromPriv G))) msg rnd₀)
          = some cn ∧ cn.C = msg) := by
  refine ⟨reencryptChain_first G x₁ rnd₁ steps y msg rnd₀, ?_⟩
  obtain ⟨cn, h1, h2⟩ := reencryptChain_first G x₁ rnd₁ steps 0 msg rnd₀
  rw [zero_smul] at h1
  exact ⟨cn, h1, decryptLoop_zero msg cn.R cn.C h2⟩

end ElGamalProofs

section LoopProofs

theorem forLoop_inv {σ : Type} (body : ℕ → σ → Option σ) (I : ℕ → σ → Prop) (n : ℕ) :
    ∀ (i : ℕ) (s : σ), I i s →
      (∀ j t, i ≤ j → j < i + n → I j t → ∃ t', body j t = some t' ∧ I (j + 1) t') →
      ∃ s', forLoop body n i s = some s' ∧ I (i + n) s' := by
  induction n with
  | zero => intro i s h _; exact ⟨s, rfl, by simpa using h⟩
  | succ n ih =>
    intro i s h hstep
    obtain ⟨t, ht, hI⟩ := hstep i s (le_refl i) (by omega) h
    obtain ⟨s', hs', hI'⟩ := ih (i + 1) t hI (fun j u h1 h2 hu => hstep j u (by omega) (by omega) hu)
    refine ⟨s', by simp [forLoop, ht, hs'], ?_⟩
    have : i + (n + 1) = i + 1 + n := by omega
    rw [this]
    exact hI'

theorem forRange_inv {σ : Type} (body : ℕ → σ → Option σ) (I : ℕ → σ → Prop) (a b : ℕ)
    (hab : a ≤ b) (s : σ) (h : I a s)
    (hstep : ∀ j t, a ≤ j → j < b → I j t → ∃ t', body j t = some t' ∧ I (j + 1) t') :
    ∃ s', forRange a b body s = some s' ∧ I b s' := by
  obtain ⟨s', h1, h2⟩ := forLoop_inv body I (b - a) a s h
    (fun j t h1 h2 ht => hstep j t h1 (by omega) ht)
  refine ⟨s', h1, ?_⟩
  have : a + (b - a) = b := by omega
  rw [this] at h2
  exact h2

theorem chunking_cover (numCPU k : ℕ) (hcpu : 0 < numCPU) :
    ∃ cd, chunking numCPU k = some cd ∧ k ≤ cd.1 * cd.2 := by
  unfold chunking
  rw [if_neg (by omega)]
  by_cases h1 : k < numCPU
  · exact ⟨(k, 1), by simp [h1], by simp⟩
  · rw [if_neg h1]
    by_cases h2 : k % numCPU ≠ 0
    · refine ⟨(numCPU, k / numCPU + 1), by simp [h2], ?_⟩
      have := Nat.div_add_mod k numCPU
      have := Nat.mod_lt k hcpu
      simp only
      rw [Nat.mul_add]
      omega
    · refine ⟨(numCPU, k / numCPU), by simp [h2], ?_⟩
      have := Nat.div_add_mod k numCPU
      simp only
      omega

/-- Workers that fill the slots in index order: if every `body i` extends an invariant
from `i` to `i + 1` for `i < k`, running all workers extends it from `0` to `k`. -/
theorem runWorkers_inv {σ : Type} (chunks div k : ℕ) (hcover : k ≤ chunks * div)
    (body : ℕ → σ → Option σ) (I : ℕ → σ → Prop) (s : σ) (h : I 0 s)
    (hstep : ∀ j t, j < k → I j t → ∃ t', body j t = some t' ∧ I (j + 1) t') :
    ∃ s', runWorkers chunks div k body s = some s' ∧ I k s' := by
  obtain ⟨s', h1, h2⟩ := forLoop_inv
    (fun d s => forRange (d * div) (if (d + 1) * div > k then k else (d + 1) * div) body s)
    (fun d t => I (min (d * div) k) t) chunks 0 s (by simpa using h) (by
      intro d t _ _ ht
      beta_reduce
      have hmono : d * div ≤ (d + 1) * div := Nat.mul_le_mul_right _ (by omega)
      by_cases hk : (d + 1) * div > k
      · rw [if_pos hk, min_eq_right (le_of_lt hk)]
        by_cases hs : d * div ≤ k
        · rw [min_eq_left hs] at ht
          exact forRange_inv body I (d * div) k hs t ht (fun j u _ hj hu => hstep j u hj hu)
        · rw [min_eq_right (by omega)] at ht
          refine ⟨t, ?_, ht⟩
          have : k - d * div = 0 := by omega
          simp [forRange, this, forLoop]
      · rw [if_neg hk]
        have hle : (d + 1) * div ≤ k := by omega
        rw [min_eq_left hle]
        rw [min_eq_left (le_trans hmono hle)] at ht
        exact forRange_inv body I (d * div) ((d + 1) * div) hmono t ht
          (fun j u _ hj hu => hstep j u (by omega) hu))
  refine ⟨s', h1, ?_⟩
  simp only [zero_add] at h2
  rw [min_eq_right hcover] at h2
  exact h2

theorem swap_perm (l : List ℕ) (i j : ℕ) (hi : i < l.length) (hj : j < l.length) :
    ((l.set j (l.getD i 0)).set i (l.getD j 0)).Perm l := by
  rw [List.perm_iff_count]
  intro a
  rw [List.getD_eq_getElem _ _ hi, List.getD_eq_getElem _ _ hj]
  rw [List.count_set _ _ _ _ (by simpa using hi), List.count_set _ _ _ _ hj]
  have h1 := List.count_pos_iff.mpr (List.getElem_mem hi)
  have h2 := List.count_pos_iff.mpr (List.getElem_mem hj)
  by_cases hij : i = j
  · subst hij
    simp only [List.getElem_set_self, beq_iff_eq]
    by_cases ha : l[i] = a
    · simp only [ha, if_true]
      rw [ha] at h1
      omega
    · simp [ha]
  · rw [List.getElem_set_ne (Ne.symm hij)]
    simp only [beq_iff_eq]
    by_cases ha : l[i] = a <;> by_cases hb : l[j] = a
    · simp only [ha, hb, if_true]
      rw [ha] at h1
      omega
    · simp only [ha, hb, if_true, if_false]
      rw [ha] at h1
      omega
    · simp only [ha, hb, if_true, if_false]
      rw [hb] at h2
      omega
    · simp [ha, hb]

theorem swapLoop_perm (rand : ℕ → ℕ) (i : ℕ) :
    ∀ (n : ℕ) (pi : List ℕ), i = 0 ∨ i < pi.length → (swapLoop rand i n pi).Perm pi := by
  induction i with
  | zero => intro n pi _; exact List.Perm.refl _
  | succ i ih =>
    intro n pi h
    have hi : i + 1 < pi.length := by omega
    have hj : rand n % (i + 1 + 1) < pi.length := by
      have := Nat.mod_lt (rand n) (show 0 < i + 1 + 1 by omega)
      omega
    simp only [swapLoop]
    split
    · refine (ih _ _ (Or.inr ?_)).trans (swap_perm pi (i + 1) _ hi hj)
      simp only [List.length_set]
      omega
    · exact ih _ _ (Or.inr (by omega))

theorem gather_map {α β : Type} (tmp : List α) (f : α → β) (g : ℕ → β) (pi : List ℕ)
    (h : ∀ p ∈ pi, ∃ c, tmp[p]? = some c ∧ f c = g p) :
    ∃ out, gather tmp pi = some out ∧ out.length = pi.length ∧ out.map f = pi.map g := by
  induction pi with
  | nil => exact ⟨[], rfl, rfl, rfl⟩
  | cons p pi ih =>
    obtain ⟨c, hc, hfc⟩ := h p (List.mem_cons_self _ _)
    obtain ⟨out, h1, h2, h3⟩ := ih (fun q hq => h q (List.mem_cons_of_mem _ hq))
    exact ⟨c :: out, by simp [gather, hc, h1], by simp [h2], by simp [hfc, h3]⟩

end LoopProofs

section ShuffleProofs

variable {F P : Type} [Field F] [AddCommGroup P] [Module F P]

theorem map_getD_range {α β : Type} (cs : List α) (d : α) (f : α → β) :
    (List.range cs.length).map (fun p => f (cs.getD p d)) = cs.map f := by
  apply List.ext_getElem
  · simp
  · intro n h1 h2
    simp only [List.length_map, List.length_range] at h1
    simp [List.getElem?_eq_getElem h1]

/-- C2: for every key pair `(x, X = x·G)`, every batch `cs` of ciphertexts with
`|R| = |C|`, and every outcome of the blinding scalars and of the swap indices,
`Shuffle(X, cs)` returns a batch of the same length as `cs` whose multiset of
decryptions under `x` is the multiset of decryptions of `cs` (all of which are
messages).  The machine has at least one CPU. -/
theorem Shuffle_Decrypt_multiset (G : P) (x : F) (numCPU : ℕ) (hcpu : 0 < numCPU)
    (cs : List (Ciphertext P)) (hlen : ∀ c ∈ cs, c.R.length = c.C.length)
    (rnds : ℕ → ℕ → F) (rand : ℕ → ℕ) :
    ∃ out, Shuffle G (PubFromPriv G x) numCPU cs rnds rand = some out ∧
      out.length = cs.length ∧
      (Multiset.ofList (out.map (Decrypt x)) = Multiset.ofList (cs.map (Decrypt x))) ∧
      (∀ c ∈ cs, ∃ msg, Decrypt x c = some msg) := by
  have hdef : ∀ c ∈ cs, ∃ msg, Decrypt x c = some msg := by
    intro c hc
    obtain ⟨_, msg, _, _, h3⟩ := Reblind_keeps_plaintext G x c (rnds 0) (hlen c hc)
    exact ⟨msg, h3⟩
  obtain ⟨cd, hcd, hcover⟩ := chunking_cover numCPU cs.length hcpu
  obtain ⟨tmp, htmp, hlenT, hT⟩ := runWorkers_inv cd.1 cd.2 cs.length hcover
    (fun i tmp => (cs[i]?).bind fun c =>
      (Reblind G (PubFromPriv G x) c (rnds i)).map fun c' => tmp.set i c')
    (fun m tmp => tmp.length = cs.length ∧
      ∀ i, i < m → ∃ c', tmp[i]? = some c' ∧
        Decrypt x c' = Decrypt x (cs.getD i { R := [], C := [], Y := none }))
    (List.replicate cs.length { R := [], C := [], Y := none })
    ⟨by simp, fun i hi => absurd hi (Nat.not_lt_zero i)⟩
    (by
      intro j t hj ⟨hl, ht⟩
      have hmem : cs[j] ∈ cs := List.getElem_mem hj
      obtain ⟨c', msg, h1, h2, h3⟩ := Reblind_keeps_plaintext G x cs[j] (rnds j) (hlen _ hmem)
      refine ⟨t.set j c', by simp [List.getElem?_eq_getElem hj, h1], by simp [hl], ?_⟩
      intro i hi
      by_cases hij : i = j
      · subst hij
        refine ⟨c', by simp [List.getElem?_set_self (by omega : i < t.length)], ?_⟩
        rw [List.getD_eq_getElem _ _ hj, h2, h3]
      · obtain ⟨c'', h4, h5⟩ := ht i (by omega)
        exact ⟨c'', by rw [List.getElem?_set_ne (Ne.symm hij)]; exact h4, h5⟩)
  have hperm : (swapLoop rand (cs.length - 1) 0 (List.range cs.length)).Perm
      (List.range cs.length) :=
    swapLoop_perm rand _ 0 _ (by simp only [List.length_range]; omega)
  obtain ⟨out, hout, hlenO, hmap⟩ := gather_map tmp (Decrypt x)
    (fun p => Decrypt x (cs.getD p { R := [], C := [], Y := none }))
    (swapLoop rand (cs.length - 1) 0 (List.range cs.length))
    (fun p hp => hT p (by simpa using (hperm.mem_iff.mp hp)))
  refine ⟨out, ?_, ?_, ?_, hdef⟩
  · simp only [Shuffle, hcd, Option.some_bind, htmp]
    exact hout
  · rw [hlenO, hperm.length_eq, List.length_range]
  · rw [hmap, Multiset.coe_eq_coe, ← map_getD_range cs { R := [], C := [], Y := none }]
    exact hperm.map _

theorem Shuffle_Decrypt_multiset_witness :
    0 < 2 ∧ (∀ c ∈ toyBatch, c.R.length = c.C.length) ∧
    ∃ out, Shuffle (1 : ZMod 7) (PubFromPriv (1 : ZMod 7) (3 : ZMod 7)) 2 toyBatch
        (fun _ => toyRnd) (fun n => n + 1) = some out ∧
      out.length = toyBatch.length ∧
      (Multiset.ofList (out.map (Decrypt (3 : ZMod 7)))
        = Multiset.ofList (toyBatch.map (Decrypt (3 : ZMod 7)))) ∧
      (∀ c ∈ toyBatch, ∃ msg, Decrypt (3 : ZMod 7) c = some msg) :=
  ⟨by decide, by decide,
    Shuffle_Decrypt_multiset (1 : ZMod 7) (3 : ZMod 7) 2 (by decide) toyBatch (by decide)
      (fun _ => toyRnd) (fun n => n + 1)⟩

end ShuffleProofs

section NIZKProofs

variable {F P : Type} [Field F] [AddCommGroup P] [Module F P] [DecidableEq P]

theorem verifyEncryptLoop_proveEncryptLoop (E : Extern F P) (G X : P) (rnd : ℕ → F)
    (msg : List P) (n : ℕ) :
    verifyEncryptLoop E G X (proveEncryptLoop E G X rnd n msg).2.1
      (proveEncryptLoop E G X rnd n msg).1 (proveEncryptLoop E G X rnd n msg).2.2.1
      (proveEncryptLoop E G X rnd n msg).2.2.2 = some (.ok ()) := by
  induction msg generalizing n with
  | nil => simp [proveEncryptLoop, verifyEncryptLoop]
  | cons m msg ih =>
    simp only [proveEncryptLoop, verifyEncryptLoop]
    rw [if_neg]
    · exact ih (n + 2)
    · rw [not_not, add_smul, mul_smul]

/-- C6: for every public key `X`, message and random choices, the pair `(c, proof)`
returned by `ProveEncrypt(X, msg)` is accepted by `VerifyEncrypt(X, c, proof)`: the
result is the `nil` error.  Prover and verifier compute the challenge with the same
function `challenge` of `C_i`, `S_i` and `X`. -/
theorem VerifyEncrypt_ProveEncrypt (E : Extern F P) (G X : P) (msg : List P) (rnd : ℕ → F) :
    VerifyEncrypt E G X (ProveEncrypt E G X msg rnd).1 (ProveEncrypt E G X msg rnd).2
      = some (.ok ()) := by
  simp only [VerifyEncrypt, ProveEncrypt]
  exact verifyEncryptLoop_proveEncryptLoop E G X rnd msg 0

theorem verifyEncryptLoop_set_U (E : Extern F P) (G X : P) (hG : G ≠ 0) (C : List P) :
    ∀ (R S : List P) (U : List F) (i : ℕ),
      verifyEncryptLoop E G X C R S U = some (.ok ()) → i < C.length →
      ∀ u', U[i]? ≠ some u' →
        verifyEncryptLoop E G X C R S (U.set i u') = some (.error "Encproof verify failed") := by
  induction C with
  | nil => intro R S U i _ hi; simp at hi
  | cons c C ih =>
    intro R S U i hacc hi u' hu
    cases R with
    | nil => simp [verifyEncryptLoop] at hacc
    | cons r R =>
      cases S with
      | nil => simp [verifyEncryptLoop] at hacc
      | cons s S =>
        cases U with
        | nil => simp [verifyEncryptLoop] at hacc
        | cons u U =>
          simp only [verifyEncryptLoop] at hacc
          by_cases hchk : u • G = s + challenge E X c s • r
          · rw [if_neg (not_not.mpr hchk)] at hacc
            cases i with
            | zero =>
              simp only [List.set_cons_zero, verifyEncryptLoop]
              rw [if_pos]
              intro h'
              rw [← hchk] at h'
              have h0 : (u' - u) • G = 0 := by rw [sub_smul, h', sub_self]
              rcases smul_eq_zero.mp h0 with h1 | h1
              · exact hu (by simp [sub_eq_zero.mp h1])
              · exact hG h1
            | succ i =>
              simp only [List.set_cons_succ, verifyEncryptLoop]
              rw [if_neg (not_not.mpr hchk)]
              exact ih R S U i hacc (by simpa using hi) u' (by simpa using hu)
          · rw [if_pos hchk] at hacc
            simp at hacc

theorem verifyEncryptLoop_set_R (E : Extern F P) (G X : P) (C : List P) :
    ∀ (R S : List P) (U : List F) (i : ℕ),
      verifyEncryptLoop E G X C R S U = some (.ok ()) → i < C.length →
      ∀ R', R[i]? ≠ some R' →
        (∀ Ci Si, C[i]? = some Ci → S[i]? = some Si → challenge E X Ci Si ≠ 0) →
        verifyEncryptLoop E G X C (R.set i R') S U = some (.error "Encproof verify failed") := by
  induction C with
  | nil => intro R S U i _ hi; simp at hi
  | cons c C ih =>
    intro R S U i hacc hi R' hR ht
    cases R with
    | nil => simp [verifyEncryptLoop] at hacc
    | cons r R =>
      cases S with
      | nil => simp [verifyEncryptLoop] at hacc
      | cons s S =>
        cases U with
        | nil => simp [verifyEncryptLoop] at hacc
        | cons u U =>
          simp only [verifyEncryptLoop] at hacc
          by_cases hchk : u • G = s + challenge E X c s • r
          · rw [if_neg (not_not.mpr hchk)] at hacc
            cases i with
            | zero =>
              simp only [List.set_cons_zero, verifyEncryptLoop]
              rw [if_pos]
              intro h'
              rw [hchk] at h'
              have h0 : challenge E X c s • (r - R') = 0 := by
                rw [smul_sub, add_left_cancel h', sub_self]
              rcases smul_eq_zero.mp h0 with h1 | h1
              · exact ht c s (by simp) (by simp) h1
              · exact hR (by simp [sub_eq_zero.mp h1])
            | succ i =>
              simp only [List.set_cons_succ, verifyEncryptLoop]
              rw [if_neg (not_not.mpr hchk)]
              exact ih R S U i hacc (by simpa using hi) R' (by simpa using hR)
                (fun Ci Si h1 h2 => ht Ci Si (by simpa using h1) (by simpa using h2))
          · rw [if_pos hchk] at hacc
            simp at hacc

/-- C7: for every `(X, c, proof)` accepted by `VerifyEncrypt` and every position
`i < |c.C|`: replacing `proof.U[i]` by any different scalar makes `VerifyEncrypt` return
the error, and replacing `c.R[i]` by any different point makes it return the error
whenever the challenge `t_i` computed from `C_i`, `S_i` and `X` is a non-zero scalar.
The base point is not the identity. -/
theorem VerifyEncrypt_tamper (E : Extern F P) (G X : P) (hG : G ≠ 0) (c : Ciphertext P)
    (proof : EncProof F P) (hacc : VerifyEncrypt E G X c proof = some (.ok ()))
    (i : ℕ) (hi : i < c.C.length) :
    (∀ u', proof.U[i]? ≠ some u' →
      VerifyEncrypt E G X c { S := proof.S, U := proof.U.set i u' }
        = some (.error "Encproof verify failed")) ∧
    (∀ R', c.R[i]? ≠ some R' →
      (∀ Ci Si, c.C[i]? = some Ci → proof.S[i]? = some Si → challenge E X Ci Si ≠ 0) →
      VerifyEncrypt E G X { R := c.R.set i R', C := c.C, Y := c.Y } proof
        = some (.error "Encproof verify failed")) :=
  ⟨fun u' hu => verifyEncryptLoop_set_U E G X hG c.C c.R proof.S proof.U i hacc hi u' hu,
   fun R' hR ht => verifyEncryptLoop_set_R E G X c.C c.R proof.S proof.U i hacc hi R' hR ht⟩

theorem VerifyEncrypt_tamper_witness :
    (1 : ZMod 7) ≠ 0 ∧
    VerifyEncrypt toyExtern (1 : ZMod 7) (3 : ZMod 7)
      (ProveEncrypt toyExtern (1 : ZMod 7) (3 : ZMod 7) [2, 5] toyRnd).1
      (ProveEncrypt toyExtern (1 : ZMod 7) (3 : ZMod 7) [2, 5] toyRnd).2 = some (.ok ()) ∧
    1 < (ProveEncrypt toyExtern (1 : ZMod 7) (3 : ZMod 7) [2, 5] toyRnd).1.C.length ∧
    VerifyEncrypt toyExtern (1 : ZMod 7) (3 : ZMod 7)
      (ProveEncrypt toyExtern (1 : ZMod 7) (3 : ZMod 7) [2, 5] toyRnd).1
      { S := (ProveEncrypt toyExtern (1 : ZMod 7) (3 : ZMod 7) [2, 5] toyRnd).2.S,
        U := (ProveEncrypt toyExtern (1 : ZMod 7) (3 : ZMod 7) [2, 5] toyRnd).2.U.set 1 6 }
      = some (.error "Encproof verify failed") :=
  ⟨by decide, by rfl, by decide,
    (VerifyEncrypt_tamper toyExtern (1 : ZMod 7) (3 : ZMod 7) (by decide)
      (ProveEncrypt toyExtern (1 : ZMod 7) (3 : ZMod 7) [2, 5] toyRnd).1
      (ProveEncrypt toyExtern (1 : ZMod 7) (3 : ZMod 7) [2, 5] toyRnd).2 (by rfl) 1
      (by decide)).1 6 (by decide)⟩

end NIZKProofs

section CCA2Proofs

variable {F P : Type} [Field F] [AddCommGroup P] [Module F P]

theorem nonce24_length (nonce : List ℕ) : (nonce24 nonce).length = 24 := by
  simp only [nonce24, List.length_append, List.length_take, List.length_replicate]
  omega

/-- C8: for every key pair `(x, X = x·G)`, plaintext, nonce and ephemeral scalar,
`CCA2Decrypt(CCA2Encrypt(plaintext, nonce, X), nonce, x, X)` returns the plaintext and
no error, `secretbox.Open` being the inverse of `secretbox.Seal` under one key and
nonce: both sides hash `X ‖ r·X` (as `x·(r·G) = r·X`) and use the same 24-byte nonce,
the given nonce padded with zeros or cut to 24 bytes. -/
theorem CCA2Decrypt_CCA2Encrypt (E : Extern F P) (G : P) (x : F) (plaintext nonce : List ℕ)
    (rnd : ℕ → F) (hbox : ∀ m n k, E.Open (E.Seal m n k) n k = some m) :
    CCA2Decrypt E (CCA2Encrypt E G plaintext nonce (PubFromPriv G x) rnd) nonce x
      (PubFromPriv G x) = .ok plaintext ∧
    x • (CCA2Encrypt E G plaintext nonce (PubFromPriv G x) rnd).R = rnd 0 • PubFromPriv G x ∧
    (nonce24 nonce).length = 24 ∧
    nonce24 nonce = (nonce ++ List.replicate 24 0).take 24 := by
  refine ⟨?_, ?_, nonce24_length nonce, ?_⟩
  · simp only [CCA2Decrypt, CCA2Encrypt, PubFromPriv]
    rw [smul_comm x (rnd 0) G, hbox]
  · simp only [CCA2Encrypt, PubFromPriv]
    rw [smul_comm x (rnd 0) G]
  · simp only [nonce24, List.take_append_eq_append_take, List.take_replicate]
    congr 2
    omega

theorem CCA2Decrypt_CCA2Encrypt_witness :
    (∀ m n k, toyExtern.Open (toyExtern.Seal m n k) n k = some m) ∧
    CCA2Decrypt toyExtern
      (CCA2Encrypt toyExtern (1 : ZMod 7) [1, 2, 3] [9, 0, 0, 0]
        (PubFromPriv (1 : ZMod 7) (3 : ZMod 7)) toyRnd)
      [9, 0, 0, 0] (3 : ZMod 7) (PubFromPriv (1 : ZMod 7) (3 : ZMod 7)) = .ok [1, 2, 3] :=
  ⟨fun _ _ _ => rfl,
    (CCA2Decrypt_CCA2Encrypt toyExtern (1 : ZMod 7) (3 : ZMod 7) [1, 2, 3] [9, 0, 0, 0] toyRnd
      (fun _ _ _ => rfl)).1⟩

end CCA2Proofs

section ThresholdProofs

variable {F : Type} [Field F]

theorem Lagrange_foldl (myIdx : ℕ) (group : List ℕ) (a b : F) :
    group.foldl (fun (nd : F × F) j =>
      if j = myIdx then nd
      else (nd.1 * ((1 + j : ℕ) : F), nd.2 * (((1 + j : ℕ) : F) - ((1 + myIdx : ℕ) : F)))) (a, b)
    = (a * ((group.filter (fun j => j ≠ myIdx)).map (fun j => ((1 + j : ℕ) : F))).prod,
       b * ((group.filter (fun j => j ≠ myIdx)).map
          (fun j => ((1 + j : ℕ) : F) - ((1 + myIdx : ℕ) : F))).prod) := by
  induction group generalizing a b with
  | nil => simp
  | cons j group ih =>
    simp only [List.foldl_cons]
    by_cases hj : j = myIdx
    · rw [if_pos hj, ih]
      simp [hj]
    · rw [if_neg hj, ih]
      simp [hj, mul_assoc]

theorem Lagrange_eq_prod (myIdx : ℕ) (share : F) (group : List ℕ) (hnd : group.Nodup) :
    Lagrange myIdx share group
      = share * ∏ j ∈ group.toFinset.erase myIdx,
          ((1 + j : ℕ) : F) / (((1 + j : ℕ) : F) - ((1 + myIdx : ℕ) : F)) := by
  have hnd' : (group.filter (fun j => j ≠ myIdx)).Nodup := hnd.filter _
  have hfs : (group.filter (fun j => j ≠ myIdx)).toFinset = group.toFinset.erase myIdx := by
    ext a
    simp [and_comm]
  have e1 := (List.prod_toFinset (fun j : ℕ => ((1 + j : ℕ) : F)) hnd').symm
  have e2 := (List.prod_toFinset
    (fun j : ℕ => ((1 + j : ℕ) : F) - ((1 + myIdx : ℕ) : F)) hnd').symm
  unfold Lagrange
  simp only [Lagrange_foldl, one_mul]
  rw [e1, e2, ← Finset.prod_div_distrib, ← hfs, mul_comm share]

theorem Lagrange_eq_basis (myIdx : ℕ) (share : F) (group : List ℕ) (hnd : group.Nodup) :
    Lagrange myIdx share group
      = share * Polynomial.eval 0
          (Lagrange.basis group.toFinset (fun j : ℕ => ((1 + j : ℕ) : F)) myIdx) := by
  rw [Lagrange_eq_prod myIdx share group hnd, Lagrange.basis, Polynomial.eval_prod]
  congr 1
  apply Finset.prod_congr rfl
  intro j _
  simp only [Lagrange.basisDivisor, Polynomial.eval_mul, Polynomial.eval_C, Polynomial.eval_sub,
    Polynomial.eval_X, zero_sub]
  rw [div_eq_mul_inv, ← neg_sub (((1 + myIdx : ℕ) : F)) (((1 + j : ℕ) : F)), inv_neg]
  ring

theorem Lagrange_sum_aux (group : List ℕ) (hnd : group.Nodup)
    (hinj : ∀ i ∈ group, ∀ j ∈ group, ((1 + i : ℕ) : F) = ((1 + j : ℕ) : F) → i = j)
    (f : Polynomial F) (hdeg : f.degree < (group.length : WithBot ℕ)) :
    (group.map fun i => Lagrange i (f.eval ((1 + i : ℕ) : F)) group).sum = f.eval 0 := by
  have hvs : Set.InjOn (fun j : ℕ => ((1 + j : ℕ) : F)) (group.toFinset : Set ℕ) := by
    intro i hi j hj h
    exact hinj i (by simpa using hi) j (by simpa using hj) h
  have hcard : group.toFinset.card = group.length := List.toFinset_card_of_nodup hnd
  have hint := Lagrange.eq_interpolate (s := group.toFinset)
    (v := fun j : ℕ => ((1 + j : ℕ) : F)) (f := f) hvs (by rw [hcard]; exact hdeg)
  conv_rhs => rw [hint]
  rw [Lagrange.interpolate_apply, Polynomial.eval_finset_sum, ← List.sum_toFinset _ hnd]
  apply Finset.sum_congr rfl
  intro i _
  rw [Lagrange_eq_basis i _ group hnd, Polynomial.eval_mul, Polynomial.eval_C]

/-- C4: for every list `group` of `t` distinct member indices (whose points `i + 1`
are distinct scalars) and every polynomial `f` of degree `< t` over the scalar field,
with member `i` holding the share `f(i+1)`: the scalar returned by
`Threshold.Lagrange(group)` for member `i` is
`share_i · Π_{j ∈ group, j ≠ i} (j+1)/((j+1) − (i+1))`, and these scalars sum over the
members of `group` to the joint secret `f(0)`. -/
theorem Lagrange_sum_eq_secret (group : List ℕ) (hnd : group.Nodup)
    (hinj : ∀ i ∈ group, ∀ j ∈ group, ((1 + i : ℕ) : F) = ((1 + j : ℕ) : F) → i = j)
    (f : Polynomial F) (hdeg : f.degree < (group.length : WithBot ℕ)) :
    (∀ i ∈ group, Lagrange i (f.eval ((1 + i : ℕ) : F)) group
      = f.eval ((1 + i : ℕ) : F) * ∏ j ∈ group.toFinset.erase i,
          ((1 + j : ℕ) : F) / (((1 + j : ℕ) : F) - ((1 + i : ℕ) : F))) ∧
    (group.map fun i => Lagrange i (f.eval ((1 + i : ℕ) : F)) group).sum = f.eval 0 :=
  ⟨fun i _ => Lagrange_eq_prod i _ group hnd, Lagrange_sum_aux group hnd hinj f hdeg⟩

theorem Lagrange_sum_eq_secret_witness :
    ([0, 1] : List ℕ).Nodup ∧
    (∀ i ∈ ([0, 1] : List ℕ), ∀ j ∈ ([0, 1] : List ℕ),
      ((1 + i : ℕ) : ZMod 7) = ((1 + j : ℕ) : ZMod 7) → i = j) ∧
    (Polynomial.X + Polynomial.C 2 : Polynomial (ZMod 7)).degree
      < ((([0, 1] : List ℕ).length : ℕ) : WithBot ℕ) ∧
    (([0, 1] : List ℕ).map fun i =>
        Lagrange i ((Polynomial.X + Polynomial.C 2 : Polynomial (ZMod 7)).eval
          ((1 + i : ℕ) : ZMod 7)) [0, 1]).sum
      = (Polynomial.X + Polynomial.C 2 : Polynomial (ZMod 7)).eval 0 :=
  ⟨by decide, by decide, by rw [Polynomial.degree_X_add_C]; decide,
   (Lagrange_sum_eq_secret ([0, 1] : List ℕ) (by decide) (by decide)
     (Polynomial.X + Polynomial.C 2 : Polynomial (ZMod 7))
     (by rw [Polynomial.degree_X_add_C]; decide)).2⟩

end ThresholdProofs

section CommitProofs

set_option maxRecDepth 100000 in
theorem lor_128 : ∀ b < 256, b ||| 128 = b % 128 + 128 := by decide

theorem putUvarintLoop_value (buf : List ℕ) :
    ∀ (x : ℕ) (out : List ℕ), putUvarintLoop x buf = some out →
      uvarintValue out = x ∧ out.length = buf.length := by
  induction buf with
  | nil => intro x out h; simp [putUvarintLoop] at h
  | cons b buf ih =>
    intro x out h
    simp only [putUvarintLoop] at h
    by_cases hx : x ≥ 0x80
    · rw [if_pos hx] at h
      simp only [Option.map_eq_some'] at h
      obtain ⟨rest, hrest, rfl⟩ := h
      obtain ⟨hv, hl⟩ := ih _ _ hrest
      have hb := lor_128 (x % 256) (Nat.mod_lt _ (by norm_num))
      simp only [uvarintValue, List.length_cons, hl, and_true]
      rw [hb, if_pos (by omega), hv, Nat.shiftRight_eq_div_pow]
      omega
    · rw [if_neg hx] at h
      simp only [Option.some.injEq] at h
      subst h
      simp only [uvarintValue, List.length_cons, and_true]
      rw [if_neg (by omega)]
      omega

theorem putUvarintLoop_some (buf : List ℕ) :
    ∀ (x : ℕ), buf ≠ [] → x < 128 ^ buf.length → ∃ out, putUvarintLoop x buf = some out := by
  induction buf with
  | nil => intro x h; exact absurd rfl h
  | cons b buf ih =>
    intro x _ hx
    simp only [putUvarintLoop]
    by_cases h128 : x ≥ 0x80
    · rw [if_pos h128]
      have hne : buf ≠ [] := by
        rintro rfl
        simp at hx
        omega
      have hlt : x >>> 7 < 128 ^ buf.length := by
        rw [Nat.shiftRight_eq_div_pow]
        rw [List.length_cons, pow_succ] at hx
        exact Nat.div_lt_of_lt_mul (by rw [Nat.mul_comm]; simpa using hx)
      obtain ⟨out, hout⟩ := ih _ hne hlt
      exact ⟨_, by rw [hout]; rfl⟩
    · rw [if_neg h128]
      exact ⟨_, rfl⟩

theorem uint64_of_range (g : Int) (h0 : 0 ≤ g) (h1 : g < 2 ^ 56) :
    ((uint64 g : ℕ) : Int) = g ∧ uint64 g < 128 ^ 8 := by
  unfold uint64
  constructor <;> omega

theorem commitInput_some (t : Trap) (h0 : 0 ≤ t.Gid) (h1 : t.Gid < 2 ^ 56) :
    ∃ out, PutUvarint (List.replicate 8 0) (uint64 t.Gid) = some out ∧ out.length = 8 ∧
      uvarintValue out = uint64 t.Gid ∧ commitInput t = some (out ++ t.Nonce) := by
  obtain ⟨out, hout⟩ := putUvarintLoop_some (List.replicate 8 0) (uint64 t.Gid) (by simp)
    (by simpa using (uint64_of_range t.Gid h0 h1).2)
  obtain ⟨hv, hl⟩ := putUvarintLoop_value _ _ _ hout
  refine ⟨out, hout, by simpa using hl, hv, ?_⟩
  unfold commitInput PutUvarint
  simp only
  rw [hout]
  rfl

/-- C10, as the code has it: for every trap `t` with gid in `[0, 2^56)`, `Commit(t)`
returns a commitment and `VerifyCommitment(t, Commit(t))` is true; and for traps `t`,
`t'` with gids in `[0, 2^56)` that differ in gid or in nonce, the byte strings hashed by
`Commit` are different, so that `VerifyCommitment(t', Commit(t))` is false unless
`Sum256` takes the same value on the two strings. -/
theorem Commit_VerifyCommitment (Sum256 : List ℕ → List ℕ) (t t' : Trap)
    (h0 : 0 ≤ t.Gid) (h1 : t.Gid < 2 ^ 56) (h0' : 0 ≤ t'.Gid) (h1' : t'.Gid < 2 ^ 56) :
    (∃ c, Commit Sum256 t = some c ∧ VerifyCommitment Sum256 t c = some true) ∧
    (t.Gid ≠ t'.Gid ∨ t.Nonce ≠ t'.Nonce →
      ∃ b b' c, commitInput t = some b ∧ commitInput t' = some b' ∧ b ≠ b' ∧
        Commit Sum256 t = some c ∧
        (Sum256 b' ≠ Sum256 b → VerifyCommitment Sum256 t' c = some false)) := by
  obtain ⟨out, -, hl, hv, hb⟩ := commitInput_some t h0 h1
  obtain ⟨out', -, hl', hv', hb'⟩ := commitInput_some t' h0' h1'
  refine ⟨⟨Sum256 (out ++ t.Nonce), by simp [Commit, hb], by simp [VerifyCommitment, hb]⟩, ?_⟩
  intro hne
  refine ⟨_, _, Sum256 (out ++ t.Nonce), hb, hb', ?_, by simp [Commit, hb], ?_⟩
  · intro heq
    obtain ⟨e1, e2⟩ := List.append_inj heq (by rw [hl, hl'])
    rcases hne with hne | hne
    · apply hne
      rw [← (uint64_of_range t.Gid h0 h1).1, ← (uint64_of_range t'.Gid h0' h1').1, ← hv, ← hv', e1]
    · exact hne e2
  · intro hS
    simp [VerifyCommitment, hb', hS]

/-- C10, counterexample: for the trap with gid `2^56` and a 16-byte zero nonce the
8-byte buffer is too short for `PutUvarint`; `Commit` panics and returns no commitment
that `VerifyCommitment` could accept. -/
theorem Commit_panics_counterexample :
    ¬ ∃ c, Commit (fun b => b) { Gid := 72057594037927936, Nonce := List.replicate 16 0 } = some c ∧
      VerifyCommitment (fun b => b)
        { Gid := 72057594037927936, Nonce := List.replicate 16 0 } c = some true := by
  have h : commitInput { Gid := 72057594037927936, Nonce := List.replicate 16 0 } = none := by
    decide
  rintro ⟨c, hc, -⟩
  unfold Commit at hc
  rw [h] at hc
  exact Option.noConfusion hc

theorem Commit_VerifyCommitment_witness :
    ((0 : Int) ≤ 3 ∧ (3 : Int) < 2 ^ 56 ∧ (0 : Int) ≤ 4 ∧ (4 : Int) < 2 ^ 56) ∧
    (∃ c, Commit (fun b => b) { Gid := 3, Nonce := List.replicate 16 7 } = some c ∧
      VerifyCommitment (fun b => b) { Gid := 3, Nonce := List.replicate 16 7 } c = some true) ∧
    ∃ b b' c, commitInput { Gid := 3, Nonce := List.replicate 16 7 } = some b ∧
      commitInput { Gid := 4, Nonce := List.replicate 16 7 } = some b' ∧ b ≠ b' ∧
      Commit (fun b => b) { Gid := 3, Nonce := List.replicate 16 7 } = some c ∧
      ((fun b : List ℕ => b) b' ≠ (fun b : List ℕ => b) b →
        VerifyCommitment (fun b => b) { Gid := 4, Nonce := List.replicate 16 7 } c = some false) :=
  ⟨by decide,
   (Commit_VerifyCommitment (fun b => b) { Gid := 3, Nonce := List.replicate 16 7 }
      { Gid := 4, Nonce := List.replicate 16 7 } (by decide) (by decide) (by decide)
      (by decide)).1,
   (Commit_VerifyCommitment (fun b => b) { Gid := 3, Nonce := List.replicate 16 7 }
      { Gid := 4, Nonce := List.replicate 16 7 } (by decide) (by decide) (by decide)
      (by decide)).2 (Or.inl (by decide))⟩

end CommitProofs

section TrusteeProofs

theorem wrapInt64_add_left (a b : Int) : wrapInt64 (wrapInt64 a + b) = wrapInt64 (a + b) := by
  unfold wrapInt64
  omega

theorem sums_foldl (f g : Int → Int) (keys : List Int) (a b : Int) :
    keys.foldl (fun (acc : Int × Int) uid => (wrapInt64 (acc.1 + f uid), wrapInt64 (acc.2 + g uid)))
      (wrapInt64 a, wrapInt64 b)
    = (wrapInt64 (a + (keys.map f).sum), wrapInt64 (b + (keys.map g).sum)) := by
  induction keys generalizing a b with
  | nil => simp
  | cons u keys ih =>
    simp only [List.foldl_cons, List.map_cons, List.sum_cons]
    rw [wrapInt64_add_left, wrapInt64_add_left, ih, add_assoc, add_assoc]

theorem wrapInt64_of_fits (a : Int) (h0 : -2 ^ 63 ≤ a) (h1 : a < 2 ^ 63) : wrapInt64 a = a := by
  unfold wrapInt64
  omega

theorem wrapInt64_zero : wrapInt64 0 = 0 := by
  unfold wrapInt64
  omega

theorem mem_keys_iff_lookup (m : List (Int × Int)) (u : Int) :
    u ∈ m.map Prod.fst ↔ (m.lookup u).isSome = true := by
  rw [List.lookup_isSome_iff]
  simp only [List.mem_map, beq_iff_eq]
  constructor
  · rintro ⟨p, hp, rfl⟩
    exact ⟨p, hp, rfl⟩
  · rintro ⟨p, hp, h⟩
    exact ⟨p, hp, h.symm⟩

theorem find?_uid_mem (pre : List ReportArgs) (u : Int) (r0 : ReportArgs)
    (h : pre.find? (fun r => r.Uid == u) = some r0) : r0 ∈ pre ∧ r0.Uid = u := by
  refine ⟨List.mem_of_find?_eq_some h, ?_⟩
  simpa using List.find?_some h

/-- Consistency of the reports taken so far, after one more report `r`: the earlier
reports are consistent, the flags of `r` are true and `r` carries the counts of the
first report of its `Uid`. -/
theorem reportsConsistent_snoc (pre : List ReportArgs) (r : ReportArgs) :
    reportsConsistent (pre ++ [r]) ↔
      reportsConsistent pre ∧
      (r.CorrectHash = true ∧ r.CorrectTraps = true ∧ r.NoDups = true) ∧
      numTrapsOf (pre ++ [r]) r.Uid = r.NumTraps ∧ numMsgsOf (pre ++ [r]) r.Uid = r.NumMsgs := by
  have hfind : ∃ r0, (pre ++ [r]).find? (fun x => x.Uid == r.Uid) = some r0 := by
    rw [← Option.isSome_iff_exists, List.find?_isSome]
    exact ⟨r, by simp, by simp⟩
  obtain ⟨r0, hr0⟩ := hfind
  obtain ⟨hmem0, huid0⟩ := find?_uid_mem _ _ _ hr0
  have hT : numTrapsOf (pre ++ [r]) r.Uid = r0.NumTraps := by simp [numTrapsOf, hr0]
  have hM : numMsgsOf (pre ++ [r]) r.Uid = r0.NumMsgs := by simp [numMsgsOf, hr0]
  rw [hT, hM]
  constructor
  · rintro ⟨hflags, hpair⟩
    refine ⟨⟨fun x hx => hflags x (by simp [hx]), fun x hx y hy hxy =>
      hpair x (by simp [hx]) y (by simp [hy]) hxy⟩, hflags r (by simp), ?_⟩
    exact hpair r0 hmem0 r (by simp) huid0
  · rintro ⟨⟨hflags, hpair⟩, hr, hrT, hrM⟩
    have hagree : ∀ x ∈ pre, x.Uid = r.Uid → x.NumTraps = r.NumTraps ∧ x.NumMsgs = r.NumMsgs := by
      intro x hx hxu
      have h0pre : r0 ∈ pre := by
        rw [List.find?_append] at hr0
        have hsome : ∃ y, pre.find? (fun z => z.Uid == r.Uid) = some y := by
          rw [← Option.isSome_iff_exists, List.find?_isSome]
          exact ⟨x, hx, by simp [hxu]⟩
        obtain ⟨y, hy⟩ := hsome
        rw [hy] at hr0
        simp only [Option.or_some, Option.or, Option.some.injEq] at hr0
        rw [← hr0]
        exact List.mem_of_find?_eq_some hy
      have := hpair x hx r0 h0pre (by rw [hxu, huid0])
      exact ⟨this.1.trans hrT, this.2.trans hrM⟩
    refine ⟨?_, ?_⟩
    · intro x hx
      rcases List.mem_append.mp hx with hx | hx
      · exact hflags x hx
      · rw [List.mem_singleton.mp hx]; exact hr
    · intro x hx y hy hxy
      rcases List.mem_append.mp hx with hx | hx <;> rcases List.mem_append.mp hy with hy | hy
      · exact hpair x hx y hy hxy
      · rw [List.mem_singleton.mp hy] at hxy ⊢
        exact hagree x hx hxy
      · rw [List.mem_singleton.mp hx] at hxy ⊢
        have := hagree y hy hxy.symm
        exact ⟨this.1.symm, this.2.symm⟩
      · rw [List.mem_singleton.mp hx, List.mem_singleton.mp hy]
        exact ⟨rfl, rfl⟩

theorem checkStep_maps (n : ℕ) (pre : List ReportArgs) (st : CheckState) (r : ReportArgs)
    (h : CheckInv n pre st) :
    (∀ u, (checkStep n st r).totalTraps.lookup u
      = ((pre ++ [r]).find? (fun x => x.Uid == u)).map ReportArgs.NumTraps) ∧
    (∀ u, (checkStep n st r).totalMsgs.lookup u
      = ((pre ++ [r]).find? (fun x => x.Uid == u)).map ReportArgs.NumMsgs) ∧
    ((checkStep n st r).totalTraps.map Prod.fst).Nodup := by
  obtain ⟨hT, hM, hnd, -, -⟩ := h
  cases h0 : st.totalTraps.lookup r.Uid with
  | none =>
    have hpre : pre.find? (fun x => x.Uid == r.Uid) = none := by
      have := hT r.Uid
      rw [h0] at this
      simpa using this.symm
    have hM0 : st.totalMsgs.lookup r.Uid = none := by rw [hM, hpre]; rfl
    have hnotin : r.Uid ∉ st.totalTraps.map Prod.fst := by
      rw [mem_keys_iff_lookup, h0]; simp
    have e1 : (checkStep n st r).totalTraps = st.totalTraps ++ [(r.Uid, r.NumTraps)] := by
      simp [checkStep, h0, mapSet]
    have e2 : (checkStep n st r).totalMsgs = st.totalMsgs ++ [(r.Uid, r.NumMsgs)] := by
      simp [checkStep, h0, mapSet, hM0]
    rw [e1, e2]
    refine ⟨?_, ?_, ?_⟩
    · intro u
      rw [List.lookup_append, List.find?_append, hT u]
      by_cases hu : u = r.Uid
      · subst hu
        simp [hpre]
      · have hu' : ¬ r.Uid = u := fun h => hu h.symm
        have hb : (u == r.Uid) = false := by simpa using hu
        simp [List.lookup_cons, hb, hu']
    · intro u
      rw [List.lookup_append, List.find?_append, hM u]
      by_cases hu : u = r.Uid
      · subst hu
        simp [hpre]
      · have hu' : ¬ r.Uid = u := fun h => hu h.symm
        have hb : (u == r.Uid) = false := by simpa using hu
        simp [List.lookup_cons, hb, hu']
    · rw [List.map_append, List.nodup_append]
      refine ⟨hnd, by simp, ?_⟩
      intro a ha hb
      simp only [List.map_cons, List.map_nil, List.mem_singleton] at hb
      exact hnotin (hb ▸ ha)
  | some v =>
    have e1 : (checkStep n st r).totalTraps = st.totalTraps := by simp [checkStep, h0]
    have e2 : (checkStep n st r).totalMsgs = st.totalMsgs := by simp [checkStep, h0]
    have hpre : ∃ r0, pre.find? (fun x => x.Uid == r.Uid) = some r0 := by
      have := hT r.Uid
      rw [h0] at this
      cases hf : pre.find? (fun x => x.Uid == r.Uid) with
      | none => rw [hf] at this; simp at this
      | some r0 => exact ⟨r0, rfl⟩
    obtain ⟨r0, hr0⟩ := hpre
    have hkey : ∀ u, (pre ++ [r]).find? (fun x => x.Uid == u) = pre.find? (fun x => x.Uid == u) := by
      intro u
      rw [List.find?_append]
      cases hf : pre.find? (fun x => x.Uid == u) with
      | some y => simp
      | none =>
        have hu : ¬ r.Uid = u := by
          intro hu
          rw [← hu, hr0] at hf
          simp at hf
        simp [hu]
    rw [e1, e2]
    exact ⟨fun u => by rw [hkey, hT], fun u => by rw [hkey, hM], hnd⟩

theorem checkStep_inv (n : ℕ) (pre : List ReportArgs) (st : CheckState) (r : ReportArgs)
    (h : CheckInv n pre st) : CheckInv n (pre ++ [r]) (checkStep n st r) := by
  obtain ⟨hT', hM', hnd'⟩ := checkStep_maps n pre st r h
  obtain ⟨-, -, -, hgood, hbad⟩ := h
  have hgT : mapGet (checkStep n st r).totalTraps r.Uid = numTrapsOf (pre ++ [r]) r.Uid := by
    simp [mapGet, numTrapsOf, hT']
  have hgM : mapGet (checkStep n st r).totalMsgs r.Uid = numMsgsOf (pre ++ [r]) r.Uid := by
    simp [mapGet, numMsgsOf, hM']
  have hsent : (checkStep n st r).sent =
      (if mapGet (checkStep n st r).totalTraps r.Uid != r.NumTraps ||
          mapGet (checkStep n st r).totalMsgs r.Uid != r.NumMsgs then
        returnResult n false
          (if !r.CorrectHash || !r.CorrectTraps || !r.NoDups then returnResult n false st.sent
            else st.sent)
      else (if !r.CorrectHash || !r.CorrectTraps || !r.NoDups then returnResult n false st.sent
            else st.sent)) := rfl
  rw [hgT, hgM] at hsent
  refine ⟨hT', hM', hnd', ?_, ?_⟩
  · intro hc
    obtain ⟨hpre, ⟨f1, f2, f3⟩, c1, c2⟩ := (reportsConsistent_snoc pre r).mp hc
    rw [hsent, c1, c2, f1, f2, f3]
    simpa using hgood hpre
  · intro hc
    by_cases hpre : reportsConsistent pre
    · have hs := hgood hpre
      rw [hs] at hsent
      by_cases hfl : (!r.CorrectHash || !r.CorrectTraps || !r.NoDups) = true
      · rw [hfl] at hsent
        simp only [if_true, returnResult, List.nil_append] at hsent
        rw [hsent]
        split
        · exact ⟨_, rfl⟩
        · exact ⟨[], by simp⟩
      · by_cases hcmp : (numTrapsOf (pre ++ [r]) r.Uid != r.NumTraps ||
            numMsgsOf (pre ++ [r]) r.Uid != r.NumMsgs) = true
        · rw [hcmp] at hsent
          simp only [if_true, returnResult] at hsent
          rw [hsent]
          split
          · exact ⟨_, rfl⟩
          · exact ⟨[], by simp⟩
        · exfalso
          apply hc
          rw [reportsConsistent_snoc]
          refine ⟨hpre, ?_, ?_⟩
          · simp only [Bool.or_eq_true, Bool.not_eq_true', not_or, Bool.not_eq_false] at hfl
            exact ⟨hfl.1.1, hfl.1.2, hfl.2⟩
          · simpa using hcmp
    · obtain ⟨rest, hrest⟩ := hbad hpre
      rw [hsent, hrest]
      simp only [returnResult]
      split <;> split <;> first
        | exact ⟨_, List.append_assoc _ _ _⟩
        | exact ⟨_, by rw [List.append_assoc, List.append_assoc]⟩
        | exact ⟨_, rfl⟩

theorem foldl_checkStep_inv (n : ℕ) (rest : List ReportArgs) :
    ∀ (pre : List ReportArgs) (st : CheckState), CheckInv n pre st →
      CheckInv n (pre ++ rest) (rest.foldl (checkStep n) st) := by
  induction rest with
  | nil => intro pre st h; simpa using h
  | cons r rest ih =>
    intro pre st h
    have := ih (pre ++ [r]) (checkStep n st r) (checkStep_inv n pre st r h)
    simpa using this

theorem CheckInv_init (n : ℕ) :
    CheckInv n [] { totalTraps := [], totalMsgs := [], sent := [] } := by
  refine ⟨fun u => rfl, fun u => rfl, List.nodup_nil, fun _ => rfl, fun h => ?_⟩
  exact absurd (show reportsConsistent [] from ⟨by simp, by simp⟩) h

theorem CheckInv_sums (n : ℕ) (reports : List ReportArgs) (st : CheckState)
    (h : CheckInv n reports st) :
    (st.totalTraps.map Prod.fst).foldl (fun (acc : Int × Int) uid =>
      (wrapInt64 (acc.1 + mapGet st.totalTraps uid), wrapInt64 (acc.2 + mapGet st.totalMsgs uid)))
      (0, 0)
    = (wrapInt64 (∑ uid ∈ (reports.map ReportArgs.Uid).toFinset, numTrapsOf reports uid),
       wrapInt64 (∑ uid ∈ (reports.map ReportArgs.Uid).toFinset, numMsgsOf reports uid)) := by
  obtain ⟨hT, hM, hnd, -, -⟩ := h
  have hkeys : (st.totalTraps.map Prod.fst).toFinset = (reports.map ReportArgs.Uid).toFinset := by
    ext u
    rw [List.mem_toFinset, List.mem_toFinset, mem_keys_iff_lookup, hT u, Option.isSome_map',
      List.find?_isSome]
    simp
  have h0 := sums_foldl (mapGet st.totalTraps) (mapGet st.totalMsgs)
    (st.totalTraps.map Prod.fst) 0 0
  rw [wrapInt64_zero] at h0
  rw [h0, zero_add, zero_add, ← List.sum_toFinset _ hnd, ← List.sum_toFinset _ hnd, hkeys]
  congr 2
  · exact Finset.sum_congr rfl (fun u _ => by simp [mapGet, numTrapsOf, hT])
  · exact Finset.sum_congr rfl (fun u _ => by simp [mapGet, numMsgsOf, hM])

theorem checkReports_sent (n : ℕ) (reports : List ReportArgs) (hlen : reports.length = n)
    (k : ℕ) (hk : k < n) :
    (reportsAcceptedInt reports → (checkReports n reports)[k]? = some true) ∧
    (¬ reportsAcceptedInt reports → (checkReports n reports)[k]? = some false) := by
  have hinv := foldl_checkStep_inv n reports [] _ (CheckInv_init n)
  rw [List.nil_append] at hinv
  have hsums := CheckInv_sums n reports _ hinv
  obtain ⟨-, -, -, hgood, hbad⟩ := hinv
  have htake : reports.take n = reports := List.take_of_length_le (le_of_eq hlen)
  have hnot : ¬ reports.length < n := by omega
  unfold checkReports
  simp only [htake, if_neg hnot]
  rw [hsums]
  by_cases hc : reportsConsistent reports
  · rw [hgood hc]
    by_cases hs : wrapInt64 (∑ uid ∈ (reports.map ReportArgs.Uid).toFinset, numTrapsOf reports uid)
        = wrapInt64 (∑ uid ∈ (reports.map ReportArgs.Uid).toFinset, numMsgsOf reports uid)
    · refine ⟨fun _ => ?_, fun hna => absurd ⟨hc, hs⟩ hna⟩
      simp [hs, returnResult, List.getElem?_replicate, hk]
    · refine ⟨fun ha => absurd ha.2 hs, fun _ => ?_⟩
      simp only [bne_iff_ne, ne_eq, hs, not_false_eq_true, if_true, returnResult, List.nil_append]
      rw [List.getElem?_append_left (by simpa using hk)]
      simp [List.getElem?_replicate, hk]
  · obtain ⟨rest, hrest⟩ := hbad hc
    refine ⟨fun ha => absurd ha.1 hc, fun _ => ?_⟩
    rw [hrest]
    simp only [returnResult]
    split
    · rw [List.append_assoc, List.append_assoc,
        List.getElem?_append_left (by simpa using hk)]
      simp [List.getElem?_replicate, hk]
    · rw [List.append_assoc, List.getElem?_append_left (by simpa using hk)]
      simp [List.getElem?_replicate, hk]

theorem wrapInt64_eq_iff (a b : Int) :
    wrapInt64 a = wrapInt64 b ↔ a % 2 ^ 64 = b % 2 ^ 64 := by
  unfold wrapInt64
  omega

/-- C9 (as amended): for every sequence of `NumReports = NumGroups·Threshold` reports
received by a trustee for a round, every reporter (the `k`-th receive,
`k < NumReports`) gets the trustee's private key if all reports have `CorrectHash`,
`CorrectTraps` and `NoDups` true, reports with the same `Uid` carry the same `NumTraps`
and `NumMsgs`, and the sum of `NumTraps` over the distinct `Uid`s equals the sum of
`NumMsgs` over the distinct `Uid`s as Go `int` values, that is modulo `2^64`; otherwise
every reporter gets the failure and no key.  When both exact sums fit in a 64-bit `int`
this is the condition on the exact sums. -/
theorem Report_checkReports {K : Type} (Priv : K) (NumGroups Threshold : ℕ)
    (reports : List ReportArgs) (hlen : reports.length = NumReports NumGroups Threshold)
    (k : ℕ) (hk : k < NumReports NumGroups Threshold) :
    (reportsAcceptedInt reports →
      Report Priv (checkReports (NumReports NumGroups Threshold) reports) k = some (.ok Priv)) ∧
    (¬ reportsAcceptedInt reports →
      Report Priv (checkReports (NumReports NumGroups Threshold) reports) k
        = some (.error "Report failed")) ∧
    (reportsAcceptedInt reports ↔ reportsConsistent reports ∧
      (∑ uid ∈ (reports.map ReportArgs.Uid).toFinset, numTrapsOf reports uid) % 2 ^ 64
        = (∑ uid ∈ (reports.map ReportArgs.Uid).toFinset, numMsgsOf reports uid) % 2 ^ 64) ∧
    (fitsInt64 (∑ uid ∈ (reports.map ReportArgs.Uid).toFinset, numTrapsOf reports uid) →
      fitsInt64 (∑ uid ∈ (reports.map ReportArgs.Uid).toFinset, numMsgsOf reports uid) →
      (reportsAcceptedInt reports ↔ reportsAccepted reports)) := by
  obtain ⟨h1, h2⟩ := checkReports_sent _ reports hlen k hk
  refine ⟨fun ha => by simp [Report, h1 ha], fun hna => by simp [Report, h2 hna], ?_, ?_⟩
  · unfold reportsAcceptedInt
    rw [wrapInt64_eq_iff]
  · intro ht hm
    unfold reportsAcceptedInt reportsAccepted
    rw [wrapInt64_of_fits _ ht.1 ht.2, wrapInt64_of_fits _ hm.1 hm.2]

theorem Report_checkReports_witness :
    toyReports.length = NumReports 1 2 ∧ 0 < NumReports 1 2 ∧
    (reportsAcceptedInt toyReports →
      Report (3 : ZMod 7) (checkReports (NumReports 1 2) toyReports) 0 = some (.ok 3)) ∧
    (¬ reportsAcceptedInt toyReports →
      Report (3 : ZMod 7) (checkReports (NumReports 1 2) toyReports) 0
        = some (.error "Report failed")) ∧
    (reportsAcceptedInt toyReports ↔ reportsConsistent toyReports ∧
      (∑ uid ∈ (toyReports.map ReportArgs.Uid).toFinset, numTrapsOf toyReports uid) % 2 ^ 64
        = (∑ uid ∈ (toyReports.map ReportArgs.Uid).toFinset, numMsgsOf toyReports uid)
          % 2 ^ 64) ∧
    (fitsInt64 (∑ uid ∈ (toyReports.map ReportArgs.Uid).toFinset, numTrapsOf toyReports uid) →
      fitsInt64 (∑ uid ∈ (toyReports.map ReportArgs.Uid).toFinset, numMsgsOf toyReports uid) →
      (reportsAcceptedInt toyReports ↔ reportsAccepted toyReports)) :=
  ⟨by decide, by decide,
    Report_checkReports (3 : ZMod 7) 1 2 toyReports (by decide) 0 (by decide)⟩

/-- C9 (counterexample): three groups report once each (`NumGroups = 3`,
`Threshold = 1`) with all flags true, `NumTraps` `2^63 - 1`, `2^63 - 1`, `2` and
`NumMsgs` `0`.  The reports are consistent and the sums over the distinct `Uid`s are
`2^64` and `0`, which differ, yet every reporter gets the trustee's private key: the
`int` sum of the traps wraps around to `0`. -/
theorem Report_overflow_counterexample :
    overflowReports.length = NumReports 3 1 ∧ reportsConsistent overflowReports ∧
    (∑ uid ∈ (overflowReports.map ReportArgs.Uid).toFinset, numTrapsOf overflowReports uid)
      = 2 ^ 64 ∧
    (∑ uid ∈ (overflowReports.map ReportArgs.Uid).toFinset, numMsgsOf overflowReports uid)
      = 0 ∧
    ¬ reportsAccepted overflowReports ∧
    ∀ k, k < NumReports 3 1 →
      Report (3 : ZMod 7) (checkReports (NumReports 3 1) overflowReports) k
        = some (.ok 3) := by
  have hc : reportsConsistent overflowReports := by
    unfold reportsConsistent
    decide
  have hs1 : (∑ uid ∈ (overflowReports.map ReportArgs.Uid).toFinset,
      numTrapsOf overflowReports uid) = 2 ^ 64 := by decide
  have hs2 : (∑ uid ∈ (overflowReports.map ReportArgs.Uid).toFinset,
      numMsgsOf overflowReports uid) = 0 := by decide
  have hsent : checkReports (NumReports 3 1) overflowReports = [true, true, true] := by
    decide
  refine ⟨by decide, hc, hs1, hs2, ?_, ?_⟩
  · intro h
    have h2 := h.2
    rw [hs1, hs2] at h2
    exact absurd h2 (by decide)
  · intro k hk
    rw [hsent]
    have hk3 : k < 3 := hk
    interval_cases k <;> rfl

end TrusteeProofs

section EncodingProofs

theorem putUvarintLoop_eq_uvarintBytes (buf : List ℕ) :
    ∀ (x : ℕ) (out : List ℕ), putUvarintLoop x buf = some out →
      out = uvarintBytes x ++ buf.drop (uvarintBytes x).length := by
  induction buf with
  | nil => intro x out h; simp [putUvarintLoop] at h
  | cons b buf ih =>
    intro x out h
    simp only [putUvarintLoop] at h
    rw [uvarintBytes]
    by_cases hx : x ≥ 0x80
    · rw [if_pos hx] at h
      simp only [Option.map_eq_some'] at h
      obtain ⟨rest, hrest, rfl⟩ := h
      have hb := lor_128 (x % 256) (Nat.mod_lt _ (by norm_num))
      rw [if_neg (by omega), ih _ _ hrest, Nat.shiftRight_eq_div_pow, hb]
      have h1 : x % 256 % 128 = x % 128 := by omega
      simp [h1]
    · rw [if_neg hx] at h
      simp only [Option.some.injEq] at h
      subst h
      rw [if_pos (by omega)]
      have h1 : x % 256 = x := by omega
      simp [h1]

theorem uvarintBytes_length_le (n : ℕ) : ∀ (x : ℕ), x < 128 ^ (n + 1) →
    (uvarintBytes x).length ≤ n + 1 := by
  induction n with
  | zero =>
    intro x hx
    rw [uvarintBytes, if_pos (by simpa using hx)]
    simp
  | succ n ih =>
    intro x hx
    rw [uvarintBytes]
    split
    · simp
    · simp only [List.length_cons, add_le_add_iff_right]
      apply ih
      rw [pow_succ] at hx
      omega

/-- C11, as the code has it: for every trap with gid in `[0, 2^56)`, `Commit(trap)` is
`Sum256` applied to the 8-byte buffer that holds the unsigned-varint encoding of the gid
followed by zero bytes, followed by the nonce. -/
theorem Commit_hashes_padded (Sum256 : List ℕ → List ℕ) (t : Trap)
    (h0 : 0 ≤ t.Gid) (h1 : t.Gid < 2 ^ 56) :
    (uvarintBytes (uint64 t.Gid)).length ≤ 8 ∧
    commitInput t = some (uvarintBytes (uint64 t.Gid)
      ++ List.replicate (8 - (uvarintBytes (uint64 t.Gid)).length) 0 ++ t.Nonce) ∧
    Commit Sum256 t = some (Sum256 (uvarintBytes (uint64 t.Gid)
      ++ List.replicate (8 - (uvarintBytes (uint64 t.Gid)).length) 0 ++ t.Nonce)) := by
  obtain ⟨out, hput, -, -, hb⟩ := commitInput_some t h0 h1
  have hout := putUvarintLoop_eq_uvarintBytes _ _ _ hput
  have hlen := uvarintBytes_length_le 7 (uint64 t.Gid) (uint64_of_range t.Gid h0 h1).2
  rw [List.drop_replicate] at hout
  refine ⟨hlen, ?_, ?_⟩
  · rw [hb, hout]
  · simp only [Commit, hb, hout, Option.map_some']

theorem Commit_hashes_padded_witness :
    ((0 : Int) ≤ 3 ∧ (3 : Int) < 2 ^ 56) ∧
    commitInput { Gid := 3, Nonce := [7, 7] }
      = some (uvarintBytes (uint64 3) ++ List.replicate (8 - (uvarintBytes (uint64 3)).length) 0
          ++ [7, 7]) :=
  ⟨by decide, (Commit_hashes_padded (fun b => b) { Gid := 3, Nonce := [7, 7] }
    (by decide) (by decide)).2.1⟩

/-- C11, counterexample: for the trap with gid `3` and nonce `[7, 7]` the hashed input
is `3, 0, 0, 0, 0, 0, 0, 0, 7, 7`, not the unsigned-varint encoding `3` followed by the
nonce. -/
theorem Commit_input_counterexample :
    commitInput { Gid := 3, Nonce := [7, 7] } = some [3, 0, 0, 0, 0, 0, 0, 0, 7, 7] ∧
    uvarintBytes (uint64 3) ++ [7, 7] = [3, 7, 7] ∧
    commitInput { Gid := 3, Nonce := [7, 7] } ≠ some (uvarintBytes (uint64 3) ++ [7, 7]) := by
  have h1 : commitInput { Gid := 3, Nonce := [7, 7] } = some [3, 0, 0, 0, 0, 0, 0, 0, 7, 7] := by
    decide
  have h2 : uvarintBytes (uint64 3) ++ [7, 7] = [3, 7, 7] := by
    have : uint64 3 = 3 := by decide
    rw [this, uvarintBytes]
    simp
  refine ⟨h1, h2, ?_⟩
  rw [h1, h2]
  decide

theorem putUint32LE_decode (v : ℕ) (hv : v < 2 ^ 32) :
    v % 256 + 256 * (v / 256 % 256) + 65536 * (v / 65536 % 256)
      + 16777216 * (v / 16777216 % 256) = v := by
  omega

/-- C12: for every trap with `0 ≤ Gid < 2^32` and a 16-byte nonce, `Trap.MarshalBinary`
returns exactly 20 bytes, the little-endian `uint32` of `Gid` followed by the nonce, and
`Trap.UnmarshalBinary` applied to those bytes yields a trap with the same `Gid` and
nonce. -/
theorem Trap_Marshal_Unmarshal (t : Trap) (h0 : 0 ≤ t.Gid) (h1 : t.Gid < 2 ^ 32)
    (hn : t.Nonce.length = 16) :
    ∃ bytes, t.MarshalBinary = .ok bytes ∧ bytes.length = 20 ∧
      bytes = putUint32LE (t.Gid.toNat) ++ t.Nonce ∧
      Trap.UnmarshalBinary bytes = .ok t := by
  have hu : uint32 t.Gid = t.Gid.toNat := by
    unfold uint32
    omega
  have hlt : t.Gid.toNat < 2 ^ 32 := by omega
  refine ⟨putUint32LE (t.Gid.toNat) ++ t.Nonce, by simp [Trap.MarshalBinary, hu],
    by simp [putUint32LE, hn], rfl, ?_⟩
  have hne : t.Nonce ≠ [] := by
    intro h
    rw [h] at hn
    simp at hn
  simp only [putUint32LE, List.cons_append, List.nil_append, Trap.UnmarshalBinary, if_neg hne,
    NONCE_LEN, hn]
  rw [putUint32LE_decode _ hlt]
  have htake : List.take 16 t.Nonce = t.Nonce := List.take_of_length_le (le_of_eq hn)
  simp [htake, Int.toNat_of_nonneg h0]

theorem Trap_Marshal_Unmarshal_witness :
    ((0 : Int) ≤ 300 ∧ (300 : Int) < 2 ^ 32 ∧ (List.replicate 16 9).length = 16) ∧
    ∃ bytes, Trap.MarshalBinary { Gid := 300, Nonce := List.replicate 16 9 } = .ok bytes ∧
      bytes.length = 20 ∧
      bytes = putUint32LE ((300 : Int).toNat) ++ List.replicate 16 9 ∧
      Trap.UnmarshalBinary bytes = .ok { Gid := 300, Nonce := List.replicate 16 9 } :=
  ⟨by decide, Trap_Marshal_Unmarshal { Gid := 300, Nonce := List.replicate 16 9 }
    (by decide) (by decide) (by decide)⟩

end EncodingProofs

section KeyProofs

variable {F P : Type} [Field F] [AddCommGroup P] [Module F P]

theorem CombinePrivateKeys_foldl (privs : List F) (a : F) :
    privs.foldl (fun t s => t + s) a = a + privs.sum := by
  induction privs generalizing a with
  | nil => simp
  | cons k privs ih => simp only [List.foldl_cons, List.sum_cons, ih, add_assoc]

theorem CombinePrivateKeys_eq_sum (privs : List F) : CombinePrivateKeys privs = privs.sum := by
  simp [CombinePrivateKeys, CombinePrivateKeys_foldl]

theorem PubFromPriv_Combine (G : P) (privs : List F) :
    PubFromPriv G (CombinePrivateKeys privs)
      = CombinePublicKeys (privs.map (PubFromPriv G)) := by
  rw [CombinePublicKeys_map, CombinePrivateKeys_eq_sum, PubFromPriv]

/-- C18: for every list of private keys `privs` with public keys `pubs[i] = privs[i]·G`,
`PubFromPriv(CombinePrivateKeys(privs))` equals `CombinePublicKeys(pubs)`; for the empty
list both sides are the identity point. -/
theorem PubFromPriv_CombinePrivateKeys (G : P) (privs : List F) :
    PubFromPriv G (CombinePrivateKeys privs)
      = CombinePublicKeys (privs.map (PubFromPriv G)) ∧
    PubFromPriv G (CombinePrivateKeys ([] : List F)) = (0 : P) ∧
    CombinePublicKeys ([] : List P) = 0 :=
  ⟨PubFromPriv_Combine G privs, by simp [PubFromPriv, CombinePrivateKeys],
    by simp [CombinePublicKeys]⟩

end KeyProofs

section MessageProofs

variable {R P : Type}

theorem compareArray_self (a : List ℕ) : compareArray a a = true := by
  induction a with
  | nil => rfl
  | cons x a ih => simp [compareArray, ih]

theorem genPoints_spec (E : Embedding R P) (plaintext : List ℕ) (rnd : ℕ → R)
    (hL : 0 < E.EmbedLen)
    (hData : ∀ d r, d ≠ [] → d.length ≤ E.EmbedLen → E.Data (E.Embed d r) = .ok d)
    (fuel : ℕ) :
    ∀ (i : ℕ), i * E.EmbedLen < plaintext.length →
      plaintext.length ≤ (i + fuel) * E.EmbedLen →
      ∃ pts, genPoints E plaintext rnd fuel i = some pts ∧
        pts.length = (plaintext.length - i * E.EmbedLen + E.EmbedLen - 1) / E.EmbedLen ∧
        (∀ j, j < pts.length → pts[j]? = some
          (E.Embed ((plaintext.drop ((i + j) * E.EmbedLen)).take E.EmbedLen) (rnd (i + j)))) ∧
        extractLoop E pts = .ok (plaintext.drop (i * E.EmbedLen)) := by
  induction fuel with
  | zero =>
    intro i h1 h2
    simp only [add_zero] at h2
    omega
  | succ fuel ih =>
    intro i h1 h2
    have hmul : (i + 1) * E.EmbedLen = i * E.EmbedLen + E.EmbedLen := by ring
    simp only [genPoints]
    by_cases hlast : (i + 1) * E.EmbedLen ≥ plaintext.length
    · -- the last chunk
      have hstop : (if (i + 1) * E.EmbedLen > plaintext.length then plaintext.length
          else (i + 1) * E.EmbedLen) = plaintext.length := by
        split <;> omega
      rw [hstop, if_neg (by omega), if_pos rfl]
      have hchunk : (plaintext.drop (i * E.EmbedLen)).take (plaintext.length - i * E.EmbedLen)
          = plaintext.drop (i * E.EmbedLen) := List.take_of_length_le (by simp)
      have hchunk' : (plaintext.drop (i * E.EmbedLen)).take E.EmbedLen
          = plaintext.drop (i * E.EmbedLen) :=
        List.take_of_length_le (by simp only [List.length_drop]; omega)
      have hne : plaintext.drop (i * E.EmbedLen) ≠ [] := by
        intro h
        have := congrArg List.length h
        simp only [List.length_drop, List.length_nil] at this
        omega
      refine ⟨_, rfl, ?_, ?_, ?_⟩
      · simp only [List.length_singleton]
        exact (Nat.div_eq_of_lt_le (by omega) (by omega)).symm
      · intro j hj
        simp only [List.length_singleton] at hj
        have : j = 0 := by omega
        subst this
        simp only [add_zero, List.getElem?_cons_zero, hchunk, hchunk']
      · rw [hchunk]
        simp only [extractLoop]
        rw [hData _ _ hne (by simp only [List.length_drop]; omega)]
        simp
    · -- a full chunk, more to come
      have hstop : (if (i + 1) * E.EmbedLen > plaintext.length then plaintext.length
          else (i + 1) * E.EmbedLen) = (i + 1) * E.EmbedLen := by
        split <;> omega
      rw [hstop, if_neg (by omega), if_neg (by omega)]
      obtain ⟨pts, h3, h4, h5, h6⟩ := ih (i + 1) (by omega) (by
        have : i + 1 + fuel = i + (fuel + 1) := by ring
        rw [this]; exact h2)
      have hsub : (i + 1) * E.EmbedLen - i * E.EmbedLen = E.EmbedLen := by omega
      have hne : (plaintext.drop (i * E.EmbedLen)).take E.EmbedLen ≠ [] := by
        intro h
        have := congrArg List.length h
        simp only [List.length_take, List.length_drop, List.length_nil] at this
        omega
      refine ⟨_, by rw [h3]; rfl, ?_, ?_, ?_⟩
      · simp only [List.length_cons, h4]
        have e : plaintext.length - i * E.EmbedLen + E.EmbedLen - 1
            = (plaintext.length - (i + 1) * E.EmbedLen + E.EmbedLen - 1) + E.EmbedLen := by omega
        rw [e, Nat.add_div_right _ hL]
      · intro j hj
        rw [hsub]
        cases j with
        | zero => simp
        | succ j =>
          simp only [List.length_cons, add_lt_add_iff_right] at hj
          have := h5 j hj
          simp only [List.getElem?_cons_succ, this]
          have e : i + 1 + j = i + (j + 1) := by ring
          rw [e]
      · rw [hsub]
        simp only [extractLoop]
        rw [hData _ _ hne (by simp only [List.length_take, List.length_drop]; omega), h6]
        simp only
        congr 1
        rw [hmul, ← List.drop_drop, List.take_append_drop]

theorem compareArray_eq (a b : List ℕ) (h : compareArray a b = true) : a = b := by
  induction a generalizing b with
  | nil =>
    cases b with
    | nil => rfl
    | cons y b => simp [compareArray] at h
  | cons x a ih =>
    cases b with
    | nil => simp [compareArray] at h
    | cons y b =>
      simp only [compareArray] at h
      by_cases hxy : x = y
      · subst hxy
        simp only [ne_eq, not_true_eq_false, if_false] at h
        rw [ih b h]
      · simp [hxy] at h

theorem genPoints_partial (E : Embedding R P) (plaintext : List ℕ) (rnd : ℕ → R)
    (hn : 0 < plaintext.length) (fuel : ℕ) :
    ∀ (i : ℕ) (pts : List P), i * E.EmbedLen < plaintext.length →
      genPoints E plaintext rnd fuel i = some pts →
      0 < E.EmbedLen ∧
      pts.length = (plaintext.length - i * E.EmbedLen + E.EmbedLen - 1) / E.EmbedLen ∧
      ∀ j, j < pts.length → pts[j]? = some
        (E.Embed ((plaintext.drop ((i + j) * E.EmbedLen)).take E.EmbedLen) (rnd (i + j))) := by
  induction fuel with
  | zero => intro i pts _ h; simp [genPoints] at h
  | succ fuel ih =>
    intro i pts h1 h
    have hmul : (i + 1) * E.EmbedLen = i * E.EmbedLen + E.EmbedLen := by ring
    simp only [genPoints] at h
    by_cases hlast : (i + 1) * E.EmbedLen ≥ plaintext.length
    · have hL : 0 < E.EmbedLen := by
        by_contra h0
        have : E.EmbedLen = 0 := by omega
        rw [this] at hlast
        simp only [mul_zero] at hlast
        omega
      have hstop : (if (i + 1) * E.EmbedLen > plaintext.length then plaintext.length
          else (i + 1) * E.EmbedLen) = plaintext.length := by
        split <;> omega
      rw [hstop, if_neg (by omega), if_pos rfl] at h
      simp only [Option.some.injEq] at h
      subst h
      have hchunk : (plaintext.drop (i * E.EmbedLen)).take (plaintext.length - i * E.EmbedLen)
          = plaintext.drop (i * E.EmbedLen) := List.take_of_length_le (by simp)
      have hchunk' : (plaintext.drop (i * E.EmbedLen)).take E.EmbedLen
          = plaintext.drop (i * E.EmbedLen) :=
        List.take_of_length_le (by simp only [List.length_drop]; omega)
      refine ⟨hL, ?_, ?_⟩
      · simp only [List.length_singleton]
        exact (Nat.div_eq_of_lt_le (by omega) (by omega)).symm
      · intro j hj
        simp only [List.length_singleton] at hj
        have : j = 0 := by omega
        subst this
        simp only [add_zero, List.getElem?_cons_zero, hchunk, hchunk']
    · have hstop : (if (i + 1) * E.EmbedLen > plaintext.length then plaintext.length
          else (i + 1) * E.EmbedLen) = (i + 1) * E.EmbedLen := by
        split <;> omega
      rw [hstop, if_neg (by omega), if_neg (by omega)] at h
      cases hr : genPoints E plaintext rnd fuel (i + 1) with
      | none => simp [hr] at h
      | some pts' =>
        rw [hr] at h
        simp only [Option.map_some', Option.some.injEq] at h
        subst h
        obtain ⟨hL, h4, h5⟩ := ih (i + 1) pts' (by omega) hr
        have hsub : (i + 1) * E.EmbedLen - i * E.EmbedLen = E.EmbedLen := by omega
        refine ⟨hL, ?_, ?_⟩
        · simp only [List.length_cons, h4]
          have e : plaintext.length - i * E.EmbedLen + E.EmbedLen - 1
              = (plaintext.length - (i + 1) * E.EmbedLen + E.EmbedLen - 1) + E.EmbedLen := by
            omega
          rw [e, Nat.add_div_right _ hL]
        · intro j hj
          rw [hsub]
          cases j with
          | zero => simp
          | succ j =>
            simp only [List.length_cons, add_lt_add_iff_right] at hj
            have := h5 j hj
            simp only [List.getElem?_cons_succ, this]
            have e : i + 1 + j = i + (j + 1) := by ring
            rw [e]

theorem GenMsg_partial (E : Embedding R P) (b : List ℕ) (rnds : ℕ → ℕ → R) (fuel : ℕ) :
    ∀ (a : ℕ) (pts : List P), GenMsg E b rnds fuel a = some pts →
      pts.length = (b.length + 1 + E.EmbedLen - 1) / E.EmbedLen ∧
      (∃ a', ∀ i, i < pts.length → pts[i]? = some
        (E.Embed (((b ++ [MSG]).drop (i * E.EmbedLen)).take E.EmbedLen) (rnds a' i))) ∧
      ExtractPlaintext E pts = some (.ok (b, MSG)) := by
  induction fuel with
  | zero => intro a pts h; simp [GenMsg] at h
  | succ fuel ih =>
    intro a pts h
    have hlen : (b ++ [MSG]).length = b.length + 1 := by simp
    simp only [GenMsg, hlen] at h
    cases hg : genPoints E (b ++ [MSG]) (rnds a) (b.length + 1) 0 with
    | none => simp [hg] at h
    | some pts0 =>
      rw [hg] at h
      simp only at h
      cases he : ExtractPlaintext E pts0 with
      | none => simp [he] at h
      | some r =>
        rw [he] at h
        cases r with
        | error e => exact ih (a + 1) pts h
        | ok v =>
          obtain ⟨res, ty⟩ := v
          simp only at h
          by_cases hc : ty = MSG ∧ compareArray b res = true
          · rw [if_pos hc] at h
            simp only [Option.some.injEq] at h
            subst h
            obtain ⟨hty, hcmp⟩ := hc
            have hres := compareArray_eq b res hcmp
            subst hres hty
            obtain ⟨-, h2, h3⟩ := genPoints_partial E (b ++ [MSG]) (rnds a) (by simp)
              (b.length + 1) 0 pts0 (by simp) hg
            simp only [zero_mul, Nat.sub_zero, zero_add] at h2 h3
            refine ⟨?_, ⟨a, h3⟩, he⟩
            rw [h2]
            simp
          · rw [if_neg hc] at h
            exact ih (a + 1) pts h

/-- C13: for every byte string `b`, the message returned by `GenMsg(b)` consists of
`ceil((len(b)+1)/EMBED_LEN)` points (`b` followed by the tail byte `MSG = 0`, cut into
chunks of `EMBED_LEN` bytes, each chunk embedded), and `ExtractPlaintext` maps it back to
`(b, MSG)` without error.  First part: `GenMsg` returns such a message on its first
attempt when `EMBED_LEN ≥ 1` and `Data` gives back what `Embed` was given (non-empty data
of at most `EMBED_LEN` bytes); second part: whatever `Embed` and `Data` do, a message
that `GenMsg` returns, on any attempt, is of this form. -/
theorem GenMsg_ExtractPlaintext (E : Embedding R P) (b : List ℕ) (rnds : ℕ → ℕ → R) :
    (0 < E.EmbedLen →
      (∀ d r, d ≠ [] → d.length ≤ E.EmbedLen → E.Data (E.Embed d r) = .ok d) →
      ∀ fuel, ∃ pts, GenMsg E b rnds (fuel + 1) 0 = some pts ∧
        pts.length = (b.length + 1 + E.EmbedLen - 1) / E.EmbedLen ∧
        (∀ i, i < pts.length → pts[i]? = some
          (E.Embed (((b ++ [MSG]).drop (i * E.EmbedLen)).take E.EmbedLen) (rnds 0 i))) ∧
        ExtractPlaintext E pts = some (.ok (b, MSG))) ∧
    (∀ fuel a pts, GenMsg E b rnds fuel a = some pts →
      pts.length = (b.length + 1 + E.EmbedLen - 1) / E.EmbedLen ∧
      (∃ a', ∀ i, i < pts.length → pts[i]? = some
        (E.Embed (((b ++ [MSG]).drop (i * E.EmbedLen)).take E.EmbedLen) (rnds a' i))) ∧
      ExtractPlaintext E pts = some (.ok (b, MSG))) := by
  refine ⟨fun hL hData fuel => ?_, fun fuel a pts h => GenMsg_partial E b rnds fuel a pts h⟩
  obtain ⟨pts, h1, h2, h3, h4⟩ := genPoints_spec E (b ++ [MSG]) (rnds 0) hL hData
    (b ++ [MSG]).length 0 (by simp) (by
      simp only [zero_add]
      exact Nat.le_mul_of_pos_right _ hL)
  simp only [zero_mul, List.drop_zero, Nat.sub_zero, zero_add] at h2 h3 h4
  have hext : ExtractPlaintext E pts = some (.ok (b, MSG)) := by
    simp [ExtractPlaintext, h4, MSG, TRAP]
  refine ⟨pts, ?_, ?_, h3, hext⟩
  · simp only [GenMsg, h1, hext]
    simp [compareArray_self]
  · rw [h2]
    simp

theorem GenMsg_ExtractPlaintext_witness :
    0 < toyEmbedding.EmbedLen ∧
    (∀ d r, d ≠ [] → d.length ≤ toyEmbedding.EmbedLen →
      toyEmbedding.Data (toyEmbedding.Embed d r) = .ok d) ∧
    ∃ pts, GenMsg toyEmbedding [5, 6, 7] (fun _ _ => ()) (0 + 1) 0 = some pts ∧
      pts.length = (([5, 6, 7] : List ℕ).length + 1 + toyEmbedding.EmbedLen - 1)
        / toyEmbedding.EmbedLen ∧
      (∀ i, i < pts.length → pts[i]? = some
        (toyEmbedding.Embed
          (((([5, 6, 7] : List ℕ) ++ [MSG]).drop (i * toyEmbedding.EmbedLen)).take
            toyEmbedding.EmbedLen) ((fun _ _ => ()) 0 i))) ∧
      ExtractPlaintext toyEmbedding pts = some (.ok ([5, 6, 7], MSG)) :=
  ⟨by decide, fun _ _ _ _ => rfl,
    (GenMsg_ExtractPlaintext toyEmbedding [5, 6, 7] (fun _ _ => ())).1 (by decide)
      (fun _ _ _ _ => rfl) 0⟩

end MessageProofs

section TrusteeKeyProofs

variable {F P : Type} [Field F] [AddCommGroup P] [Module F P]

theorem reportsAccepted_of_equal_counts (reports : List ReportArgs)
    (hflags : ∀ r ∈ reports, r.CorrectHash = true ∧ r.CorrectTraps = true ∧ r.NoDups = true ∧
      r.NumTraps = r.NumMsgs)
    (hsame : ∀ r ∈ reports, ∀ r' ∈ reports, r.Uid = r'.Uid → r.NumTraps = r'.NumTraps) :
    reportsAcceptedInt reports := by
  refine ⟨⟨fun r hr => ⟨(hflags r hr).1, (hflags r hr).2.1, (hflags r hr).2.2.1⟩, ?_⟩, ?_⟩
  · intro r hr r' hr' hu
    refine ⟨hsame r hr r' hr' hu, ?_⟩
    rw [← (hflags r hr).2.2.2, ← (hflags r' hr').2.2.2]
    exact hsame r hr r' hr' hu
  · congr 1
    refine Finset.sum_congr rfl (fun uid _ => ?_)
    unfold numTrapsOf numMsgsOf
    cases hf : reports.find? (fun r => r.Uid == uid) with
    | none => rfl
    | some r =>
      have hr : r ∈ reports := List.mem_of_find?_eq_some hf
      simp only [Option.map_some', Option.getD_some]
      exact (hflags r hr).2.2.2

/-- What the trustees do return (the reports of `TestReport` with `NoDups` set): if
each of the `NumGroups·Threshold` reports received by every
trustee for a round has `CorrectHash`, `CorrectTraps` and `NoDups` true and
`NumTraps = NumMsgs`, and reports with the same `Uid` carry the same counts, then each
`Report` call (the `k`-th receive, `k < NumGroups·Threshold`) returns that trustee's
private key without error, and the sum of the keys returned by all trustees is the
private key of `CombinePublicKeys` of the trustees' public keys. -/
theorem Report_returns_trustee_keys (G : P) (privs : List F) (NumGroups Threshold : ℕ)
    (reports : ℕ → List ReportArgs)
    (hlen : ∀ u, u < privs.length → (reports u).length = NumReports NumGroups Threshold)
    (hflags : ∀ u, u < privs.length → ∀ r ∈ reports u,
      r.CorrectHash = true ∧ r.CorrectTraps = true ∧ r.NoDups = true ∧ r.NumTraps = r.NumMsgs)
    (hsame : ∀ u, u < privs.length → ∀ r ∈ reports u, ∀ r' ∈ reports u,
      r.Uid = r'.Uid → r.NumTraps = r'.NumTraps)
    (k : ℕ) (hk : k < NumReports NumGroups Threshold) :
    (∀ u (hu : u < privs.length),
      Report (privs.get ⟨u, hu⟩) (checkReports (NumReports NumGroups Threshold) (reports u)) k
        = some (.ok (privs.get ⟨u, hu⟩))) ∧
    PubFromPriv G (CombinePrivateKeys privs) = CombinePublicKeys (privs.map (PubFromPriv G)) := by
  refine ⟨fun u hu => ?_, PubFromPriv_Combine G privs⟩
  have hacc := reportsAccepted_of_equal_counts (reports u) (hflags u hu) (hsame u hu)
  have h := (checkReports_sent _ (reports u) (hlen u hu) k hk).1 hacc
  simp [Report, h]

theorem Report_returns_trustee_keys_witness :
    (∀ u, u < ([3, 5] : List (ZMod 7)).length →
      ((fun _ => List.replicate 3 goodReport) u).length = NumReports 1 3) ∧
    0 < NumReports 1 3 ∧
    (∀ u (hu : u < ([3, 5] : List (ZMod 7)).length),
      Report (([3, 5] : List (ZMod 7)).get ⟨u, hu⟩)
        (checkReports (NumReports 1 3) ((fun _ => List.replicate 3 goodReport) u)) 0
        = some (.ok (([3, 5] : List (ZMod 7)).get ⟨u, hu⟩))) ∧
    PubFromPriv (1 : ZMod 7) (CombinePrivateKeys ([3, 5] : List (ZMod 7)))
      = CombinePublicKeys (([3, 5] : List (ZMod 7)).map (PubFromPriv (1 : ZMod 7))) :=
  ⟨fun _ _ => rfl, by decide,
    Report_returns_trustee_keys (1 : ZMod 7) ([3, 5] : List (ZMod 7)) 1 3
      (fun _ => List.replicate 3 goodReport) (fun _ _ => rfl)
      (fun _ _ r hr => by
        have : r = goodReport := List.eq_of_mem_replicate hr
        subst this
        decide)
      (fun _ _ r hr r' hr' _ => by
        have h1 : r = goodReport := List.eq_of_mem_replicate hr
        have h2 : r' = goodReport := List.eq_of_mem_replicate hr'
        rw [h1, h2])
      0 (by decide)⟩

/-- C20: on the reports that `TestReport` sends the trustee does not return its key.
With `NumGroups = 1` and `PerGroup = Threshold = 3`, the three reports of `TestReport`
have `CorrectHash` and `CorrectTraps` true and `NumTraps = NumMsgs`, and every `Report`
call returns the error, not the key, because `checkReports` also tests `NoDups`, which
the test leaves unset.  With `PerGroup = 3 > Threshold = 2` the third of
`NumGroups·PerGroup` good reports gets no answer, and two reports of one `Uid` with
different counts are refused. -/
theorem Report_TestReport_fails :
    ((∀ r ∈ List.replicate 3 testReport,
        r.CorrectHash = true ∧ r.CorrectTraps = true ∧ r.NumTraps = r.NumMsgs) ∧
      (List.replicate 3 testReport).length = NumReports 1 3 ∧
      ∀ k, k < 3 → Report (3 : ZMod 7) (checkReports (NumReports 1 3)
        (List.replicate 3 testReport)) k = some (.error "Report failed")) ∧
    (Report (3 : ZMod 7) (checkReports (NumReports 1 2) (List.replicate 3 goodReport)) 2
      = none) ∧
    ((∀ r ∈ unequalReports,
        r.CorrectHash = true ∧ r.CorrectTraps = true ∧ r.NoDups = true ∧
          r.NumTraps = r.NumMsgs) ∧
      unequalReports.length = NumReports 1 2 ∧
      Report (3 : ZMod 7) (checkReports (NumReports 1 2) unequalReports) 0
        = some (.error "Report failed")) := by
  refine ⟨⟨by decide, by decide, ?_⟩, by rfl, by decide, by decide, by rfl⟩
  intro k hk
  interval_cases k <;> rfl

end TrusteeKeyProofs

section GroupGenProofs

theorem forLoop_some_inv {σ : Type} (body : ℕ → σ → Option σ) (I : ℕ → σ → Prop)
    (hstep : ∀ j t t', I j t → body j t = some t' → I (j + 1) t') (n : ℕ) :
    ∀ (i : ℕ) (s s' : σ), I i s → forLoop body n i s = some s' → I (i + n) s' := by
  induction n with
  | zero =>
    intro i s s' h hs
    simp only [forLoop, Option.some.injEq] at hs
    subst hs
    exact h
  | succ n ih =>
    intro i s s' h hs
    simp only [forLoop] at hs
    cases hb : body i s with
    | none => simp [hb] at hs
    | some t =>
      rw [hb] at hs
      simp only [Option.some_bind] at hs
      have := ih (i + 1) t s' (hstep i s t h hb) hs
      have e : i + (n + 1) = i + 1 + n := by omega
      rw [e]
      exact this

theorem forCollect_inv {σ α : Type} (body : ℕ → σ → Option (α × σ))
    (I : ℕ → List α → σ → Prop)
    (hstep : ∀ i acc s a s', I i acc s → body i s = some (a, s') → I (i + 1) (acc ++ [a]) s')
    (n : ℕ) :
    ∀ (i : ℕ) (acc : List α) (s : σ) (out : List α) (s' : σ), I i acc s →
      forCollect body n i s = some (out, s') → I (i + n) (acc ++ out) s' ∧ out.length = n := by
  induction n with
  | zero =>
    intro i acc s out s' h hs
    simp only [forCollect, Option.some.injEq, Prod.mk.injEq] at hs
    obtain ⟨h1, h2⟩ := hs
    subst h1 h2
    simpa using h
  | succ n ih =>
    intro i acc s out s' h hs
    simp only [forCollect] at hs
    cases hb : body i s with
    | none => simp [hb] at hs
    | some r =>
      obtain ⟨a, t⟩ := r
      rw [hb] at hs
      simp only at hs
      cases hr : forCollect body n (i + 1) t with
      | none => simp [hr] at hs
      | some r' =>
        obtain ⟨out', t'⟩ := r'
        rw [hr] at hs
        simp only [Option.some.injEq, Prod.mk.injEq] at hs
        obtain ⟨h1, h2⟩ := hs
        subst h1 h2
        obtain ⟨h3, h4⟩ := ih (i + 1) (acc ++ [a]) t out' t' (hstep i acc s a t h hb) hr
        have e : i + (n + 1) = i + 1 + n := by omega
        rw [e]
        refine ⟨by simpa using h3, by simp [h4]⟩

theorem mapIdxOpt_spec {α β : Type} (f : ℕ → α → Option β) (l : List α) :
    ∀ (i : ℕ) (out : List β), mapIdxOpt f l i = some out →
      out.length = l.length ∧
      ∀ j, (∀ a, l[j]? = some a → ∃ b, out[j]? = some b ∧ f (i + j) a = some b) ∧
        (∀ b, out[j]? = some b → ∃ a, l[j]? = some a ∧ f (i + j) a = some b) := by
  induction l with
  | nil =>
    intro i out h
    simp only [mapIdxOpt, Option.some.injEq] at h
    subst h
    simp
  | cons a l ih =>
    intro i out h
    simp only [mapIdxOpt] at h
    cases hf : f i a with
    | none => simp [hf] at h
    | some b =>
      rw [hf] at h
      simp only at h
      cases hr : mapIdxOpt f l (i + 1) with
      | none => simp [hr] at h
      | some out' =>
        rw [hr] at h
        simp only [Option.map_some', Option.some.injEq] at h
        subst h
        obtain ⟨h1, h2⟩ := ih (i + 1) out' hr
        refine ⟨by simp [h1], fun j => ?_⟩
        cases j with
        | zero => simp [hf]
        | succ j =>
          have e : i + (j + 1) = i + 1 + j := by omega
          simp only [List.getElem?_cons_succ, e]
          exact h2 j

theorem take_succ_set {α : Type} (l : List α) (j : ℕ) (a : α) (hj : j < l.length) :
    (l.set j a).take (j + 1) = l.take j ++ [a] := by
  induction l generalizing j with
  | nil => simp at hj
  | cons x l ih =>
    cases j with
    | zero => simp
    | succ j =>
      simp only [List.length_cons, add_lt_add_iff_right] at hj
      simp [ih j hj]

theorem IsMember_iff (val : Int) (set : List Int) : IsMember val set = true ↔ val ∈ set := by
  induction set with
  | nil => simp [IsMember]
  | cons v set ih =>
    simp only [IsMember, List.mem_cons]
    by_cases h : val = v
    · simp [h]
    · simp [h, ih]

theorem UInt_nonneg (rand : ℕ → ℕ) (n : ℕ) : 0 ≤ UInt rand n := by
  unfold UInt
  exact Int.ofNat_nonneg _

theorem pickServer_spec (rand : ℕ → ℕ) (numServers : ℕ) (group : List Int) (fuel : ℕ) :
    ∀ (n : ℕ) (idx : Int) (n' : ℕ), pickServer rand numServers group fuel n = some (idx, n') →
      idx ∉ group ∧ 0 ≤ idx ∧ idx < numServers := by
  induction fuel with
  | zero => intro n idx n' h; simp [pickServer] at h
  | succ fuel ih =>
    intro n idx n' h
    simp only [pickServer] at h
    by_cases h0 : numServers = 0
    · simp [h0] at h
    · rw [if_neg h0] at h
      by_cases hm : IsMember (UInt rand n % (numServers : Int)) group = true
      · simp only [hm, Bool.not_true, Bool.false_eq_true, if_false] at h
        exact ih (n + 1) idx n' h
      · simp only [hm, Bool.not_false, if_true, Option.some.injEq, Prod.mk.injEq] at h
        obtain ⟨h1, -⟩ := h
        subst h1
        have hpos : (0 : Int) < numServers := by exact_mod_cast Nat.pos_of_ne_zero h0
        refine ⟨fun hin => hm ((IsMember_iff _ _).mpr hin), Int.emod_nonneg _ (by omega),
          Int.emod_lt_of_pos _ hpos⟩

theorem GenRandomGroup_step (rand : ℕ → ℕ) (fuel numServers perGroup j : ℕ)
    (t t' : List Int × ℕ) (hI : groupInv numServers perGroup j t)
    (hb : (pickServer rand numServers t.1 fuel t.2).map (fun r => (t.1.set j r.1, r.2))
      = some t') :
    groupInv numServers perGroup (j + 1) t' := by
  obtain ⟨h1, h2, h3, h4⟩ := hI
  cases hp : pickServer rand numServers t.1 fuel t.2 with
  | none => simp [hp] at hb
  | some r =>
    obtain ⟨idx, m⟩ := r
    rw [hp] at hb
    simp only [Option.map_some', Option.some.injEq] at hb
    subst hb
    obtain ⟨p1, p2, p3⟩ := pickServer_spec rand numServers t.1 fuel t.2 idx m hp
    by_cases hj : j < t.1.length
    · have htake : (t.1.set j idx).take (j + 1) = t.1.take j ++ [idx] :=
        take_succ_set t.1 j idx hj
      have hdrop : (t.1.set j idx).drop (j + 1) = t.1.drop (j + 1) := by
        rw [List.drop_set_of_lt _ _ (by omega)]
      refine ⟨by simp [h1], ?_, ?_, ?_⟩
      · simp only [htake]
        rw [List.nodup_append]
        refine ⟨h2, List.nodup_singleton _, ?_⟩
        intro x hx hx'
        simp only [List.mem_singleton] at hx'
        subst hx'
        exact p1 (List.mem_of_mem_take hx)
      · simp only [htake]
        intro x hx
        rw [List.mem_append] at hx
        rcases hx with hx | hx
        · exact h3 x hx
        · simp only [List.mem_singleton] at hx
          subst hx
          exact ⟨p2, p3⟩
      · simp only [hdrop]
        intro x hx
        exact h4 x (List.mem_of_mem_drop (by
          have : t.1.drop (j + 1) = (t.1.drop j).drop 1 := by simp [List.drop_drop]
          rw [this] at hx
          exact hx))
    · have hset : t.1.set j idx = t.1 := List.set_eq_of_length_le (by omega)
      have htake : t.1.take (j + 1) = t.1.take j := by
        rw [List.take_of_length_le (by omega), List.take_of_length_le (by omega)]
      have hdrop : t.1.drop (j + 1) = [] := List.drop_of_length_le (by omega)
      refine ⟨?_, ?_, ?_, ?_⟩
      · simp only [hset]; exact h1
      · simp only [hset, htake]; exact h2
      · simp only [hset, htake]; exact h3
      · simp only [hset, hdrop]; simp

theorem GenRandomGroup_spec (rand : ℕ → ℕ) (fuel numServers numGroups perGroup n : ℕ)
    (group : List Int) (n' : ℕ)
    (h : GenRandomGroup rand fuel numServers numGroups perGroup n = some (group, n')) :
    group.length = perGroup ∧ group.Nodup ∧ ∀ x ∈ group, 0 ≤ x ∧ x < numServers := by
  unfold GenRandomGroup at h
  have hinv := forLoop_some_inv _ (groupInv numServers perGroup)
    (fun j t t' hI hb => GenRandomGroup_step rand fuel numServers perGroup j t t' hI hb)
    perGroup 0 (List.replicate perGroup (-1 : Int), n) (group, n')
    (by
      refine ⟨by simp, by simp, by simp, ?_⟩
      intro x hx
      simp only [List.drop_zero] at hx
      exact (List.mem_replicate.mp hx).2)
    h
  obtain ⟨h1, h2, h3, -⟩ := hinv
  simp only [zero_add] at h2 h3
  have htake : group.take perGroup = group := List.take_of_length_le h1.le
  rw [htake] at h2 h3
  exact ⟨h1, h2, h3⟩

theorem baseGroup_spec (rand : ℕ → ℕ) (fuel numServers numGroups perGroup gid n : ℕ)
    (members : List Int) (n' : ℕ)
    (h : baseGroup rand fuel numServers numGroups perGroup gid n = some (members, n')) :
    ∃ base : List Int, base.Sorted (· < ·) ∧ base.length = perGroup ∧
      (∀ x ∈ base, 0 ≤ x ∧ x < numServers) ∧ members = base.rotate (gid % perGroup) ∧
      0 < perGroup := by
  unfold baseGroup at h
  cases hg : GenRandomGroup rand fuel numServers numGroups perGroup n with
  | none => simp [hg] at h
  | some r =>
    obtain ⟨group, m⟩ := r
    rw [hg] at h
    simp only at h
    by_cases hp : perGroup = 0
    · simp [hp] at h
    · rw [if_neg hp] at h
      simp only [Option.some.injEq, Prod.mk.injEq] at h
      obtain ⟨h1, -⟩ := h
      obtain ⟨g1, g2, g3⟩ := GenRandomGroup_spec rand fuel numServers numGroups perGroup n group m hg
      have hperm := List.perm_insertionSort (· ≤ ·) group
      have hsorted := List.sorted_insertionSort (· ≤ ·) group
      have hlen : (group.insertionSort (· ≤ ·)).length = perGroup := by
        rw [hperm.length_eq, g1]
      have hpos : 0 < perGroup := Nat.pos_of_ne_zero hp
      refine ⟨group.insertionSort (· ≤ ·), hsorted.lt_of_le (hperm.nodup_iff.mpr g2), hlen,
        fun x hx => g3 x (hperm.mem_iff.mp hx), ?_, hpos⟩
      rw [← h1, List.rotate_eq_drop_append_take
        (by rw [hlen]; exact (Nat.mod_lt _ hpos).le)]

theorem pickUid_spec (rand : ℕ → ℕ) (usedUids : List Int) (fuel : ℕ) :
    ∀ (n : ℕ) (uid : Int) (n' : ℕ) (used' : List Int),
      pickUid rand usedUids fuel n = some (uid, n', used') →
      uid ∉ usedUids ∧ used' = usedUids ++ [uid] := by
  induction fuel with
  | zero => intro n uid n' used' h; simp [pickUid] at h
  | succ fuel ih =>
    intro n uid n' used' h
    simp only [pickUid] at h
    by_cases hm : IsMember (UInt rand n) usedUids = true
    · rw [if_pos hm] at h
      exact ih (n + 1) uid n' used' h
    · rw [if_neg hm] at h
      simp only [Option.some.injEq, Prod.mk.injEq] at h
      obtain ⟨h1, -, h3⟩ := h
      subst h1
      exact ⟨fun hin => hm ((IsMember_iff _ _).mpr hin), h3.symm⟩

theorem newGroup_spec {P : Type} (rand : ℕ → ℕ) (fuel : ℕ) (baseGroups : List (List Int))
    (publicKeys : List P) (level gid : ℕ) (st : ℕ × List Int) (g : Group P)
    (st' : ℕ × List Int)
    (h : newGroup rand fuel baseGroups publicKeys level gid st = some (g, st')) :
    baseGroups[gid]? = some g.Members ∧ g.Level = level ∧ g.Gid = gid ∧ g.AdjList = [] ∧
      g.Uid ∉ st.2 ∧ st'.2 = st.2 ++ [g.Uid] := by
  unfold newGroup at h
  cases hb : baseGroups[gid]? with
  | none => simp [hb] at h
  | some members =>
    rw [hb] at h
    simp only at h
    cases hk : memberKeysOf publicKeys members with
    | none => simp [hk] at h
    | some memberKeys =>
      rw [hk] at h
      simp only at h
      cases hu : pickUid rand st.2 fuel st.1 with
      | none => simp [hu] at h
      | some r =>
        obtain ⟨uid, n', used'⟩ := r
        rw [hu] at h
        simp only [Option.some.injEq, Prod.mk.injEq] at h
        obtain ⟨h1, h2⟩ := h
        subst h1 h2
        obtain ⟨u1, u2⟩ := pickUid_spec rand st.2 fuel st.1 uid n' used' hu
        exact ⟨rfl, rfl, rfl, rfl, u1, u2⟩

/-- What holds of the groups of one level before the adjacency lists are set. -/
theorem levelGroups_spec {P : Type} (rand : ℕ → ℕ) (fuel : ℕ) (baseGroups : List (List Int))
    (publicKeys : List P) (level numGroups : ℕ) (st : ℕ × List Int) (groups : List (Group P))
    (st' : ℕ × List Int)
    (h : forCollect (newGroup rand fuel baseGroups publicKeys level) numGroups 0 st
      = some (groups, st')) :
    groups.length = numGroups ∧
    (∀ (gid : ℕ) (g : Group P), groups[gid]? = some g →
      baseGroups[gid]? = some g.Members ∧ g.Level = level ∧ g.Gid = gid ∧ g.AdjList = []) ∧
    st'.2 = st.2 ++ groups.map Group.Uid ∧ (st.2.Nodup → st'.2.Nodup) := by
  have hinv := forCollect_inv (newGroup rand fuel baseGroups publicKeys level)
    (fun i (acc : List (Group P)) (s : ℕ × List Int) => acc.length = i ∧
      (∀ (gid : ℕ) (g : Group P), acc[gid]? = some g →
        baseGroups[gid]? = some g.Members ∧ g.Level = level ∧ g.Gid = gid ∧ g.AdjList = []) ∧
      s.2 = st.2 ++ acc.map Group.Uid ∧ (st.2.Nodup → s.2.Nodup))
    (by
      intro i acc s a s' hI hb
      obtain ⟨h1, h2, h3, h4⟩ := hI
      obtain ⟨n1, n2, n3, n4, n5, n6⟩ := newGroup_spec rand fuel baseGroups publicKeys level i s a s' hb
      refine ⟨by simp [h1], ?_, ?_, ?_⟩
      · intro gid g hg
        by_cases hlt : gid < acc.length
        · rw [List.getElem?_append_left hlt] at hg
          exact h2 gid g hg
        · rw [List.getElem?_append_right (by omega)] at hg
          have hz : gid - acc.length = 0 := by
            by_contra hne
            obtain ⟨m, hm⟩ := Nat.exists_eq_succ_of_ne_zero hne
            rw [hm] at hg
            simp at hg
          rw [hz] at hg
          simp only [List.getElem?_cons_zero, Option.some.injEq] at hg
          subst hg
          have : gid = i := by omega
          subst this
          exact ⟨n1, n2, n3, n4⟩
      · rw [n6, h3]
        simp
      · intro hnd
        rw [n6]
        rw [List.nodup_append]
        refine ⟨h4 hnd, List.nodup_singleton _, ?_⟩
        intro x hx hx'
        simp only [List.mem_singleton] at hx'
        subst hx'
        exact n5 hx)
    numGroups 0 [] st groups st' ⟨rfl, by simp, by simp, fun hnd => hnd⟩ h
  obtain ⟨⟨-, h2, h3, h4⟩, h5⟩ := hinv
  simp only [List.nil_append] at h2 h3
  exact ⟨h5, h2, h3, h4⟩

/-- What holds of all levels before the adjacency lists are set. -/
theorem levels_spec {P : Type} (rand : ℕ → ℕ) (fuel : ℕ) (baseGroups : List (List Int))
    (publicKeys : List P) (numLevels numGroups n : ℕ) (groupss : List (List (Group P)))
    (st' : ℕ × List Int)
    (h : forCollect (fun level st =>
        forCollect (newGroup rand fuel baseGroups publicKeys level) numGroups 0 st)
        numLevels 0 (n, []) = some (groupss, st')) :
    groupss.length = numLevels ∧
    (∀ (level : ℕ) (groups : List (Group P)), groupss[level]? = some groups → groups.length = numGroups ∧
      ∀ (gid : ℕ) (g : Group P), groups[gid]? = some g →
        baseGroups[gid]? = some g.Members ∧ g.Level = level ∧ g.Gid = gid ∧ g.AdjList = []) ∧
    (groupss.flatten.map Group.Uid).Nodup := by
  have hinv := forCollect_inv (fun level st =>
      forCollect (newGroup rand fuel baseGroups publicKeys level) numGroups 0 st)
    (fun i (acc : List (List (Group P))) (s : ℕ × List Int) => acc.length = i ∧
      (∀ (level : ℕ) (groups : List (Group P)), acc[level]? = some groups → groups.length = numGroups ∧
        ∀ (gid : ℕ) (g : Group P), groups[gid]? = some g →
          baseGroups[gid]? = some g.Members ∧ g.Level = level ∧ g.Gid = gid ∧ g.AdjList = []) ∧
      s.2 = acc.flatten.map Group.Uid ∧ s.2.Nodup)
    (by
      intro i acc s a s' hI hb
      obtain ⟨h1, h2, h3, h4⟩ := hI
      obtain ⟨l1, l2, l3, l4⟩ := levelGroups_spec rand fuel baseGroups publicKeys i numGroups s a s' hb
      refine ⟨by simp [h1], ?_, ?_, l4 h4⟩
      · intro level groups hg
        by_cases hlt : level < acc.length
        · rw [List.getElem?_append_left hlt] at hg
          exact h2 level groups hg
        · rw [List.getElem?_append_right (by omega)] at hg
          have hz : level - acc.length = 0 := by
            by_contra hne
            obtain ⟨m, hm⟩ := Nat.exists_eq_succ_of_ne_zero hne
            rw [hm] at hg
            simp at hg
          rw [hz] at hg
          simp only [List.getElem?_cons_zero, Option.some.injEq] at hg
          subst hg
          have : level = i := by omega
          subst this
          exact ⟨l1, l2⟩
      · rw [l3, h3]
        simp)
    numLevels 0 [] (n, []) groupss st' ⟨rfl, by simp, by simp, by simp⟩ h
  obtain ⟨⟨-, h2, h3, h4⟩, h5⟩ := hinv
  simp only [List.nil_append] at h2 h3
  rw [h3] at h4
  exact ⟨h5, h2, h4⟩

theorem flatten_nodup_pos {α β : Type} (f : α → β) (L : List (List α))
    (h : (L.flatten.map f).Nodup) :
    ∀ (l1 g1 l2 g2 : ℕ) (a b : α), (L[l1]?).bind (fun x => x[g1]?) = some a →
      (L[l2]?).bind (fun x => x[g2]?) = some b → (l1 ≠ l2 ∨ g1 ≠ g2) → f a ≠ f b := by
  induction L with
  | nil => intro l1 g1 l2 g2 a b ha; simp at ha
  | cons x L ih =>
    simp only [List.flatten_cons, List.map_append] at h
    rw [List.nodup_append] at h
    obtain ⟨hx, hL, hdis⟩ := h
    have hmemL : ∀ (l g : ℕ) (c : α), (L[l]?).bind (fun x => x[g]?) = some c →
        f c ∈ L.flatten.map f := by
      intro l g c hc
      cases hl : L[l]? with
      | none => simp [hl] at hc
      | some y =>
        rw [hl] at hc
        simp only [Option.some_bind] at hc
        refine List.mem_map_of_mem f (List.mem_flatten.mpr ⟨y, ?_, ?_⟩)
        · exact List.getElem?_mem hl
        · exact List.getElem?_mem hc
    intro l1 g1 l2 g2 a b ha hb hne
    cases l1 with
    | zero =>
      cases l2 with
      | zero =>
        simp only [List.getElem?_cons_zero, Option.some_bind] at ha hb
        have hg : g1 ≠ g2 := by
          rcases hne with h0 | h0
          · exact absurd rfl h0
          · exact h0
        intro heq
        have ha' : (x.map f)[g1]? = some (f a) := by simp [ha]
        have hb' : (x.map f)[g2]? = some (f b) := by simp [hb]
        rw [← heq] at hb'
        obtain ⟨i1, e1⟩ := List.getElem?_eq_some_iff.mp ha'
        obtain ⟨i2, e2⟩ := List.getElem?_eq_some_iff.mp hb'
        exact hg ((List.Nodup.getElem_inj_iff hx).mp (e1.trans e2.symm))
      | succ l2 =>
        simp only [List.getElem?_cons_zero, Option.some_bind] at ha
        simp only [List.getElem?_cons_succ] at hb
        intro heq
        have h1 : f a ∈ x.map f := List.mem_map_of_mem f (List.getElem?_mem ha)
        have h2 := hmemL l2 g2 b hb
        rw [← heq] at h2
        exact hdis h1 h2
    | succ l1 =>
      cases l2 with
      | zero =>
        simp only [List.getElem?_cons_zero, Option.some_bind] at hb
        simp only [List.getElem?_cons_succ] at ha
        intro heq
        have h1 : f b ∈ x.map f := List.mem_map_of_mem f (List.getElem?_mem hb)
        have h2 := hmemL l1 g1 a ha
        rw [heq] at h2
        exact hdis h1 h2
      | succ l2 =>
        simp only [List.getElem?_cons_succ] at ha hb
        exact ih hL l1 g1 l2 g2 a b ha hb (by omega)

theorem setAdjLists_spec {P : Type} (adj : ℕ → ℕ → Option (List (Option (ℕ × ℕ))))
    (groupss net : List (List (Group P))) (h : setAdjLists adj groupss = some net) :
    ∀ level gid,
      (∀ g0, groupAt groupss level gid = some g0 →
        ∃ a, adj level gid = some a ∧ groupAt net level gid = some { g0 with AdjList := a }) ∧
      (∀ g, groupAt net level gid = some g →
        ∃ g0, groupAt groupss level gid = some g0 ∧ adj level gid = some g.AdjList ∧
          g = { g0 with AdjList := g.AdjList }) := by
  unfold setAdjLists at h
  obtain ⟨-, hout⟩ := mapIdxOpt_spec _ groupss 0 net h
  intro level gid
  obtain ⟨h1, h2⟩ := hout level
  simp only [zero_add] at h1 h2
  constructor
  · intro g0 hg0
    unfold groupAt at hg0 ⊢
    cases hl : groupss[level]? with
    | none => simp [hl] at hg0
    | some groups =>
      rw [hl] at hg0
      simp only [Option.some_bind] at hg0
      obtain ⟨out, ho1, ho2⟩ := h1 groups hl
      obtain ⟨-, hin⟩ := mapIdxOpt_spec _ groups 0 out ho2
      obtain ⟨b, hb1, hb2⟩ := (hin gid).1 g0 hg0
      simp only [zero_add] at hb2
      cases ha : adj level gid with
      | none => simp [ha] at hb2
      | some a =>
        rw [ha] at hb2
        simp only [Option.map_some', Option.some.injEq] at hb2
        exact ⟨a, rfl, by simp [ho1, hb1, hb2]⟩
  · intro g hg
    unfold groupAt at hg ⊢
    cases hl : net[level]? with
    | none => simp [hl] at hg
    | some out =>
      rw [hl] at hg
      simp only [Option.some_bind] at hg
      obtain ⟨groups, hg1, hg2⟩ := h2 out hl
      obtain ⟨-, hin⟩ := mapIdxOpt_spec _ groups 0 out hg2
      obtain ⟨g0, hb1, hb2⟩ := (hin gid).2 g hg
      simp only [zero_add] at hb2
      cases ha : adj level gid with
      | none => simp [ha] at hb2
      | some a =>
        rw [ha] at hb2
        simp only [Option.map_some', Option.some.injEq] at hb2
        subst hb2
        exact ⟨g0, by simp [hg1, hb1], rfl, rfl⟩

theorem baseGroups_spec (rand : ℕ → ℕ) (fuel numServers numGroups perGroup : ℕ)
    (baseGroups : List (List Int)) (n : ℕ)
    (h : forCollect (baseGroup rand fuel numServers numGroups perGroup) numGroups 0 0
      = some (baseGroups, n)) :
    baseGroups.length = numGroups ∧
    ∀ (gid : ℕ) (members : List Int), baseGroups[gid]? = some members →
      ∃ base : List Int, base.Sorted (· < ·) ∧ base.length = perGroup ∧
        (∀ x ∈ base, 0 ≤ x ∧ x < numServers) ∧ members = base.rotate (gid % perGroup) ∧
        0 < perGroup := by
  have hinv := forCollect_inv (baseGroup rand fuel numServers numGroups perGroup)
    (fun i (acc : List (List Int)) (_ : ℕ) => acc.length = i ∧
      ∀ (gid : ℕ) (members : List Int), acc[gid]? = some members →
        ∃ base : List Int, base.Sorted (· < ·) ∧ base.length = perGroup ∧
          (∀ x ∈ base, 0 ≤ x ∧ x < numServers) ∧ members = base.rotate (gid % perGroup) ∧
          0 < perGroup)
    (by
      intro i acc s a s' hI hb
      obtain ⟨h1, h2⟩ := hI
      refine ⟨by simp [h1], ?_⟩
      intro gid members hg
      by_cases hlt : gid < acc.length
      · rw [List.getElem?_append_left hlt] at hg
        exact h2 gid members hg
      · rw [List.getElem?_append_right (by omega)] at hg
        have hz : gid - acc.length = 0 := by
          by_contra hne
          obtain ⟨m, hm⟩ := Nat.exists_eq_succ_of_ne_zero hne
          rw [hm] at hg
          simp at hg
        rw [hz] at hg
        simp only [List.getElem?_cons_zero, Option.some.injEq] at hg
        subst hg
        have : gid = i := by omega
        subst this
        exact baseGroup_spec rand fuel numServers numGroups perGroup gid s a s' hb)
    numGroups 0 [] 0 baseGroups n ⟨rfl, by simp⟩ h
  obtain ⟨⟨-, h2⟩, h5⟩ := hinv
  simp only [List.nil_append] at h2
  exact ⟨h5, h2⟩

/-- The facts about `GenerateGroups` that the theorems below share: the base groups,
the groups before the adjacency lists are set, and how the result arises from them. -/
theorem GenerateGroups_inv {P : Type} (Log2 : ℕ → ℕ) (rand : ℕ → ℕ) (fuel : ℕ) (netType : Int)
    (numServers numGroups perGroup numLevels : ℕ) (publicKeys : List P)
    (net : List (List (Group P)))
    (h : GenerateGroups Log2 rand fuel netType numServers numGroups perGroup numLevels
      publicKeys = some net) :
    ∃ (baseGroups : List (List Int)) (groupss : List (List (Group P))),
      (baseGroups.length = numGroups ∧
        ∀ (gid : ℕ) (members : List Int), baseGroups[gid]? = some members →
          ∃ base : List Int, base.Sorted (· < ·) ∧ base.length = perGroup ∧
            (∀ x ∈ base, 0 ≤ x ∧ x < numServers) ∧ members = base.rotate (gid % perGroup) ∧
            0 < perGroup) ∧
      (groupss.length = numLevels ∧
        ∀ (level : ℕ) (groups : List (Group P)), groupss[level]? = some groups →
          groups.length = numGroups ∧
          ∀ (gid : ℕ) (g : Group P), groups[gid]? = some g →
            baseGroups[gid]? = some g.Members ∧ g.Level = level ∧ g.Gid = gid ∧
              g.AdjList = []) ∧
      (groupss.flatten.map Group.Uid).Nodup ∧
      (if netType = BUTTERFLY then
          setAdjLists (butterflyAdj (Log2 numGroups) numGroups numLevels) groupss
        else if netType = SQUARE then
          setAdjLists (fun level _ => some (squareAdj numGroups numLevels level)) groupss
        else some groupss) = some net := by
  unfold GenerateGroups at h
  cases hb : forCollect (baseGroup rand fuel numServers numGroups perGroup) numGroups 0 0 with
  | none => simp [hb] at h
  | some r =>
    obtain ⟨baseGroups, n⟩ := r
    rw [hb] at h
    simp only at h
    cases hg : forCollect (fun level st =>
        forCollect (newGroup rand fuel baseGroups publicKeys level) numGroups 0 st)
        numLevels 0 (n, []) with
    | none => simp [hg] at h
    | some r' =>
      obtain ⟨groupss, st'⟩ := r'
      rw [hg] at h
      simp only at h
      obtain ⟨l1, l2, l3⟩ := levels_spec rand fuel baseGroups publicKeys numLevels numGroups n
        groupss st' hg
      exact ⟨baseGroups, groupss,
        baseGroups_spec rand fuel numServers numGroups perGroup baseGroups n hb,
        ⟨l1, l2⟩, l3, h⟩

theorem groupAt_exists {P : Type} (groupss : List (List (Group P))) (numLevels numGroups : ℕ)
    (h1 : groupss.length = numLevels)
    (h2 : ∀ (level : ℕ) (groups : List (Group P)), groupss[level]? = some groups →
      groups.length = numGroups)
    (level gid : ℕ) (hl : level < numLevels) (hg : gid < numGroups) :
    ∃ g0, groupAt groupss level gid = some g0 := by
  have hl' : level < groupss.length := by omega
  have e1 : groupss[level]? = some groupss[level] := List.getElem?_eq_getElem hl'
  have hlen := h2 level _ e1
  have hg' : gid < (groupss[level]).length := by omega
  refine ⟨(groupss[level])[gid], ?_⟩
  unfold groupAt
  rw [e1]
  simp only [Option.some_bind]
  exact List.getElem?_eq_getElem hg'

theorem groupAt_some {P : Type} (groupss : List (List (Group P))) (level gid : ℕ) (g : Group P)
    (h : groupAt groupss level gid = some g) :
    ∃ groups, groupss[level]? = some groups ∧ groups[gid]? = some g := by
  unfold groupAt at h
  cases hl : groupss[level]? with
  | none => simp [hl] at h
  | some groups =>
    rw [hl] at h
    exact ⟨groups, rfl, by simpa using h⟩

/-- Every group of the result is a group built before the adjacency lists were set,
with a new `AdjList`. -/
theorem net_of_groupss {P : Type} (netType : Int)
    (adjB adjS : ℕ → ℕ → Option (List (Option (ℕ × ℕ))))
    (groupss net : List (List (Group P)))
    (h : (if netType = BUTTERFLY then setAdjLists adjB groupss
      else if netType = SQUARE then setAdjLists adjS groupss
      else some groupss) = some net)
    (level gid : ℕ) (g : Group P) (hg : groupAt net level gid = some g) :
    ∃ g0, groupAt groupss level gid = some g0 ∧ g = { g0 with AdjList := g.AdjList } := by
  by_cases hB : netType = BUTTERFLY
  · rw [if_pos hB] at h
    obtain ⟨g0, h1, -, h3⟩ := (setAdjLists_spec adjB groupss net h level gid).2 g hg
    exact ⟨g0, h1, h3⟩
  · rw [if_neg hB] at h
    by_cases hS : netType = SQUARE
    · rw [if_pos hS] at h
      obtain ⟨g0, h1, -, h3⟩ := (setAdjLists_spec adjS groupss net h level gid).2 g hg
      exact ⟨g0, h1, h3⟩
    · rw [if_neg hS] at h
      simp only [Option.some.injEq] at h
      subst h
      exact ⟨g, hg, rfl⟩

theorem add_two_pow_eq_xor (gid s : ℕ) (h : gid.testBit s = false) :
    gid + 2 ^ s = gid ^^^ 2 ^ s := by
  have hc : gid % 2 ^ (s + 1) < 2 ^ s := by
    apply Nat.lt_pow_two_of_testBit
    intro i hi
    rw [Nat.testBit_mod_two_pow]
    by_cases his : i = s
    · subst his
      simp [h]
    · have : ¬ i < s + 1 := by omega
      simp [this]
  have hdec : gid = 2 ^ (s + 1) * (gid / 2 ^ (s + 1)) + gid % 2 ^ (s + 1) :=
    (Nat.div_add_mod gid (2 ^ (s + 1))).symm
  apply Nat.eq_of_testBit_eq
  intro i
  rw [Nat.testBit_xor, Nat.testBit_two_pow]
  rcases Nat.lt_trichotomy i s with hlt | heq | hgt
  · rw [Nat.add_comm, Nat.testBit_two_pow_add_gt hlt]
    have : ¬ s = i := by omega
    simp [this]
  · subst heq
    rw [Nat.add_comm, Nat.testBit_two_pow_add_eq]
    simp
  · have hne : ¬ s = i := by omega
    simp only [hne, decide_False, Bool.xor_false]
    have e1 : gid + 2 ^ s
        = 2 ^ (s + 1) * (gid / 2 ^ (s + 1)) + (gid % 2 ^ (s + 1) + 2 ^ s) := by
      rw [← Nat.add_assoc, Nat.div_add_mod]
    have hlt : gid % 2 ^ (s + 1) + 2 ^ s < 2 ^ (s + 1) :=
      calc gid % 2 ^ (s + 1) + 2 ^ s < 2 ^ s + 2 ^ s := Nat.add_lt_add_right hc _
        _ = 2 ^ (s + 1) := by ring
    rw [e1, Nat.testBit_mul_pow_two_add _ hlt]
    conv_rhs => rw [hdec, Nat.testBit_mul_pow_two_add _ (Nat.mod_lt _ (by positivity))]
    have : ¬ i < s + 1 := by omega
    simp [this]

theorem sub_two_pow_eq_xor (gid s : ℕ) (h : gid.testBit s = true) :
    2 ^ s ≤ gid ∧ gid - 2 ^ s = gid ^^^ 2 ^ s := by
  have hge : 2 ^ s ≤ gid := Nat.testBit_implies_ge h
  refine ⟨hge, ?_⟩
  have hoff : (gid - 2 ^ s).testBit s = false := by
    have := Nat.testBit_two_pow_add_eq (gid - 2 ^ s) s
    have e : 2 ^ s + (gid - 2 ^ s) = gid := by omega
    rw [e, h] at this
    cases hb : (gid - 2 ^ s).testBit s with
    | false => rfl
    | true => rw [hb] at this; simp at this
  have h1 := add_two_pow_eq_xor (gid - 2 ^ s) s hoff
  have e : gid - 2 ^ s + 2 ^ s = gid := by omega
  rw [e] at h1
  have h3 : ((gid - 2 ^ s) ^^^ 2 ^ s) ^^^ 2 ^ s = gid - 2 ^ s := by
    rw [Nat.xor_assoc, Nat.xor_self, Nat.xor_zero]
  rw [← h1] at h3
  exact h3.symm

theorem butterflyAdj_eq (k numLevels level gid : ℕ) (hk1 : 1 ≤ k) (hk2 : k < 63)
    (hl : level + 1 < numLevels) (hg : gid < 2 ^ k) :
    gid ^^^ (1 <<< (level % k)) < 2 ^ k ∧
    butterflyAdj k (2 ^ k) numLevels level gid
      = some [some (level + 1, gid), some (level + 1, gid ^^^ (1 <<< (level % k)))] := by
  have hs : level % k < k := Nat.mod_lt _ (by omega)
  have hpow : 2 ^ (level % k) < 2 ^ k := Nat.pow_lt_pow_right (by omega) hs
  have hk63 : (2 : ℕ) ^ k < 2 ^ 63 := Nat.pow_lt_pow_right (by omega) hk2
  have hxlt : gid ^^^ (1 <<< (level % k)) < 2 ^ k := by
    rw [Nat.one_shiftLeft]
    exact Nat.xor_lt_two_pow hg hpow
  refine ⟨hxlt, ?_⟩
  have hk0 : ¬ k = 0 := by omega
  have hlev : ((level : ℕ) : Int) < ((numLevels : ℕ) : Int) - 1 := by omega
  have hw1 : wrapInt64 (((1 <<< (level % k) : ℕ) : Int)) = ((2 ^ (level % k) : ℕ) : Int) := by
    rw [Nat.one_shiftLeft]
    exact wrapInt64_of_fits _ (le_trans (by norm_num) (Int.ofNat_nonneg _))
      (by exact_mod_cast (lt_trans hpow hk63))
  unfold butterflyAdj
  rw [if_neg hk0]
  simp only [hw1, if_pos hlev]
  rw [Nat.one_shiftLeft] at hxlt ⊢
  by_cases hbit : (gid >>> (level % k)) &&& 1 = 0
  · have htb : gid.testBit (level % k) = false := by
      rw [Nat.testBit_to_div_mod]
      rw [Nat.shiftRight_eq_div_pow, Nat.and_one_is_mod] at hbit
      simp [hbit]
    have hx := add_two_pow_eq_xor gid (level % k) htb
    have hw2 : wrapInt64 ((gid : Int) + ((2 ^ (level % k) : ℕ) : Int))
        = ((gid ^^^ 2 ^ (level % k) : ℕ) : Int) := by
      rw [← Nat.cast_add, hx]
      exact wrapInt64_of_fits _ (le_trans (by norm_num) (Int.ofNat_nonneg _))
        (by exact_mod_cast (lt_trans hxlt hk63))
    rw [if_pos hbit, hw2]
    have hin : (0 : Int) ≤ ((gid ^^^ 2 ^ (level % k) : ℕ) : Int) ∧
        ((gid ^^^ 2 ^ (level % k) : ℕ) : Int) < ((2 ^ k : ℕ) : Int) :=
      ⟨Int.ofNat_nonneg _, by exact_mod_cast hxlt⟩
    rw [if_pos hin]
    simp
  · have htb : gid.testBit (level % k) = true := by
      rw [Nat.testBit_to_div_mod]
      rw [Nat.shiftRight_eq_div_pow, Nat.and_one_is_mod] at hbit
      have : gid / 2 ^ (level % k) % 2 = 1 := by omega
      simp [this]
    obtain ⟨hge, hx⟩ := sub_two_pow_eq_xor gid (level % k) htb
    have hw2 : wrapInt64 ((gid : Int) - ((2 ^ (level % k) : ℕ) : Int))
        = ((gid ^^^ 2 ^ (level % k) : ℕ) : Int) := by
      rw [← Int.ofNat_sub hge, hx]
      exact wrapInt64_of_fits _ (le_trans (by norm_num) (Int.ofNat_nonneg _))
        (by exact_mod_cast (lt_trans hxlt hk63))
    rw [if_neg hbit, hw2]
    have hin : (0 : Int) ≤ ((gid ^^^ 2 ^ (level % k) : ℕ) : Int) ∧
        ((gid ^^^ 2 ^ (level % k) : ℕ) : Int) < ((2 ^ k : ℕ) : Int) :=
      ⟨Int.ofNat_nonneg _, by exact_mod_cast hxlt⟩
    rw [if_pos hin]
    simp

end GroupGenProofs

section GroupGenTotal

theorem forCollect_total {σ α : Type} (body : ℕ → σ → Option (α × σ)) (I : ℕ → σ → Prop)
    (n : ℕ) :
    ∀ (i : ℕ) (s : σ), I i s →
      (∀ j t, i ≤ j → j < i + n → I j t → ∃ a t', body j t = some (a, t') ∧ I (j + 1) t') →
      ∃ out s', forCollect body n i s = some (out, s') ∧ I (i + n) s' := by
  induction n with
  | zero => intro i s h _; exact ⟨[], s, rfl, by simpa using h⟩
  | succ n ih =>
    intro i s h hstep
    obtain ⟨a, t, ht, hI⟩ := hstep i s (le_refl i) (by omega) h
    obtain ⟨out, s', hs', hI'⟩ := ih (i + 1) t hI
      (fun j u h1 h2 hu => hstep j u (by omega) (by omega) hu)
    refine ⟨a :: out, s', by simp [forCollect, ht, hs'], ?_⟩
    have : i + (n + 1) = i + 1 + n := by omega
    rw [this]
    exact hI'

theorem mapIdxOpt_total {α β : Type} (f : ℕ → α → Option β) (l : List α) :
    ∀ (i : ℕ), (∀ (j : ℕ) (a : α), l[j]? = some a → ∃ b, f (i + j) a = some b) →
      ∃ out, mapIdxOpt f l i = some out := by
  induction l with
  | nil => intro i _; exact ⟨[], rfl⟩
  | cons a l ih =>
    intro i h
    obtain ⟨b, hb⟩ := h 0 a (by simp)
    obtain ⟨out, hout⟩ := ih (i + 1) (fun j x hx => by
      have := h (j + 1) x (by simpa using hx)
      have e : i + (j + 1) = i + 1 + j := by omega
      rw [e] at this
      exact this)
    simp only [add_zero] at hb
    exact ⟨b :: out, by simp [mapIdxOpt, hb, hout]⟩

theorem pickServer_total (rand : ℕ → ℕ) (numServers : ℕ) (group : List Int) (fuel : ℕ) :
    ∀ (n : ℕ), numServers ≠ 0 →
      (∃ j, j < fuel ∧ UInt rand (n + j) % (numServers : Int) ∉ group) →
      ∃ r, pickServer rand numServers group fuel n = some r := by
  induction fuel with
  | zero => intro n _ h; obtain ⟨j, hj, -⟩ := h; omega
  | succ fuel ih =>
    intro n h0 h
    simp only [pickServer, if_neg h0]
    by_cases hm : IsMember (UInt rand n % (numServers : Int)) group = true
    · simp only [hm, Bool.not_true, Bool.false_eq_true, if_false]
      obtain ⟨j, hj, hfree⟩ := h
      cases j with
      | zero =>
        simp only [add_zero] at hfree
        exact absurd ((IsMember_iff _ _).mp hm) hfree
      | succ j =>
        refine ih (n + 1) h0 ⟨j, by omega, ?_⟩
        have e : n + 1 + j = n + (j + 1) := by omega
        rw [e]
        exact hfree
    · simp only [hm, Bool.not_false, if_true]
      exact ⟨_, rfl⟩

theorem free_server (group : List Int) (s numServers : ℕ)
    (h4 : ∀ x ∈ group.drop s, x = -1) (hs : s < numServers) :
    ∃ x : ℕ, x < numServers ∧ (x : Int) ∉ group := by
  by_contra hcon
  push_neg at hcon
  have hsub : (List.range numServers).map (fun x : ℕ => (x : Int)) ⊆ group.take s := by
    intro y hy
    obtain ⟨x, hx, rfl⟩ := List.mem_map.mp hy
    have hin := hcon x (List.mem_range.mp hx)
    rw [← List.take_append_drop s group, List.mem_append] at hin
    rcases hin with hin | hin
    · exact hin
    · have := h4 _ hin
      omega
  have hnd : ((List.range numServers).map (fun x : ℕ => (x : Int))).Nodup :=
    (List.nodup_range numServers).map (fun a b hab => by exact_mod_cast hab)
  have hle := (List.subperm_of_subset hnd hsub).length_le
  simp only [List.length_map, List.length_range, List.length_take] at hle
  omega

theorem GenRandomGroup_total (rand : ℕ → ℕ) (fuel numServers numGroups perGroup n : ℕ)
    (hcover : drawsCover rand fuel numServers) (hp : perGroup ≤ numServers) :
    ∃ r, GenRandomGroup rand fuel numServers numGroups perGroup n = some r := by
  unfold GenRandomGroup
  obtain ⟨s', hs', -⟩ := forLoop_inv
    (fun s (st : List Int × ℕ) =>
      (pickServer rand numServers st.1 fuel st.2).map fun r => (st.1.set s r.1, r.2))
    (groupInv numServers perGroup) perGroup 0 (List.replicate perGroup (-1 : Int), n)
    (by
      refine ⟨by simp, by simp, by simp, ?_⟩
      intro x hx
      simp only [List.drop_zero] at hx
      exact (List.mem_replicate.mp hx).2)
    (by
      intro j t _ hj hI
      simp only [zero_add] at hj
      obtain ⟨x, hx1, hx2⟩ := free_server t.1 j numServers hI.2.2.2 (by omega)
      obtain ⟨d, hd1, hd2⟩ := hcover t.2 x hx1
      obtain ⟨r, hr⟩ := pickServer_total rand numServers t.1 fuel t.2 (by omega)
        ⟨d, hd1, by rw [hd2]; exact hx2⟩
      have hb : (pickServer rand numServers t.1 fuel t.2).map
          (fun r => (t.1.set j r.1, r.2)) = some (t.1.set j r.1, r.2) := by rw [hr]; rfl
      exact ⟨_, hb, GenRandomGroup_step rand fuel numServers perGroup j t _ hI hb⟩)
  exact ⟨s', hs'⟩

theorem baseGroups_total (rand : ℕ → ℕ) (fuel numServers numGroups perGroup : ℕ)
    (hcover : drawsCover rand fuel numServers) (hp1 : 1 ≤ perGroup)
    (hp2 : perGroup ≤ numServers) :
    ∃ r, forCollect (baseGroup rand fuel numServers numGroups perGroup) numGroups 0 0
      = some r := by
  obtain ⟨out, s', h, -⟩ := forCollect_total (baseGroup rand fuel numServers numGroups perGroup)
    (fun _ _ => True) numGroups 0 0 trivial (by
      intro j t _ _ _
      obtain ⟨r, hr⟩ := GenRandomGroup_total rand fuel numServers numGroups perGroup t hcover hp2
      obtain ⟨group, m⟩ := r
      have hne : ¬ perGroup = 0 := by omega
      have hb : baseGroup rand fuel numServers numGroups perGroup j t
          = some ((group.insertionSort (· ≤ ·)).drop (j % perGroup)
            ++ (group.insertionSort (· ≤ ·)).take (j % perGroup), m) := by
        simp only [baseGroup, hr, if_neg hne]
      exact ⟨_, m, hb, trivial⟩)
  exact ⟨_, h⟩

theorem fresh_draw (rand : ℕ → ℕ) (fuel : ℕ) (hd : drawsDistinct rand fuel) (n : ℕ)
    (used : List Int) (hlen : used.length < fuel) :
    ∃ j, j < fuel ∧ UInt rand (n + j) ∉ used := by
  by_contra hcon
  push_neg at hcon
  have hsub : (List.range fuel).map (fun j => UInt rand (n + j)) ⊆ used := by
    intro y hy
    obtain ⟨j, hj, rfl⟩ := List.mem_map.mp hy
    exact hcon j (List.mem_range.mp hj)
  have hnd : ((List.range fuel).map (fun j => UInt rand (n + j))).Nodup := by
    refine List.Nodup.map_on ?_ (List.nodup_range fuel)
    intro x hx y hy hxy
    have hx' := List.mem_range.mp hx
    have hy' := List.mem_range.mp hy
    rcases Nat.lt_trichotomy x y with h | h | h
    · exact absurd hxy (hd n x y h hy')
    · exact h
    · exact absurd hxy.symm (hd n y x h hx')
  have hle := (List.subperm_of_subset hnd hsub).length_le
  simp only [List.length_map, List.length_range] at hle
  omega

theorem pickUid_total (rand : ℕ → ℕ) (usedUids : List Int) (fuel : ℕ) :
    ∀ (n : ℕ), (∃ j, j < fuel ∧ UInt rand (n + j) ∉ usedUids) →
      ∃ r, pickUid rand usedUids fuel n = some r := by
  induction fuel with
  | zero => intro n h; obtain ⟨j, hj, -⟩ := h; omega
  | succ fuel ih =>
    intro n h
    simp only [pickUid]
    by_cases hm : IsMember (UInt rand n) usedUids = true
    · rw [if_pos hm]
      obtain ⟨j, hj, hfree⟩ := h
      cases j with
      | zero =>
        simp only [add_zero] at hfree
        exact absurd ((IsMember_iff _ _).mp hm) hfree
      | succ j =>
        refine ih (n + 1) ⟨j, by omega, ?_⟩
        have e : n + 1 + j = n + (j + 1) := by omega
        rw [e]
        exact hfree
    · rw [if_neg hm]
      exact ⟨_, rfl⟩

theorem memberKeysOf_total {P : Type} (publicKeys : List P) (members : List Int)
    (h : ∀ x ∈ members, 0 ≤ x ∧ x < (publicKeys.length : Int)) :
    ∃ keys, memberKeysOf publicKeys members = some keys := by
  induction members with
  | nil => exact ⟨[], rfl⟩
  | cons member members ih =>
    obtain ⟨h0, h1⟩ := h member (List.mem_cons_self _ _)
    obtain ⟨keys, hk⟩ := ih (fun x hx => h x (List.mem_cons_of_mem _ hx))
    have hlt : member.toNat < publicKeys.length := by omega
    simp only [memberKeysOf, if_neg (not_lt.mpr h0), List.getElem?_eq_getElem hlt, hk]
    exact ⟨_, rfl⟩

theorem newGroup_total {P : Type} (rand : ℕ → ℕ) (fuel : ℕ) (baseGroups : List (List Int))
    (publicKeys : List P) (level gid : ℕ) (st : ℕ × List Int) (members : List Int)
    (hd : drawsDistinct rand fuel) (hb : baseGroups[gid]? = some members)
    (hm : ∀ x ∈ members, 0 ≤ x ∧ x < (publicKeys.length : Int)) (hlen : st.2.length < fuel) :
    ∃ r, newGroup rand fuel baseGroups publicKeys level gid st = some r := by
  obtain ⟨keys, hk⟩ := memberKeysOf_total publicKeys members hm
  obtain ⟨r, hr⟩ := pickUid_total rand st.2 fuel st.1 (fresh_draw rand fuel hd st.1 st.2 hlen)
  obtain ⟨uid, n', used'⟩ := r
  simp only [newGroup, hb, hk, hr]
  exact ⟨_, rfl⟩

theorem levelGroups_total {P : Type} (rand : ℕ → ℕ) (fuel : ℕ) (baseGroups : List (List Int))
    (publicKeys : List P) (level numGroups : ℕ) (st : ℕ × List Int)
    (hd : drawsDistinct rand fuel) (hlen : baseGroups.length = numGroups)
    (hm : ∀ (gid : ℕ) (members : List Int), baseGroups[gid]? = some members →
      ∀ x ∈ members, 0 ≤ x ∧ x < (publicKeys.length : Int))
    (hfuel : st.2.length + numGroups ≤ fuel) :
    ∃ r, forCollect (newGroup rand fuel baseGroups publicKeys level) numGroups 0 st
      = some r := by
  obtain ⟨out, s', h, -⟩ := forCollect_total (newGroup rand fuel baseGroups publicKeys level)
    (fun j (s : ℕ × List Int) => s.2.length = st.2.length + j) numGroups 0 st rfl (by
      intro j t _ hj hI
      simp only [zero_add] at hj
      have hj' : j < baseGroups.length := by omega
      have hb : baseGroups[j]? = some baseGroups[j] := List.getElem?_eq_getElem hj'
      obtain ⟨r, hr⟩ := newGroup_total rand fuel baseGroups publicKeys level j t _ hd hb
        (hm j _ hb) (by omega)
      obtain ⟨g, t'⟩ := r
      obtain ⟨-, -, -, -, -, n6⟩ := newGroup_spec rand fuel baseGroups publicKeys level j t g t' hr
      refine ⟨g, t', hr, ?_⟩
      show t'.2.length = st.2.length + (j + 1)
      rw [n6, List.length_append, hI]
      simp only [List.length_singleton]
      omega)
  exact ⟨_, h⟩

theorem levels_total {P : Type} (rand : ℕ → ℕ) (fuel : ℕ) (baseGroups : List (List Int))
    (publicKeys : List P) (numLevels numGroups n : ℕ)
    (hd : drawsDistinct rand fuel) (hlen : baseGroups.length = numGroups)
    (hm : ∀ (gid : ℕ) (members : List Int), baseGroups[gid]? = some members →
      ∀ x ∈ members, 0 ≤ x ∧ x < (publicKeys.length : Int))
    (hfuel : numLevels * numGroups ≤ fuel) :
    ∃ r, forCollect (fun level st =>
        forCollect (newGroup rand fuel baseGroups publicKeys level) numGroups 0 st)
        numLevels 0 (n, []) = some r := by
  obtain ⟨out, s', h, -⟩ := forCollect_total (fun level st =>
      forCollect (newGroup rand fuel baseGroups publicKeys level) numGroups 0 st)
    (fun level (s : ℕ × List Int) => s.2.length = level * numGroups) numLevels 0 (n, [])
    (by simp) (by
      intro level t _ hl hI
      simp only [zero_add] at hl
      have hle : (level + 1) * numGroups ≤ numLevels * numGroups :=
        Nat.mul_le_mul_right _ (by omega)
      have hsucc : (level + 1) * numGroups = level * numGroups + numGroups := by ring
      obtain ⟨r, hr⟩ := levelGroups_total rand fuel baseGroups publicKeys level numGroups t hd
        hlen hm (by omega)
      obtain ⟨groups, t'⟩ := r
      obtain ⟨l1, -, l3, -⟩ := levelGroups_spec rand fuel baseGroups publicKeys level numGroups
        t groups t' hr
      refine ⟨groups, t', hr, ?_⟩
      show t'.2.length = (level + 1) * numGroups
      rw [l3, List.length_append, List.length_map, l1, hI, hsucc])
  exact ⟨_, h⟩

theorem butterflyAdj_some (k numLevels level gid : ℕ) (hk1 : 1 ≤ k) (hk2 : k < 63)
    (hg : gid < 2 ^ k) : ∃ a, butterflyAdj k (2 ^ k) numLevels level gid = some a := by
  by_cases hl : level + 1 < numLevels
  · exact ⟨_, (butterflyAdj_eq k numLevels level gid hk1 hk2 hl hg).2⟩
  · have hk0 : ¬ k = 0 := by omega
    have hlev : ¬ ((level : ℕ) : Int) < ((numLevels : ℕ) : Int) - 1 := by omega
    unfold butterflyAdj
    rw [if_neg hk0]
    simp only [if_neg hlev]
    exact ⟨_, rfl⟩

theorem setAdjLists_total {P : Type} (adj : ℕ → ℕ → Option (List (Option (ℕ × ℕ))))
    (groupss : List (List (Group P)))
    (h : ∀ (level gid : ℕ) (g0 : Group P), groupAt groupss level gid = some g0 →
      ∃ a, adj level gid = some a) :
    ∃ net, setAdjLists adj groupss = some net := by
  unfold setAdjLists
  apply mapIdxOpt_total
  intro level groups hgroups
  simp only [zero_add]
  apply mapIdxOpt_total
  intro gid g0 hg0
  simp only [zero_add]
  obtain ⟨a, ha⟩ := h level gid g0 (by simp [groupAt, hgroups, hg0])
  exact ⟨_, by rw [ha]; rfl⟩

/-- On a stream that lets the retry loops end, and for parameters that do not make
the code panic, `GenerateGroups` returns a network. -/
theorem GenerateGroups_returns {P : Type} (Log2 : ℕ → ℕ) (rand : ℕ → ℕ) (fuel : ℕ)
    (netType : Int) (numServers numGroups perGroup numLevels : ℕ) (publicKeys : List P)
    (hcover : drawsCover rand fuel numServers) (hd : drawsDistinct rand fuel)
    (hfuel : numLevels * numGroups ≤ fuel) (hp1 : 1 ≤ perGroup) (hp2 : perGroup ≤ numServers)
    (hkeys : numServers ≤ publicKeys.length)
    (hnet : netType = BUTTERFLY →
      ∃ k, 1 ≤ k ∧ k < 63 ∧ numGroups = 2 ^ k ∧ Log2 numGroups = k) :
    ∃ net, GenerateGroups Log2 rand fuel netType numServers numGroups perGroup numLevels
      publicKeys = some net := by
  obtain ⟨r, hb⟩ := baseGroups_total rand fuel numServers numGroups perGroup hcover hp1 hp2
  obtain ⟨baseGroups, n⟩ := r
  obtain ⟨b1, b2⟩ := baseGroups_spec rand fuel numServers numGroups perGroup baseGroups n hb
  have hm : ∀ (gid : ℕ) (members : List Int), baseGroups[gid]? = some members →
      ∀ x ∈ members, 0 ≤ x ∧ x < (publicKeys.length : Int) := by
    intro gid members hg x hx
    obtain ⟨base, -, -, c3, c4, -⟩ := b2 gid members hg
    rw [c4, List.mem_rotate] at hx
    obtain ⟨d1, d2⟩ := c3 x hx
    have : (numServers : Int) ≤ (publicKeys.length : Int) := by exact_mod_cast hkeys
    exact ⟨d1, by omega⟩
  obtain ⟨r', hg⟩ := levels_total rand fuel baseGroups publicKeys numLevels numGroups n hd b1
    hm hfuel
  obtain ⟨groupss, st'⟩ := r'
  obtain ⟨-, l2, -⟩ := levels_spec rand fuel baseGroups publicKeys numLevels numGroups n
    groupss st' hg
  simp only [GenerateGroups, hb, hg]
  by_cases hB : netType = BUTTERFLY
  · rw [if_pos hB]
    obtain ⟨k, hk1, hk2, hk3, hk4⟩ := hnet hB
    rw [hk4, hk3]
    apply setAdjLists_total
    intro level gid g0 hg0
    obtain ⟨groups, e1, e2⟩ := groupAt_some groupss level gid g0 hg0
    have hlen := (l2 level groups e1).1
    have hgid : gid < groups.length := (List.getElem?_eq_some_iff.mp e2).1
    exact butterflyAdj_some k numLevels level gid hk1 hk2 (by omega)
  · rw [if_neg hB]
    by_cases hS : netType = SQUARE
    · rw [if_pos hS]
      exact setAdjLists_total _ groupss (fun _ _ _ _ => ⟨_, rfl⟩)
    · rw [if_neg hS]
      exact ⟨_, rfl⟩

theorem UInt_toyStream (n : ℕ) : UInt toyStream n = ((n % 128 : ℕ) : Int) := by
  have hr : List.range 8 = [0, 1, 2, 3, 4, 5, 6, 7] := by decide
  have h0 : (8 * n + 0) % 8 = 0 := by omega
  have h1 : (8 * n + 0) / 8 % 128 % 256 = n % 128 := by omega
  have h2 : n % 128 < 128 := Nat.mod_lt _ (by omega)
  simp only [UInt, Uvarint, hr, List.map_cons, toyStream, h0, if_true, h1, uvarintLoop]
  simp [h2]
  omega

theorem toyStream_cover : drawsCover toyStream 10 3 := by
  intro n x hx
  have key : ∀ m, m < 128 → ∀ x, x < 3 → ∃ j, j < 10 ∧ (m + j) % 128 % 3 = x := by decide
  obtain ⟨j, hj, he⟩ := key (n % 128) (Nat.mod_lt _ (by omega)) x hx
  refine ⟨j, hj, ?_⟩
  rw [UInt_toyStream]
  have e : (n + j) % 128 = (n % 128 + j) % 128 := by omega
  have : (n + j) % 128 % 3 = x := by rw [e]; exact he
  exact_mod_cast this

theorem toyStream_distinct : drawsDistinct toyStream 10 := by
  intro n j1 j2 h1 h2
  rw [UInt_toyStream, UInt_toyStream]
  intro h
  have : (n + j1) % 128 = (n + j2) % 128 := by exact_mod_cast h
  omega

/-- C14: for `netType = BUTTERFLY` with `numGroups = 2^k` (`k ≥ 1`; `2^k` is a Go `int`,
so `k < 63`, and `Log2(2^k) = k`), every level `ℓ < numLevels − 1` and every
`gid < numGroups`, `GenerateGroups` sets the `AdjList` of group `(ℓ, gid)` to exactly two
groups of level `ℓ + 1`: the one with `Gid = gid` and the one with
`Gid = gid XOR (1 << (ℓ mod k))`, both indices lying in `[0, numGroups)`.  First part:
`GenerateGroups` returns when the stream lets the retry loops end and
`1 ≤ perGroup ≤ numServers ≤ len(publicKeys)`; second part: what every returned
network satisfies. -/
theorem GenerateGroups_butterfly_AdjList {P : Type} (Log2 : ℕ → ℕ) (rand : ℕ → ℕ) (fuel : ℕ)
    (numServers k perGroup numLevels : ℕ) (publicKeys : List P)
    (hk1 : 1 ≤ k) (hk2 : k < 63) (hLog : Log2 (2 ^ k) = k) :
    (drawsCover rand fuel numServers → drawsDistinct rand fuel → numLevels * 2 ^ k ≤ fuel →
      1 ≤ perGroup → perGroup ≤ numServers → numServers ≤ publicKeys.length →
      ∃ net, GenerateGroups Log2 rand fuel BUTTERFLY numServers (2 ^ k) perGroup numLevels
        publicKeys = some net) ∧
    ∀ net, GenerateGroups Log2 rand fuel BUTTERFLY numServers (2 ^ k) perGroup numLevels
        publicKeys = some net →
      ∀ (level gid : ℕ), level + 1 < numLevels → gid < 2 ^ k →
        gid ^^^ (1 <<< (level % k)) < 2 ^ k ∧
        ∃ g a b, groupAt net level gid = some g ∧
          g.AdjList = [some (level + 1, gid), some (level + 1, gid ^^^ (1 <<< (level % k)))] ∧
          groupAt net (level + 1) gid = some a ∧ a.Level = ((level + 1 : ℕ) : Int) ∧
          a.Gid = (gid : Int) ∧
          groupAt net (level + 1) (gid ^^^ (1 <<< (level % k))) = some b ∧
          b.Level = ((level + 1 : ℕ) : Int) ∧
          b.Gid = ((gid ^^^ (1 <<< (level % k)) : ℕ) : Int) := by
  refine ⟨fun hcover hd hfuel hp1 hp2 hkeys =>
    GenerateGroups_returns Log2 rand fuel BUTTERFLY numServers (2 ^ k) perGroup numLevels
      publicKeys hcover hd hfuel hp1 hp2 hkeys (fun _ => ⟨k, hk1, hk2, rfl, hLog⟩), ?_⟩
  intro net h level gid hl hg
  obtain ⟨baseGroups, groupss, -, ⟨B1, B2⟩, -, D⟩ := GenerateGroups_inv Log2 rand fuel BUTTERFLY
    numServers (2 ^ k) perGroup numLevels publicKeys net h
  rw [if_pos rfl, hLog] at D
  obtain ⟨hx, hadj⟩ := butterflyAdj_eq k numLevels level gid hk1 hk2 hl hg
  have hlen : ∀ (level : ℕ) (groups : List (Group P)), groupss[level]? = some groups →
      groups.length = 2 ^ k := fun level groups hgs => (B2 level groups hgs).1
  have hfacts : ∀ (lv gd : ℕ) (g0 : Group P), groupAt groupss lv gd = some g0 →
      g0.Level = (lv : Int) ∧ g0.Gid = (gd : Int) := by
    intro lv gd g0 hg0
    obtain ⟨groups, e1, e2⟩ := groupAt_some groupss lv gd g0 hg0
    obtain ⟨-, f2, f3, -⟩ := (B2 lv groups e1).2 gd g0 e2
    exact ⟨f2, f3⟩
  have hnext : ∀ (gd : ℕ), gd < 2 ^ k → ∃ a, groupAt net (level + 1) gd = some a ∧
      a.Level = ((level + 1 : ℕ) : Int) ∧ a.Gid = (gd : Int) := by
    intro gd hgd
    obtain ⟨g0, hg0⟩ := groupAt_exists groupss numLevels (2 ^ k) B1 hlen (level + 1) gd hl hgd
    obtain ⟨a, -, ha2⟩ := (setAdjLists_spec _ groupss net D (level + 1) gd).1 g0 hg0
    obtain ⟨f1, f2⟩ := hfacts (level + 1) gd g0 hg0
    exact ⟨_, ha2, f1, f2⟩
  obtain ⟨g0, hg0⟩ := groupAt_exists groupss numLevels (2 ^ k) B1 hlen level gid (by omega) hg
  obtain ⟨adj, hadj1, hadj2⟩ := (setAdjLists_spec _ groupss net D level gid).1 g0 hg0
  rw [hadj] at hadj1
  simp only [Option.some.injEq] at hadj1
  subst hadj1
  obtain ⟨a, ha1, ha2, ha3⟩ := hnext gid hg
  obtain ⟨b, hb1, hb2, hb3⟩ := hnext (gid ^^^ (1 <<< (level % k))) hx
  exact ⟨hx, _, a, b, hadj2, rfl, ha1, ha2, ha3, hb1, hb2, hb3⟩

theorem GenerateGroups_butterfly_AdjList_witness :
    (1 ≤ 1 ∧ 1 < 63 ∧ (fun _ : ℕ => 1) (2 ^ 1) = 1) ∧
    (drawsCover toyStream 10 3 ∧ drawsDistinct toyStream 10 ∧ 2 * 2 ^ 1 ≤ 10 ∧ 1 ≤ 2 ∧ 2 ≤ 3 ∧
      3 ≤ ([10, 11, 12] : List ℕ).length) ∧
    (∃ net, GenerateGroups (fun _ => 1) toyStream 10 BUTTERFLY 3 (2 ^ 1) 2 2
      ([10, 11, 12] : List ℕ) = some net) ∧
    (GenerateGroups (fun _ => 1) toyStream 10 BUTTERFLY 3 (2 ^ 1) 2 2 ([10, 11, 12] : List ℕ)
      = some toyButterfly ∧ 0 + 1 < 2 ∧ 1 < 2 ^ 1) ∧
    1 ^^^ (1 <<< (0 % 1)) < 2 ^ 1 ∧
    ∃ g a b, groupAt toyButterfly 0 1 = some g ∧
      g.AdjList = [some (0 + 1, 1), some (0 + 1, 1 ^^^ (1 <<< (0 % 1)))] ∧
      groupAt toyButterfly (0 + 1) 1 = some a ∧ a.Level = ((0 + 1 : ℕ) : Int) ∧
      a.Gid = ((1 : ℕ) : Int) ∧
      groupAt toyButterfly (0 + 1) (1 ^^^ (1 <<< (0 % 1))) = some b ∧
      b.Level = ((0 + 1 : ℕ) : Int) ∧
      b.Gid = ((1 ^^^ (1 <<< (0 % 1)) : ℕ) : Int) :=
  ⟨⟨by decide, by decide, rfl⟩,
    ⟨toyStream_cover, toyStream_distinct, by decide, by decide, by decide, by decide⟩,
    (GenerateGroups_butterfly_AdjList (fun _ => 1) toyStream 10 3 1 2 2 ([10, 11, 12] : List ℕ)
      (by decide) (by decide) rfl).1 toyStream_cover toyStream_distinct (by decide) (by decide)
      (by decide) (by decide),
    ⟨by decide, by decide, by decide⟩,
    (GenerateGroups_butterfly_AdjList (fun _ => 1) toyStream 10 3 1 2 2 ([10, 11, 12] : List ℕ)
      (by decide) (by decide) rfl).2 toyButterfly (by decide) 0 1 (by decide) (by decide)⟩

/-- C15 (failing input): for `netType = BUTTERFLY`, two levels of two groups, the groups
of the last level get the adjacency list `[nil, nil]` of length 2, not an empty one. -/
theorem GenerateGroups_butterfly_last_level :
    GenerateGroups (fun _ => 1) toyStream 10 BUTTERFLY 3 2 2 2 ([10, 11, 12] : List ℕ)
      = some toyButterfly ∧
    (groupAt toyButterfly 1 0).map Group.AdjList = some [none, none] ∧
    (groupAt toyButterfly 1 1).map Group.AdjList = some [none, none] ∧
    (groupAt toyButterfly 1 0).map (fun g => g.AdjList.length) = some 2 := by
  decide

/-- C16: for `1 ≤ perGroup ≤ numServers`, every group `(level, gid)` returned by
`GenerateGroups` has `Members` equal to a strictly increasing list of `perGroup` server
ids in `[0, numServers)` rotated left by `gid mod perGroup`; hence it has exactly
`perGroup` members without duplicates, and the list is the same at every level for a
given `gid`.  First part: `GenerateGroups` returns for `1 ≤ perGroup ≤ numServers` when
the stream lets the retry loops end, there is a key for every server and a butterfly has
`2^k` groups; second part: what every returned group satisfies (a returned group forces
`1 ≤ perGroup`). -/
theorem GenerateGroups_Members {P : Type} (Log2 : ℕ → ℕ) (rand : ℕ → ℕ) (fuel : ℕ)
    (netType : Int) (numServers numGroups perGroup numLevels : ℕ) (publicKeys : List P) :
    (drawsCover rand fuel numServers → drawsDistinct rand fuel →
      numLevels * numGroups ≤ fuel → 1 ≤ perGroup → perGroup ≤ numServers →
      numServers ≤ publicKeys.length →
      (netType = BUTTERFLY → ∃ k, 1 ≤ k ∧ k < 63 ∧ numGroups = 2 ^ k ∧ Log2 numGroups = k) →
      ∃ net, GenerateGroups Log2 rand fuel netType numServers numGroups perGroup numLevels
        publicKeys = some net) ∧
    ∀ net, GenerateGroups Log2 rand fuel netType numServers numGroups perGroup numLevels
        publicKeys = some net →
      ∀ (level gid : ℕ) (g : Group P), groupAt net level gid = some g →
        (∃ base : List Int, base.Sorted (· < ·) ∧ base.length = perGroup ∧
          (∀ x ∈ base, 0 ≤ x ∧ x < numServers) ∧ g.Members = base.rotate (gid % perGroup)) ∧
        1 ≤ perGroup ∧ g.Members.length = perGroup ∧ g.Members.Nodup ∧
        ∀ (level' : ℕ) (g' : Group P), groupAt net level' gid = some g' →
          g'.Members = g.Members := by
  refine ⟨GenerateGroups_returns Log2 rand fuel netType numServers numGroups perGroup
    numLevels publicKeys, ?_⟩
  intro net h level gid g hg
  obtain ⟨baseGroups, groupss, ⟨-, A2⟩, ⟨-, B2⟩, -, D⟩ := GenerateGroups_inv Log2 rand fuel
    netType numServers numGroups perGroup numLevels publicKeys net h
  have hmem : ∀ (lv : ℕ) (x : Group P), groupAt net lv gid = some x →
      baseGroups[gid]? = some x.Members := by
    intro lv x hx
    obtain ⟨g0, h1, h2⟩ := net_of_groupss netType _ _ groupss net D lv gid x hx
    obtain ⟨groups, e1, e2⟩ := groupAt_some groupss lv gid g0 h1
    obtain ⟨f1, -⟩ := (B2 lv groups e1).2 gid g0 e2
    rw [h2]
    exact f1
  have hb := hmem level g hg
  obtain ⟨base, b1, b2, b3, b4, b5⟩ := A2 gid g.Members hb
  refine ⟨⟨base, b1, b2, b3, b4⟩, b5, ?_, ?_, ?_⟩
  · rw [b4, List.length_rotate, b2]
  · rw [b4, List.nodup_rotate]
    exact b1.nodup
  · intro level' g' hg'
    have := hmem level' g' hg'
    rw [hb] at this
    exact (Option.some.inj this).symm

theorem GenerateGroups_Members_witness :
    (drawsCover toyStream 10 3 ∧ drawsDistinct toyStream 10 ∧ 2 * 2 ≤ 10 ∧ 1 ≤ 2 ∧ 2 ≤ 3 ∧
      3 ≤ ([10, 11, 12] : List ℕ).length ∧
      (SQUARE = BUTTERFLY → ∃ k, 1 ≤ k ∧ k < 63 ∧ 2 = 2 ^ k ∧ (fun _ : ℕ => 1) 2 = k)) ∧
    (∃ net, GenerateGroups (fun _ => 1) toyStream 10 SQUARE 3 2 2 2 ([10, 11, 12] : List ℕ)
      = some net) ∧
    (GenerateGroups (fun _ => 1) toyStream 10 BUTTERFLY 3 2 2 2 ([10, 11, 12] : List ℕ)
      = some toyButterfly ∧ groupAt toyButterfly 0 1 = some toyGroup01) ∧
    (∃ base : List Int, base.Sorted (· < ·) ∧ base.length = 2 ∧
      (∀ x ∈ base, 0 ≤ x ∧ x < ((3 : ℕ) : Int)) ∧ toyGroup01.Members = base.rotate (1 % 2)) ∧
    1 ≤ 2 ∧ toyGroup01.Members.length = 2 ∧ toyGroup01.Members.Nodup ∧
    ∀ (level' : ℕ) (g' : Group ℕ), groupAt toyButterfly level' 1 = some g' →
      g'.Members = toyGroup01.Members :=
  ⟨⟨toyStream_cover, toyStream_distinct, by decide, by decide, by decide, by decide,
      fun h => absurd h (by decide)⟩,
    (GenerateGroups_Members (fun _ => 1) toyStream 10 SQUARE 3 2 2 2
      ([10, 11, 12] : List ℕ)).1 toyStream_cover toyStream_distinct (by decide) (by decide)
      (by decide) (by decide) (fun h => absurd h (by decide)),
    ⟨by decide, by decide⟩,
    (GenerateGroups_Members (fun _ => 1) toyStream 10 BUTTERFLY 3 2 2 2
      ([10, 11, 12] : List ℕ)).2 toyButterfly (by decide) 0 1 toyGroup01 (by decide)⟩

/-- C17: for every output of `GenerateGroups`, any two groups at different
`(level, gid)` positions have different `Uid` values.  First part: an output exists when
the stream lets the retry loops end and the parameters do not make the code panic;
second part: what every output satisfies. -/
theorem GenerateGroups_Uid_distinct {P : Type} (Log2 : ℕ → ℕ) (rand : ℕ → ℕ) (fuel : ℕ)
    (netType : Int) (numServers numGroups perGroup numLevels : ℕ) (publicKeys : List P) :
    (drawsCover rand fuel numServers → drawsDistinct rand fuel →
      numLevels * numGroups ≤ fuel → 1 ≤ perGroup → perGroup ≤ numServers →
      numServers ≤ publicKeys.length →
      (netType = BUTTERFLY → ∃ k, 1 ≤ k ∧ k < 63 ∧ numGroups = 2 ^ k ∧ Log2 numGroups = k) →
      ∃ net, GenerateGroups Log2 rand fuel netType numServers numGroups perGroup numLevels
        publicKeys = some net) ∧
    ∀ net, GenerateGroups Log2 rand fuel netType numServers numGroups perGroup numLevels
        publicKeys = some net →
      ∀ (l1 g1 l2 g2 : ℕ) (a b : Group P), groupAt net l1 g1 = some a →
        groupAt net l2 g2 = some b → (l1 ≠ l2 ∨ g1 ≠ g2) → a.Uid ≠ b.Uid := by
  refine ⟨GenerateGroups_returns Log2 rand fuel netType numServers numGroups perGroup
    numLevels publicKeys, ?_⟩
  intro net h l1 g1 l2 g2 a b ha hb hne
  obtain ⟨baseGroups, groupss, -, -, C, D⟩ := GenerateGroups_inv Log2 rand fuel
    netType numServers numGroups perGroup numLevels publicKeys net h
  obtain ⟨a0, ha1, ha2⟩ := net_of_groupss netType _ _ groupss net D l1 g1 a ha
  obtain ⟨b0, hb1, hb2⟩ := net_of_groupss netType _ _ groupss net D l2 g2 b hb
  have := flatten_nodup_pos Group.Uid groupss C l1 g1 l2 g2 a0 b0 ha1 hb1 hne
  rw [ha2, hb2]
  exact this

theorem GenerateGroups_Uid_distinct_witness :
    (drawsCover toyStream 10 3 ∧ drawsDistinct toyStream 10 ∧ 2 * 2 ≤ 10 ∧ 1 ≤ 2 ∧ 2 ≤ 3 ∧
      3 ≤ ([10, 11, 12] : List ℕ).length ∧
      (BUTTERFLY = BUTTERFLY → ∃ k, 1 ≤ k ∧ k < 63 ∧ 2 = 2 ^ k ∧ (fun _ : ℕ => 1) 2 = k)) ∧
    (∃ net, GenerateGroups (fun _ => 1) toyStream 10 BUTTERFLY 3 2 2 2
      ([10, 11, 12] : List ℕ) = some net) ∧
    (GenerateGroups (fun _ => 1) toyStream 10 BUTTERFLY 3 2 2 2 ([10, 11, 12] : List ℕ)
      = some toyButterfly ∧ groupAt toyButterfly 0 1 = some toyGroup01 ∧
      groupAt toyButterfly 1 1 = some toyGroup11 ∧ ((0 : ℕ) ≠ 1 ∨ (1 : ℕ) ≠ 1)) ∧
    toyGroup01.Uid ≠ toyGroup11.Uid :=
  ⟨⟨toyStream_cover, toyStream_distinct, by decide, by decide, by decide, by decide,
      fun _ => ⟨1, by decide, by decide, by decide, rfl⟩⟩,
    (GenerateGroups_Uid_distinct (fun _ => 1) toyStream 10 BUTTERFLY 3 2 2 2
      ([10, 11, 12] : List ℕ)).1 toyStream_cover toyStream_distinct (by decide) (by decide)
      (by decide) (by decide) (fun _ => ⟨1, by decide, by decide, by decide, rfl⟩),
    ⟨by decide, by decide, by decide, by decide⟩,
    (GenerateGroups_Uid_distinct (fun _ => 1) toyStream 10 BUTTERFLY 3 2 2 2
      ([10, 11, 12] : List ℕ)).2 toyButterfly (by decide) 0 1 1 1 toyGroup01 toyGroup11
      (by decide) (by decide) (by decide)⟩

end GroupGenTotal

section DBProofs

/-- C19 (failing input): trap mode, `NumGroups = 2`, `args.Group = [0, 1]` (threshold 2),
the entry groups holding the plaintexts `[1]` and `[2]`.  The round makes four calls of
`DB.Write`, two per entry group, not two in all; `DB.Read(round, 2)` is answered after
the first two of them with the plaintext `[1]` twice and `[2]` missing, and after all
four the entry holds every plaintext twice.  In verifiable mode `finalize` writes for
the last member of `args.Group` only. -/
theorem roundWrites_trap_mode :
    roundWrites 2 0 [0, 1] (fun gid => [[gid + 1]])
      = some [{ Round := 0, NumGroups := 2, Msgs := [[1]] },
              { Round := 0, NumGroups := 2, Msgs := [[1]] },
              { Round := 0, NumGroups := 2, Msgs := [[2]] },
              { Round := 0, NumGroups := 2, Msgs := [[2]] }] ∧
    DB.Read (([{ Round := 0, NumGroups := 2, Msgs := [[1]] },
               { Round := 0, NumGroups := 2, Msgs := [[1]] }] : List DBArgs).foldl
        DB.Write createEntry) { Round := 0, NumGroups := 2, Msgs := [] }
      = some [[1], [1]] ∧
    ((roundWrites 2 0 [0, 1] (fun gid => [[gid + 1]])).map fun ws =>
        DB.Read (ws.foldl DB.Write createEntry) { Round := 0, NumGroups := 2, Msgs := [] })
      = some (some [[1], [1], [2], [2]]) ∧
    finalize VER_MODE 2 0 [0, 1] 0 [[1]] = some [] ∧
    finalize VER_MODE 2 0 [0, 1] 1 [[1]] = some [{ Round := 0, NumGroups := 2, Msgs := [[1]] }] := by
  decide

end DBProofs

section DivideProofs

theorem forCollect_unit {α : Type} (body : ℕ → Unit → Option (α × Unit)) (f : ℕ → α) (n : ℕ) :
    ∀ (i : ℕ), (∀ j, i ≤ j → j < i + n → body j () = some (f j, ())) →
      forCollect body n i () = some ((List.range' i n).map f, ()) := by
  induction n with
  | zero => intro i _; rfl
  | succ n ih =>
    intro i h
    have h1 := h i (le_refl i) (by omega)
    have h2 := ih (i + 1) (fun j hj1 hj2 => h j (by omega) (by omega))
    simp [forCollect, h1, h2, List.range'_succ]

theorem flatten_slices {α : Type} (cs : List α) (s n : ℕ) :
    ((List.range' 0 n).map fun b => (cs.take ((b + 1) * s)).drop (b * s)).flatten
      = cs.take (n * s) := by
  induction n with
  | zero => simp
  | succ n ih =>
    rw [List.range'_concat, List.map_append, List.flatten_append, ih]
    simp only [zero_add, one_mul, List.map_cons, List.map_nil, List.flatten_cons,
      List.flatten_nil, List.append_nil]
    have hle : n * s ≤ (n + 1) * s := Nat.mul_le_mul_right _ (by omega)
    have : cs.take (n * s) = (cs.take ((n + 1) * s)).take (n * s) := by
      rw [List.take_take, min_eq_left hle]
    rw [this, List.take_append_drop]

/-- C21: for every batch `cs` and member with `n = len(AdjList)` neighbours (`n` taken
as 1 when `AdjList` is empty), `divide(cs)` returns `n` batches, batch `b` being the
consecutive slice `cs[b·s : (b+1)·s]` with `s = len(cs) div n`; when `n` divides
`len(cs)` the concatenation of the batches is `cs`. -/
theorem divide_batches {α : Type} (numAdj : ℕ) (cs : List α) :
    ∃ batches, divide numAdj cs = some batches ∧
      batches.length = (if numAdj = 0 then 1 else numAdj) ∧
      (∀ b, b < (if numAdj = 0 then 1 else numAdj) → batches[b]? = some
        ((cs.take ((b + 1) * (cs.length / (if numAdj = 0 then 1 else numAdj)))).drop
          (b * (cs.length / (if numAdj = 0 then 1 else numAdj))))) ∧
      ((if numAdj = 0 then 1 else numAdj) ∣ cs.length → batches.flatten = cs) := by
  generalize hn : (if numAdj = 0 then 1 else numAdj) = n
  have hpos : 0 < n := by
    rw [← hn]
    split <;> omega
  generalize hs : cs.length / n = s
  have hns : n * s ≤ cs.length := by
    rw [← hs]
    exact Nat.mul_div_le _ _
  have hbody := forCollect_unit
    (fun b (_ : Unit) => (sliceOf cs (b * s) ((b + 1) * s)).map fun batch => (batch, ()))
    (fun b => (cs.take ((b + 1) * s)).drop (b * s)) n 0 (by
      intro j _ hj
      have h1 : j * s ≤ (j + 1) * s := Nat.mul_le_mul_right _ (by omega)
      have h2 : (j + 1) * s ≤ n * s := Nat.mul_le_mul_right _ (by omega)
      have h3 : j * s ≤ (j + 1) * s ∧ (j + 1) * s ≤ cs.length := ⟨h1, by omega⟩
      simp only [sliceOf, if_pos h3, Option.map_some'])
  refine ⟨(List.range' 0 n).map fun b => (cs.take ((b + 1) * s)).drop (b * s), ?_, ?_, ?_, ?_⟩
  · simp only [divide, hn, hs, hbody, Option.map_some']
  · simp
  · intro b hb
    simp [List.getElem?_map, List.getElem?_range' _ _ hb]
  · intro hdvd
    rw [flatten_slices]
    have : n * s = cs.length := by
      rw [← hs]
      exact Nat.mul_div_cancel' hdvd
    rw [this, List.take_length]

theorem divide_batches_witness :
    (if 2 = 0 then 1 else 2) ∣ ([1, 2, 3, 4] : List ℕ).length ∧
    ∃ batches, divide 2 ([1, 2, 3, 4] : List ℕ) = some batches ∧
      batches.length = (if 2 = 0 then 1 else 2) ∧
      (∀ b, b < (if 2 = 0 then 1 else 2) → batches[b]? = some
        ((([1, 2, 3, 4] : List ℕ).take
          ((b + 1) * (([1, 2, 3, 4] : List ℕ).length / (if 2 = 0 then 1 else 2)))).drop
          (b * (([1, 2, 3, 4] : List ℕ).length / (if 2 = 0 then 1 else 2))))) ∧
      ((if 2 = 0 then 1 else 2) ∣ ([1, 2, 3, 4] : List ℕ).length → batches.flatten = [1, 2, 3, 4]) :=
  ⟨by decide, divide_batches 2 ([1, 2, 3, 4] : List ℕ)⟩

end DivideProofs

section TrapCheckProofs

theorem memberCommitment_iff (comm : List ℕ) (comms : List (List ℕ)) :
    memberCommitment comm comms = true ↔ comm ∈ comms := by
  induction comms with
  | nil => simp [memberCommitment]
  | cons c comms ih =>
    simp only [memberCommitment, List.mem_cons]
    by_cases h : comm = c
    · simp [h]
    · simp [h, ih]

theorem foldl_and_member (comms exp : List (List ℕ)) (b : Bool) :
    exp.foldl (fun ct comm => ct && memberCommitment comm comms) b = true ↔
      b = true ∧ ∀ c ∈ exp, c ∈ comms := by
  induction exp generalizing b with
  | nil => simp
  | cons e exp ih =>
    simp only [List.foldl_cons, ih, Bool.and_eq_true, memberCommitment_iff, List.mem_cons,
      forall_eq_or_imp]
    tauto

/-- C24 (as amended): in `finalize` (TRAP mode), `correctTraps` is true exactly when
there are as many recomputed commitments (one `Commit` per received trap) as stored
ones and every stored commitment is among the recomputed ones; when the stored
commitments are pairwise different, that is exactly when the multiset of recomputed
commitments equals the multiset of stored commitments. -/
theorem correctTraps_iff (Sum256 : List ℕ → List ℕ) (traps : List Trap)
    (expComms comms : List (List ℕ)) (h : commitAll Sum256 traps = some comms) :
    ∃ res, correctTraps Sum256 traps expComms = some res ∧
      (res = true ↔ expComms.length = comms.length ∧ ∀ c ∈ expComms, c ∈ comms) ∧
      (expComms.Nodup →
        (res = true ↔ Multiset.ofList comms = Multiset.ofList expComms)) := by
  have hres : correctTraps Sum256 traps expComms = some
      (expComms.foldl (fun ct comm => ct && memberCommitment comm comms)
        (expComms.length == comms.length)) := by
    simp only [correctTraps, h, Option.map_some']
  refine ⟨_, hres, ?_, ?_⟩
  · rw [foldl_and_member]
    simp
  · intro hnd
    rw [foldl_and_member]
    simp only [beq_iff_eq, Multiset.coe_eq_coe]
    constructor
    · rintro ⟨hlen, hsub⟩
      exact ((List.subperm_of_subset hnd hsub).perm_of_length_le (by omega)).symm
    · intro hperm
      exact ⟨hperm.length_eq.symm, fun c hc => hperm.mem_iff.mpr hc⟩

theorem correctTraps_iff_witness :
    commitAll (fun b => b) [{ Gid := 1, Nonce := [5] }, { Gid := 2, Nonce := [5] }]
      = some [[1, 0, 0, 0, 0, 0, 0, 0, 5], [2, 0, 0, 0, 0, 0, 0, 0, 5]] ∧
    ∃ res, correctTraps (fun b => b) [{ Gid := 1, Nonce := [5] }, { Gid := 2, Nonce := [5] }]
        [[2, 0, 0, 0, 0, 0, 0, 0, 5], [1, 0, 0, 0, 0, 0, 0, 0, 5]] = some res ∧
      (res = true ↔
        ([[2, 0, 0, 0, 0, 0, 0, 0, 5], [1, 0, 0, 0, 0, 0, 0, 0, 5]] : List (List ℕ)).length
          = ([[1, 0, 0, 0, 0, 0, 0, 0, 5], [2, 0, 0, 0, 0, 0, 0, 0, 5]] : List (List ℕ)).length ∧
        ∀ c ∈ ([[2, 0, 0, 0, 0, 0, 0, 0, 5], [1, 0, 0, 0, 0, 0, 0, 0, 5]] : List (List ℕ)),
          c ∈ ([[1, 0, 0, 0, 0, 0, 0, 0, 5], [2, 0, 0, 0, 0, 0, 0, 0, 5]] : List (List ℕ))) ∧
      (([[2, 0, 0, 0, 0, 0, 0, 0, 5], [1, 0, 0, 0, 0, 0, 0, 0, 5]] : List (List ℕ)).Nodup →
        (res = true ↔
          Multiset.ofList ([[1, 0, 0, 0, 0, 0, 0, 0, 5], [2, 0, 0, 0, 0, 0, 0, 0, 5]] : List (List ℕ))
            = Multiset.ofList [[2, 0, 0, 0, 0, 0, 0, 0, 5], [1, 0, 0, 0, 0, 0, 0, 0, 5]])) :=
  ⟨by decide,
    correctTraps_iff (fun b => b) [{ Gid := 1, Nonce := [5] }, { Gid := 2, Nonce := [5] }]
      [[2, 0, 0, 0, 0, 0, 0, 0, 5], [1, 0, 0, 0, 0, 0, 0, 0, 5]]
      [[1, 0, 0, 0, 0, 0, 0, 0, 5], [2, 0, 0, 0, 0, 0, 0, 0, 5]] (by decide)⟩

/-- C24 (counterexample): two traps with different commitments are received and the
stored list holds the first commitment twice; `correctTraps` is true, and the multiset
of recomputed commitments is not the multiset of stored ones. -/
theorem correctTraps_counterexample :
    commitAll (fun b => b) [{ Gid := 1, Nonce := [5] }, { Gid := 2, Nonce := [5] }]
      = some [[1, 0, 0, 0, 0, 0, 0, 0, 5], [2, 0, 0, 0, 0, 0, 0, 0, 5]] ∧
    correctTraps (fun b => b) [{ Gid := 1, Nonce := [5] }, { Gid := 2, Nonce := [5] }]
      [[1, 0, 0, 0, 0, 0, 0, 0, 5], [1, 0, 0, 0, 0, 0, 0, 0, 5]] = some true ∧
    Multiset.ofList ([[1, 0, 0, 0, 0, 0, 0, 0, 5], [2, 0, 0, 0, 0, 0, 0, 0, 5]] : List (List ℕ))
      ≠ Multiset.ofList [[1, 0, 0, 0, 0, 0, 0, 0, 5], [1, 0, 0, 0, 0, 0, 0, 0, 5]] := by
  decide

end TrapCheckProofs

section ReencryptProofs

variable {F P : Type} [Field F] [AddCommGroup P] [Module F P]

theorem reencryptLoop_spec (G : P) (x : F) (XBar : P) (rnd : ℕ → F) (C : List P) :
    ∀ (n : ℕ) (R Y : List P), R.length = C.length → Y.length = C.length →
      ∃ out, reencryptLoop G x XBar rnd n R C Y = some out ∧
        out.1.length = C.length ∧ out.2.1.length = C.length ∧ out.2.2 = Y ∧
        ∀ i, i < C.length →
          out.1.getD i 0 = R.getD i 0 + rnd (n + i) • G ∧
          out.2.1.getD i 0 = C.getD i 0 - x • Y.getD i 0 + rnd (n + i) • XBar := by
  induction C with
  | nil =>
    intro n R Y hR hY
    have h1 : R = [] := List.length_eq_zero.mp hR
    have h2 : Y = [] := List.length_eq_zero.mp hY
    subst h1 h2
    exact ⟨([], [], []), rfl, rfl, rfl, rfl, fun i hi => by simp at hi⟩
  | cons c C ih =>
    intro n R Y hR hY
    cases R with
    | nil => simp at hR
    | cons r R =>
      cases Y with
      | nil => simp at hY
      | cons y Y =>
        simp only [List.length_cons, add_left_inj] at hR hY
        obtain ⟨out, h1, h2, h3, h4, h5⟩ := ih (n + 1) R Y hR hY
        have hres : reencryptLoop G x XBar rnd n (r :: R) (c :: C) (y :: Y) = some
            ((r + rnd n • G) :: out.1, ((c - x • y) + rnd n • XBar) :: out.2.1, y :: out.2.2) := by
          simp only [reencryptLoop, h1, Option.map_some']
        refine ⟨_, hres, by simp [h2], by simp [h3], by simp [h4], ?_⟩
        intro i hi
        cases i with
        | zero => simp
        | succ i =>
          simp only [List.length_cons, add_lt_add_iff_right] at hi
          have := h5 i hi
          have e : n + 1 + i = n + (i + 1) := by omega
          rw [e] at this
          simpa using this

/-- C25: for every ciphertext `c` with `|c.R| = |c.C|` (and `|c.Y| = |c.C|` when `Y` is
set), `Reencrypt(x, XBar, c)` returns `c'` with `|c'.R| = |c'.C| = |c'.Y| = |c.C|`,
where `c'.Y` is `c.Y` if it was set and otherwise the original `c.R`,
`c'.C[i] = c.C[i] − x·c'.Y[i] + r_i·XBar`, and `c'.R[i] = r_i·G` on the first
re-encryption (`Y` unset) and `c.R[i] + r_i·G` afterwards. -/
theorem Reencrypt_shape (G : P) (x : F) (XBar : P) (c : Ciphertext P) (rnd : ℕ → F)
    (hR : c.R.length = c.C.length) (hY : ∀ Y, c.Y = some Y → Y.length = c.C.length) :
    ∃ c' Y', Reencrypt G x XBar c rnd = some c' ∧ c'.Y = some Y' ∧
      Y' = c.Y.getD c.R ∧
      c'.R.length = c.C.length ∧ c'.C.length = c.C.length ∧ Y'.length = c.C.length ∧
      ∀ i, i < c.C.length →
        c'.C.getD i 0 = c.C.getD i 0 - x • Y'.getD i 0 + rnd i • XBar ∧
        c'.R.getD i 0 = (if c.Y.isNone then rnd i • G else c.R.getD i 0 + rnd i • G) := by
  cases hcY : c.Y with
  | none =>
    obtain ⟨out, h1, h2, h3, h4, h5⟩ := reencryptLoop_spec G x XBar rnd c.C 0
      (List.replicate c.R.length 0) c.R (by simp [hR]) hR
    have hres : Reencrypt G x XBar c rnd
        = some { R := out.1, C := out.2.1, Y := some out.2.2 } := by
      simp only [Reencrypt, hcY, h1, Option.map_some']
    refine ⟨_, c.R, hres, by simp [h4], rfl, h2, h3, hR, ?_⟩
    intro i hi
    obtain ⟨a, b⟩ := h5 i hi
    simp only [zero_add] at a b
    refine ⟨b, ?_⟩
    have hz : (List.replicate c.R.length (0 : P)).getD i 0 = 0 := by
      simp only [List.getD_eq_getElem?_getD, List.getElem?_replicate]
      split <;> rfl
    rw [a, hz]
    simp
  | some Y =>
    have hYlen := hY Y hcY
    obtain ⟨out, h1, h2, h3, h4, h5⟩ := reencryptLoop_spec G x XBar rnd c.C 0 c.R Y hR hYlen
    have hres : Reencrypt G x XBar c rnd
        = some { R := out.1, C := out.2.1, Y := some out.2.2 } := by
      simp only [Reencrypt, hcY, h1, Option.map_some']
    refine ⟨_, Y, hres, by simp [h4], rfl, h2, h3, hYlen, ?_⟩
    intro i hi
    obtain ⟨a, b⟩ := h5 i hi
    simp only [zero_add] at a b
    exact ⟨b, by simpa using a⟩

theorem Reencrypt_shape_witness :
    toyCiphertext.R.length = toyCiphertext.C.length ∧
    (∀ Y, toyCiphertext.Y = some Y → Y.length = toyCiphertext.C.length) ∧
    ∃ c' Y', Reencrypt (1 : ZMod 7) (3 : ZMod 7) (2 : ZMod 7) toyCiphertext toyRnd = some c' ∧
      c'.Y = some Y' ∧ Y' = toyCiphertext.Y.getD toyCiphertext.R ∧
      c'.R.length = toyCiphertext.C.length ∧ c'.C.length = toyCiphertext.C.length ∧
      Y'.length = toyCiphertext.C.length ∧
      ∀ i, i < toyCiphertext.C.length →
        c'.C.getD i 0 = toyCiphertext.C.getD i 0 - (3 : ZMod 7) • Y'.getD i 0
          + toyRnd i • (2 : ZMod 7) ∧
        c'.R.getD i 0 = (if toyCiphertext.Y.isNone then toyRnd i • (1 : ZMod 7)
          else toyCiphertext.R.getD i 0 + toyRnd i • (1 : ZMod 7)) :=
  ⟨by decide, by decide,
    Reencrypt_shape (1 : ZMod 7) (3 : ZMod 7) (2 : ZMod 7) toyCiphertext toyRnd (by decide)
      (by decide)⟩

end ReencryptProofs

section ReencProofProofs

variable {F P : Type} [Field F] [AddCommGroup P] [Module F P]

theorem proveReencryptStep_pub (G : P) (x : F) (XBar : P) (r c y : P) (rBar : F) :
    (proveReencryptStep G x XBar r c y rBar).2.2.2.YY
        = (proveReencryptStep G x XBar r c y rBar).2.1 - c ∧
    (proveReencryptStep G x XBar r c y rBar).2.2.2.YY = (-x) • y + rBar • XBar ∧
    verifyReencryptPub XBar (proveReencryptStep G x XBar r c y rBar).2.1 y c
        = (proveReencryptStep G x XBar r c y rBar).2.2.2 ∧
    (proveReencryptStep G x XBar r c y rBar).2.2.1 = y := by
  refine ⟨rfl, ?_, rfl, rfl⟩
  simp only [proveReencryptStep, neg_smul]
  abel

theorem proveReencryptLoop_spec (PE : ProofExtern F P) (G : P) (x : F) (XBar : P)
    (rnd : ℕ → F) (C : List P) :
    ∀ (n : ℕ) (R Y : List P) (steps : List (P × P × P × RepPub P × List ℕ)),
      proveReencryptLoop PE G x XBar rnd n R C Y = some steps →
      steps.length = C.length ∧ Y.length = C.length ∧
      ∀ i, i < C.length → ∃ r proof,
        PE.HashProve (n + i) (-x) (rnd (n + i))
          (proveReencryptStep G x XBar r (C.getD i 0) (Y.getD i 0) (rnd (n + i))).2.2.2
          = .ok proof ∧
        steps[i]? = some
          ((proveReencryptStep G x XBar r (C.getD i 0) (Y.getD i 0) (rnd (n + i))).1,
           (proveReencryptStep G x XBar r (C.getD i 0) (Y.getD i 0) (rnd (n + i))).2.1,
           (proveReencryptStep G x XBar r (C.getD i 0) (Y.getD i 0) (rnd (n + i))).2.2.1,
           (proveReencryptStep G x XBar r (C.getD i 0) (Y.getD i 0) (rnd (n + i))).2.2.2,
           proof) := by
  induction C with
  | nil =>
    intro n R Y steps h
    cases R with
    | nil =>
      cases Y with
      | nil =>
        simp only [proveReencryptLoop, Option.some.injEq] at h
        subst h
        exact ⟨rfl, rfl, fun i hi => by simp at hi⟩
      | cons y Y => simp [proveReencryptLoop] at h
    | cons r R => simp [proveReencryptLoop] at h
  | cons c C ih =>
    intro n R Y steps h
    cases R with
    | nil => simp [proveReencryptLoop] at h
    | cons r R =>
      cases Y with
      | nil => simp [proveReencryptLoop] at h
      | cons y Y =>
        simp only [proveReencryptLoop] at h
        cases hp : PE.HashProve n (-x) (rnd n) (proveReencryptStep G x XBar r c y (rnd n)).2.2.2 with
        | error e => simp [hp] at h
        | ok proof =>
          rw [hp] at h
          simp only at h
          cases hr : proveReencryptLoop PE G x XBar rnd (n + 1) R C Y with
          | none => simp [hr] at h
          | some rest =>
            rw [hr] at h
            simp only [Option.map_some', Option.some.injEq] at h
            subst h
            obtain ⟨h1, h2, h3⟩ := ih (n + 1) R Y rest hr
            refine ⟨by simp [h1], by simp [h2], ?_⟩
            intro i hi
            cases i with
            | zero => exact ⟨r, proof, by simpa using hp, by simp⟩
            | succ i =>
              simp only [List.length_cons, add_lt_add_iff_right] at hi
              obtain ⟨r', proof', a, b⟩ := h3 i hi
              have e : n + 1 + i = n + (i + 1) := by omega
              rw [e] at a b
              exact ⟨r', proof', by simpa using a, by simpa using b⟩

theorem proveReencryptLoop_total (PE : ProofExtern F P) (G : P) (x : F) (XBar : P)
    (rnd : ℕ → F) (hP : ∀ n a b pub, ∃ proof, PE.HashProve n a b pub = .ok proof)
    (C : List P) :
    ∀ (n : ℕ) (R Y : List P), R.length = C.length → Y.length = C.length →
      ∃ steps, proveReencryptLoop PE G x XBar rnd n R C Y = some steps := by
  induction C with
  | nil =>
    intro n R Y hR hY
    have h1 : R = [] := List.length_eq_zero.mp hR
    have h2 : Y = [] := List.length_eq_zero.mp hY
    subst h1 h2
    exact ⟨[], rfl⟩
  | cons c C ih =>
    intro n R Y hR hY
    cases R with
    | nil => simp at hR
    | cons r R =>
      cases Y with
      | nil => simp at hY
      | cons y Y =>
        simp only [List.length_cons, add_left_inj] at hR hY
        obtain ⟨rest, hrest⟩ := ih (n + 1) R Y hR hY
        obtain ⟨proof, hp⟩ := hP n (-x) (rnd n) (proveReencryptStep G x XBar r c y (rnd n)).2.2.2
        have hres : proveReencryptLoop PE G x XBar rnd n (r :: R) (c :: C) (y :: Y) = some
            (((proveReencryptStep G x XBar r c y (rnd n)).1,
              (proveReencryptStep G x XBar r c y (rnd n)).2.1,
              (proveReencryptStep G x XBar r c y (rnd n)).2.2.1,
              (proveReencryptStep G x XBar r c y (rnd n)).2.2.2, proof) :: rest) := by
          simp only [proveReencryptLoop, hp, hrest, Option.map_some']
        exact ⟨_, hres⟩

/-- C26: for every output `(c', proofs)` of `ProveReencrypt(x, XBar, c)` and every
position `i`, the statement point that is proved (the point `"Y'-Y"` handed to
`HashProve` for `proofs[i]`), `c'.C[i] − c.C[i]`, equals `(−x)·c'.Y[i] + r_i·XBar` with
`r_i` the fresh scalar used at position `i`, and the public values are those that
`VerifyReencrypt(XBar, c, c', proofs)` recomputes from the old and the new ciphertext,
with bases `X = c'.Y[i]` and `B = XBar`.  First part: `ProveReencrypt` returns for a
well-formed `c` when `HashProve` does not fail. -/
theorem ProveReencrypt_statement (PE : ProofExtern F P) (G : P) (x : F) (XBar : P)
    (c : Ciphertext P) (rnd : ℕ → F) :
    (c.R.length = c.C.length → (∀ Y, c.Y = some Y → Y.length = c.C.length) →
      (∀ n a b pub, ∃ proof, PE.HashProve n a b pub = .ok proof) →
      ∃ out, ProveReencrypt PE G x XBar c rnd = some out) ∧
    ∀ c' proofs, ProveReencrypt PE G x XBar c rnd = some (c', proofs) →
      ∃ Y', c'.Y = some Y' ∧ Y' = c.Y.getD c.R ∧ c'.C.length = c.C.length ∧
        Y'.length = c.C.length ∧ proofs.length = c.C.length ∧
        ∀ i, i < c.C.length → ∃ pub : RepPub P,
          PE.HashProve i (-x) (rnd i) pub = .ok (proofs.getD i []) ∧
          pub.YY = c'.C.getD i 0 - c.C.getD i 0 ∧
          pub.YY = (-x) • Y'.getD i 0 + rnd i • XBar ∧
          pub.X = Y'.getD i 0 ∧ pub.B = XBar ∧
          verifyReencryptPub XBar (c'.C.getD i 0) (Y'.getD i 0) (c.C.getD i 0) = pub := by
  constructor
  · intro hR hY hP
    cases hcY : c.Y with
    | none =>
      obtain ⟨steps, hs⟩ := proveReencryptLoop_total PE G x XBar rnd hP c.C 0
        (List.replicate c.R.length 0) c.R (by simp [hR]) hR
      exact ⟨_, by simp only [ProveReencrypt, proveReencryptSteps, hcY, hs, Option.map_some']; rfl⟩
    | some Y =>
      obtain ⟨steps, hs⟩ := proveReencryptLoop_total PE G x XBar rnd hP c.C 0 c.R Y hR
        (hY Y hcY)
      exact ⟨_, by simp only [ProveReencrypt, proveReencryptSteps, hcY, hs, Option.map_some']; rfl⟩
  · intro c' proofs h
    have key : ∀ (R Y : List P) (steps : List (P × P × P × RepPub P × List ℕ)),
        proveReencryptLoop PE G x XBar rnd 0 R c.C Y = some steps →
        (steps.map fun s => s.2.2.1) = Y ∧ steps.length = c.C.length ∧
        Y.length = c.C.length ∧
        ∀ i, i < c.C.length → ∃ pub : RepPub P,
          PE.HashProve i (-x) (rnd i) pub = .ok ((steps.map fun s => s.2.2.2.2).getD i []) ∧
          pub.YY = (steps.map fun s => s.2.1).getD i 0 - c.C.getD i 0 ∧
          pub.YY = (-x) • Y.getD i 0 + rnd i • XBar ∧
          pub.X = Y.getD i 0 ∧ pub.B = XBar ∧
          verifyReencryptPub XBar ((steps.map fun s => s.2.1).getD i 0) (Y.getD i 0)
            (c.C.getD i 0) = pub := by
      intro R Y steps hs
      obtain ⟨h1, h2, h3⟩ := proveReencryptLoop_spec PE G x XBar rnd c.C 0 R Y steps hs
      refine ⟨?_, h1, h2, ?_⟩
      · apply List.ext_getElem?
        intro i
        by_cases hi : i < c.C.length
        · obtain ⟨r, proof, -, b⟩ := h3 i hi
          have hiY : i < Y.length := by omega
          simp [List.getElem?_map, b, proveReencryptStep, List.getD_eq_getElem?_getD,
            List.getElem?_eq_getElem hiY]
        · have e1 : steps.length ≤ i := by omega
          have e2 : Y.length ≤ i := by omega
          simp [List.getElem?_eq_none e1, List.getElem?_eq_none e2]
      · intro i hi
        obtain ⟨r, proof, a, b⟩ := h3 i hi
        simp only [zero_add] at a b
        obtain ⟨p1, p2, p3, -⟩ := proveReencryptStep_pub G x XBar r (c.C.getD i 0)
          (Y.getD i 0) (rnd i)
        refine ⟨_, ?_, ?_, p2, rfl, rfl, ?_⟩
        · rw [a]
          simp [List.getD_eq_getElem?_getD, List.getElem?_map, b]
        · rw [p1]
          simp [List.getD_eq_getElem?_getD, List.getElem?_map, b]
        · rw [← p3]
          simp [List.getD_eq_getElem?_getD, List.getElem?_map, b]
    simp only [ProveReencrypt, proveReencryptSteps] at h
    cases hcY : c.Y with
    | none =>
      rw [hcY] at h
      simp only at h
      cases hs : proveReencryptLoop PE G x XBar rnd 0 (List.replicate c.R.length 0) c.C c.R with
      | none => simp [hs] at h
      | some steps =>
        rw [hs] at h
        simp only [Option.map_some', Option.some.injEq, Prod.mk.injEq] at h
        obtain ⟨hc', hp⟩ := h
        subst hc' hp
        obtain ⟨k1, k2, k3, k4⟩ := key _ _ steps hs
        exact ⟨c.R, by simp [k1], rfl, by simp [k2], k3, by simp [k2], k4⟩
    | some Y =>
      rw [hcY] at h
      simp only at h
      cases hs : proveReencryptLoop PE G x XBar rnd 0 c.R c.C Y with
      | none => simp [hs] at h
      | some steps =>
        rw [hs] at h
        simp only [Option.map_some', Option.some.injEq, Prod.mk.injEq] at h
        obtain ⟨hc', hp⟩ := h
        subst hc' hp
        obtain ⟨k1, k2, k3, k4⟩ := key _ _ steps hs
        exact ⟨Y, by simp [k1], rfl, by simp [k2], k3, by simp [k2], k4⟩

theorem ProveReencrypt_statement_witness :
    (toyCiphertext.R.length = toyCiphertext.C.length ∧
      (∀ Y, toyCiphertext.Y = some Y → Y.length = toyCiphertext.C.length) ∧
      (∀ (n : ℕ) (a b : ZMod 7) (pub : RepPub (ZMod 7)),
        ∃ proof, toyProofExtern.HashProve n a b pub = .ok proof)) ∧
    (∃ out, ProveReencrypt toyProofExtern (1 : ZMod 7) (3 : ZMod 7) (2 : ZMod 7) toyCiphertext
      toyRnd = some out) ∧
    ProveReencrypt toyProofExtern (1 : ZMod 7) (3 : ZMod 7) (2 : ZMod 7) toyCiphertext toyRnd
      = some (toyReencrypted, [[4, 4], [4, 5]]) ∧
    ∃ Y', toyReencrypted.Y = some Y' ∧ Y' = toyCiphertext.Y.getD toyCiphertext.R ∧
      toyReencrypted.C.length = toyCiphertext.C.length ∧
      Y'.length = toyCiphertext.C.length ∧
      ([[4, 4], [4, 5]] : List (List ℕ)).length = toyCiphertext.C.length ∧
      ∀ i, i < toyCiphertext.C.length → ∃ pub : RepPub (ZMod 7),
        toyProofExtern.HashProve i (-(3 : ZMod 7)) (toyRnd i) pub
          = .ok (([[4, 4], [4, 5]] : List (List ℕ)).getD i []) ∧
        pub.YY = toyReencrypted.C.getD i 0 - toyCiphertext.C.getD i 0 ∧
        pub.YY = (-(3 : ZMod 7)) • Y'.getD i 0 + toyRnd i • (2 : ZMod 7) ∧
        pub.X = Y'.getD i 0 ∧ pub.B = (2 : ZMod 7) ∧
        verifyReencryptPub (2 : ZMod 7) (toyReencrypted.C.getD i 0) (Y'.getD i 0)
          (toyCiphertext.C.getD i 0) = pub :=
  ⟨⟨by decide, by decide, fun _ _ _ _ => ⟨_, rfl⟩⟩,
    (ProveReencrypt_statement toyProofExtern (1 : ZMod 7) (3 : ZMod 7) (2 : ZMod 7)
      toyCiphertext toyRnd).1 (by decide) (by decide) (fun _ _ _ _ => ⟨_, rfl⟩),
    by decide,
    (ProveReencrypt_statement toyProofExtern (1 : ZMod 7) (3 : ZMod 7) (2 : ZMod 7)
      toyCiphertext toyRnd).2 toyReencrypted [[4, 4], [4, 5]] (by decide)⟩

end ReencProofProofs

section ReencBatchesProofs

theorem forLoop_add {σ : Type} (body : ℕ → σ → Option σ) (a b : ℕ) :
    ∀ (i : ℕ) (s : σ),
      forLoop body (a + b) i s = (forLoop body a i s).bind (forLoop body b (i + a)) := by
  induction a with
  | zero => intro i s; simp [forLoop]
  | succ a ih =>
    intro i s
    have e : a + 1 + b = (a + b) + 1 := by omega
    rw [e]
    simp only [forLoop]
    cases hb : body i s with
    | none => simp
    | some t =>
      simp only [Option.some_bind]
      rw [ih (i + 1) t]
      have e2 : i + 1 + a = i + (a + 1) := by omega
      rw [e2]

/-- The workers together run the body once for every index `0 .. k−1`, in order. -/
theorem runWorkers_eq_forLoop {σ : Type} (chunks div k : ℕ) (hcover : k ≤ chunks * div)
    (body : ℕ → σ → Option σ) (s : σ) :
    runWorkers chunks div k body s = forLoop body k 0 s := by
  have key : ∀ (n d0 : ℕ) (s : σ),
      forLoop (fun d s =>
        forLoop body ((if (d + 1) * div > k then k else (d + 1) * div) - d * div) (d * div) s)
        n d0 s
      = forLoop body (min ((d0 + n) * div) k - min (d0 * div) k) (min (d0 * div) k) s := by
    intro n
    induction n with
    | zero => intro d0 s; simp [forLoop]
    | succ n ih =>
      intro d0 s
      simp only [forLoop]
      have hmono : d0 * div ≤ (d0 + 1) * div := Nat.mul_le_mul_right _ (by omega)
      have hmono2 : (d0 + 1) * div ≤ (d0 + (n + 1)) * div := Nat.mul_le_mul_right _ (by omega)
      have e1 : d0 + 1 + n = d0 + (n + 1) := by omega
      have hstop : (if (d0 + 1) * div > k then k else (d0 + 1) * div)
          = min ((d0 + 1) * div) k := by
        split
        · rw [min_eq_right (by omega)]
        · rw [min_eq_left (by omega)]
      rw [hstop]
      by_cases hs : d0 * div ≤ k
      · rw [min_eq_left hs]
        have hsplit : min ((d0 + (n + 1)) * div) k - d0 * div
            = (min ((d0 + 1) * div) k - d0 * div)
              + (min ((d0 + (n + 1)) * div) k - min ((d0 + 1) * div) k) := by
          have a1 : d0 * div ≤ min ((d0 + 1) * div) k := le_min hmono hs
          have a2 : min ((d0 + 1) * div) k ≤ min ((d0 + (n + 1)) * div) k :=
            min_le_min_right _ hmono2
          omega
        rw [hsplit, forLoop_add]
        have estart : d0 * div + (min ((d0 + 1) * div) k - d0 * div)
            = min ((d0 + 1) * div) k := by
          have a1 : d0 * div ≤ min ((d0 + 1) * div) k := le_min hmono hs
          omega
        rw [estart]
        congr 1
        funext t
        rw [ih (d0 + 1) t, e1]
      · have hk1 : min (d0 * div) k = k := min_eq_right (by omega)
        have hk2 : min ((d0 + 1) * div) k = k := min_eq_right (by omega)
        have hk3 : min ((d0 + (n + 1)) * div) k = k := min_eq_right (by omega)
        rw [hk1, hk2, hk3]
        have hz : k - d0 * div = 0 := by omega
        simp only [hz, forLoop, Option.some_bind]
        rw [ih (d0 + 1) s, e1, hk2, hk3]
  unfold runWorkers forRange
  rw [key chunks 0 s]
  simp only [zero_add, zero_mul, Nat.zero_min, Nat.sub_zero]
  rw [min_eq_right hcover]

theorem forLoop_slots {α : Type} (f : ℕ → α → Option α) (rest : List α) :
    ∀ (done : List α),
      forLoop (fun i (s : List α) => (s[i]?).bind fun c => (f i c).map fun c' => s.set i c')
        rest.length done.length (done ++ rest)
      = (mapIdxOpt f rest done.length).map fun out => done ++ out := by
  induction rest with
  | nil => intro done; simp [forLoop, mapIdxOpt]
  | cons c rest ih =>
    intro done
    simp only [List.length_cons, forLoop, mapIdxOpt]
    have hget : (done ++ c :: rest)[done.length]? = some c := by
      rw [List.getElem?_append_right (le_refl _)]
      simp
    rw [hget]
    simp only [Option.some_bind]
    cases hf : f done.length c with
    | none => simp
    | some c' =>
      simp only [Option.map_some', Option.some_bind]
      have hset : (done ++ c :: rest).set done.length c' = (done ++ [c']) ++ rest := by
        simp [List.set_append]
      rw [hset]
      have hlen : done.length + 1 = (done ++ [c']).length := by simp
      rw [hlen, ih (done ++ [c'])]
      simp [Option.map_map, Function.comp_def]

theorem mapIdxOpt_append {α β : Type} (f : ℕ → α → Option β) (l1 l2 : List α) :
    ∀ (i : ℕ), mapIdxOpt f (l1 ++ l2) i
      = (mapIdxOpt f l1 i).bind fun r1 =>
          (mapIdxOpt f l2 (i + l1.length)).map fun r2 => r1 ++ r2 := by
  induction l1 with
  | nil => intro i; simp [mapIdxOpt]
  | cons a l1 ih =>
    intro i
    simp only [List.cons_append, mapIdxOpt, List.length_cons]
    cases hf : f i a with
    | none => simp
    | some b =>
      simp only
      have happ : l1.append l2 = l1 ++ l2 := rfl
      rw [happ, ih (i + 1)]
      have e : i + 1 + l1.length = i + (l1.length + 1) := by omega
      rw [e]
      cases mapIdxOpt f l1 (i + 1) with
      | none => simp
      | some r1 =>
        simp only [Option.some_bind, Option.map_some', Option.map_map]
        rfl

theorem mapIdxOpt_congr {α β : Type} (f g : ℕ → α → Option β) (l : List α) :
    ∀ (i : ℕ), (∀ (j : ℕ) (a : α), l[j]? = some a → f (i + j) a = g (i + j) a) →
      mapIdxOpt f l i = mapIdxOpt g l i := by
  induction l with
  | nil => intro i _; rfl
  | cons a l ih =>
    intro i h
    have h0 := h 0 a (by simp)
    simp only [add_zero] at h0
    have hrest := ih (i + 1) (fun j x hx => by
      have := h (j + 1) x (by simpa using hx)
      have e : i + (j + 1) = i + 1 + j := by omega
      rw [e] at this
      exact this)
    simp only [mapIdxOpt, h0, hrest]

theorem mapIdxOpt_none {α β : Type} (f : ℕ → α → Option β) (l : List α) :
    ∀ (i : ℕ), (∃ (j : ℕ) (a : α), l[j]? = some a ∧ f (i + j) a = none) →
      mapIdxOpt f l i = none := by
  induction l with
  | nil => intro i h; obtain ⟨j, a, ha, -⟩ := h; simp at ha
  | cons x l ih =>
    intro i h
    obtain ⟨j, a, ha, hf⟩ := h
    simp only [mapIdxOpt]
    cases j with
    | zero =>
      simp only [List.getElem?_cons_zero, Option.some.injEq] at ha
      subst ha
      simp only [add_zero] at hf
      rw [hf]
    | succ j =>
      simp only [List.getElem?_cons_succ] at ha
      have e : i + (j + 1) = i + 1 + j := by omega
      rw [e] at hf
      rw [ih (i + 1) ⟨j, a, ha, hf⟩]
      cases f i x <;> rfl

theorem keysOf_length {P : Type} (pubKeys : List P) (bs : ℕ) :
    ∀ (n b : ℕ), (keysOf pubKeys bs b n).length = n * bs := by
  intro n
  induction n with
  | zero => intro b; simp [keysOf]
  | succ n ih =>
    intro b
    simp only [keysOf, List.length_append, List.length_replicate, ih (b + 1)]
    ring

theorem keysOf_getElem? {P : Type} (pubKeys : List P) (bs : ℕ) :
    ∀ (n b j i : ℕ), j < n → i < bs →
      (keysOf pubKeys bs b n)[j * bs + i]? = some (pubKeys[b + j]?) := by
  intro n
  induction n with
  | zero => intro b j i hj; omega
  | succ n ih =>
    intro b j i hj hi
    simp only [keysOf]
    cases j with
    | zero =>
      simp only [zero_mul, zero_add, add_zero]
      rw [List.getElem?_append_left (by simpa using hi)]
      simp [List.getElem?_replicate, hi]
    | succ j =>
      have e : (j + 1) * bs + i = bs + (j * bs + i) := by ring
      rw [e, List.getElem?_append_right (by simp)]
      simp only [List.length_replicate, Nat.add_sub_cancel_left]
      rw [ih (b + 1) j i (by omega) hi]
      have e2 : b + 1 + j = b + (j + 1) := by omega
      rw [e2]

section

variable {P : Type}

theorem fillBatch_some (pubKeys : List P) (b : ℕ) (batch : List (Ciphertext P)) :
    ∀ (done rest : List (Ciphertext P)) (pdone prest : List (Option P)),
      (batch = [] ∨ ∃ X, pubKeys[b]? = some X) → pdone.length = done.length →
      batch.length ≤ rest.length → batch.length ≤ prest.length →
      fillBatch pubKeys b batch (done ++ rest, pdone ++ prest, done.length)
        = some (done ++ batch ++ rest.drop batch.length,
            pdone ++ List.replicate batch.length (pubKeys[b]?) ++ prest.drop batch.length,
            done.length + batch.length) := by
  induction batch with
  | nil => intro done rest pdone prest _ _ _ _; simp [fillBatch]
  | cons c batch ih =>
    intro done rest pdone prest hk hp hr hpr
    obtain ⟨X, hX⟩ : ∃ X, pubKeys[b]? = some X := by
      rcases hk with h | h
      · simp at h
      · exact h
    cases rest with
    | nil => simp at hr
    | cons r rest =>
      cases prest with
      | nil => simp at hpr
      | cons p prest =>
        simp only [List.length_cons, add_le_add_iff_right] at hr hpr
        have hlt : done.length < (done ++ r :: rest).length := by simp
        simp only [fillBatch, if_pos hlt, hX]
        have h1 : (done ++ r :: rest).set done.length c = (done ++ [c]) ++ rest := by
          simp [List.set_append]
        have h2 : (pdone ++ p :: prest).set done.length (some X)
            = (pdone ++ [some X]) ++ prest := by
          rw [← hp]
          simp [List.set_append]
        have h3 : done.length + 1 = (done ++ [c]).length := by simp
        rw [h1, h2, h3, ih (done ++ [c]) rest (pdone ++ [some X]) prest (Or.inr ⟨X, hX⟩)
          (by simp [hp]) hr hpr, hX]
        simp [List.replicate_succ]
        omega

theorem fillBatches_some (pubKeys : List P) (bs : ℕ) (batches : List (List (Ciphertext P))) :
    ∀ (b : ℕ) (done rest : List (Ciphertext P)) (pdone prest : List (Option P)),
      (∀ batch ∈ batches, batch.length = bs) →
      (bs = 0 ∨ b + batches.length ≤ pubKeys.length) → pdone.length = done.length →
      batches.length * bs ≤ rest.length → batches.length * bs ≤ prest.length →
      fillBatches pubKeys b batches (done ++ rest, pdone ++ prest, done.length)
        = some (done ++ batches.flatten ++ rest.drop (batches.length * bs),
            pdone ++ keysOf pubKeys bs b batches.length ++ prest.drop (batches.length * bs),
            done.length + batches.length * bs) := by
  induction batches with
  | nil => intro b done rest pdone prest _ _ _ _ _; simp [fillBatches, keysOf]
  | cons batch batches ih =>
    intro b done rest pdone prest hsize hk hp hr hpr
    have hb : batch.length = bs := hsize batch (List.mem_cons_self _ _)
    have hmul : (batches.length + 1) * bs = bs + batches.length * bs := by ring
    simp only [List.length_cons] at hk hr hpr
    rw [hmul] at hr hpr
    have hkey : batch = [] ∨ ∃ X, pubKeys[b]? = some X := by
      rcases hk with h | h
      · left
        exact List.length_eq_zero.mp (by omega)
      · right
        exact ⟨pubKeys[b], List.getElem?_eq_getElem (by omega)⟩
    simp only [fillBatches]
    rw [fillBatch_some pubKeys b batch done rest pdone prest hkey hp (by omega) (by omega)]
    simp only [Option.some_bind]
    have e1 : done ++ batch ++ rest.drop batch.length
        = (done ++ batch) ++ rest.drop batch.length := rfl
    have e3 : done.length + batch.length = (done ++ batch).length := by simp
    rw [e3, ih (b + 1) (done ++ batch) (rest.drop batch.length)
      (pdone ++ List.replicate batch.length (pubKeys[b]?)) (prest.drop batch.length)
      (fun x hx => hsize x (List.mem_cons_of_mem _ hx))
      (by rcases hk with h | h
          · exact Or.inl h
          · exact Or.inr (by omega))
      (by simp [hp]) (by simp only [List.length_drop]; omega)
      (by simp only [List.length_drop]; omega)]
    simp only [List.length_cons, keysOf, hb, List.flatten_cons, List.drop_drop,
      List.append_assoc, List.length_append, hmul]
    simp only [Option.some.injEq, Prod.mk.injEq]
    exact ⟨trivial, trivial, by omega⟩

theorem fillBatch_none (pubKeys : List P) (b : ℕ) (c : Ciphertext P)
    (batch : List (Ciphertext P)) (h : pubKeys[b]? = none)
    (st : List (Ciphertext P) × List (Option P) × ℕ) :
    fillBatch pubKeys b (c :: batch) st = none := by
  simp only [fillBatch, h]
  split <;> rfl

theorem fillBatches_none (pubKeys : List P) (batches : List (List (Ciphertext P))) :
    ∀ (b : ℕ), (∃ (j : ℕ) (c : Ciphertext P) (batch : List (Ciphertext P)),
        batches[j]? = some (c :: batch) ∧ pubKeys[b + j]? = none) →
      ∀ st, fillBatches pubKeys b batches st = none := by
  induction batches with
  | nil => intro b h; obtain ⟨j, c, batch, hj, -⟩ := h; simp at hj
  | cons x batches ih =>
    intro b h st
    obtain ⟨j, c, batch, hj, hk⟩ := h
    simp only [fillBatches]
    cases j with
    | zero =>
      simp only [List.getElem?_cons_zero, Option.some.injEq] at hj
      subst hj
      simp only [add_zero] at hk
      rw [fillBatch_none pubKeys b c batch hk st]
      rfl
    | succ j =>
      simp only [List.getElem?_cons_succ] at hj
      have e : b + (j + 1) = b + 1 + j := by omega
      rw [e] at hk
      cases fillBatch pubKeys b x st with
      | none => rfl
      | some st' => exact ih (b + 1) ⟨j, c, batch, hj, hk⟩ st'

end

theorem regroupBatch_eq {α β : Type} (batch : List β) :
    ∀ (pre r1 r2 : List α), r1.length = batch.length →
      regroupBatch (pre ++ (r1 ++ r2)) batch pre.length = some (r1, pre.length + r1.length) := by
  induction batch with
  | nil =>
    intro pre r1 r2 h
    have : r1 = [] := List.length_eq_zero.mp h
    subst this
    simp [regroupBatch]
  | cons x batch ih =>
    intro pre r1 r2 h
    cases r1 with
    | nil => simp at h
    | cons a r1 =>
      simp only [List.length_cons, add_left_inj] at h
      have hget : (pre ++ (a :: r1 ++ r2))[pre.length]? = some a := by
        rw [List.getElem?_append_right (le_refl _)]
        simp
      simp only [regroupBatch, hget]
      have e1 : pre ++ (a :: r1 ++ r2) = (pre ++ [a]) ++ (r1 ++ r2) := by simp
      have e2 : pre.length + 1 = (pre ++ [a]).length := by simp
      rw [e1, e2, ih (pre ++ [a]) r1 r2 h]
      simp
      omega

theorem mapIdxOpt_shift {α β : Type} (f : ℕ → α → Option β) (o : ℕ) (l : List α) :
    ∀ (j : ℕ), mapIdxOpt (fun i c => f (o + i) c) l j = mapIdxOpt f l (o + j) := by
  induction l with
  | nil => intro j; rfl
  | cons a l ih =>
    intro j
    simp only [mapIdxOpt]
    rw [ih (j + 1)]
    rfl

theorem mapIdxOpt_length {α β : Type} (f : ℕ → α → Option β) (l : List α) (i : ℕ)
    (out : List β) (h : mapIdxOpt f l i = some out) : out.length = l.length :=
  (mapIdxOpt_spec f l i out h).1

/-- Re-encrypting the concatenation of equally long batches slot by slot and cutting
the result into batches is re-encrypting batch by batch. -/
theorem regroup_mapIdxOpt {α : Type} (f : ℕ → α → Option α) (bs : ℕ)
    (batches : List (List α)) :
    ∀ (b0 : ℕ) (pre : List α), (∀ batch ∈ batches, batch.length = bs) →
      pre.length = b0 * bs →
      ((mapIdxOpt f batches.flatten (b0 * bs)).bind fun flat =>
          regroup (pre ++ flat) batches (b0 * bs))
        = mapIdxOpt (fun b batch => mapIdxOpt (fun i c => f (b * bs + i) c) batch 0)
            batches b0 := by
  induction batches with
  | nil =>
    intro b0 pre _ _
    simp [mapIdxOpt, regroup]
  | cons batch batches ih =>
    intro b0 pre hsize hpre
    have hb : batch.length = bs := hsize batch (List.mem_cons_self _ _)
    have hsucc : (b0 + 1) * bs = b0 * bs + batch.length := by rw [hb]; ring
    simp only [List.flatten_cons, mapIdxOpt]
    rw [mapIdxOpt_append, mapIdxOpt_shift f (b0 * bs) batch 0]
    simp only [add_zero]
    cases h1 : mapIdxOpt f batch (b0 * bs) with
    | none => simp
    | some r1 =>
      have hr1 : r1.length = batch.length := mapIdxOpt_length f batch _ r1 h1
      simp only [Option.some_bind]
      rw [← hsucc, ← ih (b0 + 1) (pre ++ r1) (fun x hx => hsize x (List.mem_cons_of_mem _ hx))
        (by rw [List.length_append, hpre, hr1, hsucc])]
      cases h2 : mapIdxOpt f batches.flatten ((b0 + 1) * bs) with
      | none => simp
      | some r2 =>
        simp only [Option.map_some', Option.some_bind, regroup]
        rw [← hpre, regroupBatch_eq batch pre r1 r2 hr1]
        simp only
        have e : pre.length + r1.length = (b0 + 1) * bs := by rw [hpre, hr1, hsucc]
        rw [e, List.append_assoc]

theorem flatten_length_const {α : Type} (bs : ℕ) (batches : List (List α))
    (hsize : ∀ batch ∈ batches, batch.length = bs) :
    batches.flatten.length = batches.length * bs := by
  induction batches with
  | nil => simp
  | cons batch batches ih =>
    simp only [List.flatten_cons, List.length_append, List.length_cons,
      hsize batch (List.mem_cons_self _ _),
      ih (fun x hx => hsize x (List.mem_cons_of_mem _ hx))]
    ring

section

variable {F P : Type} [Field F] [AddCommGroup P] [Module F P]

theorem Reencrypt_some (G : P) (x : F) (XBar : P) (c : Ciphertext P) (rnd : ℕ → F)
    (hR : c.R.length = c.C.length) (hY : ∀ Y, c.Y = some Y → Y.length = c.C.length) :
    ∃ c', Reencrypt G x XBar c rnd = some c' := by
  cases hcY : c.Y with
  | none =>
    obtain ⟨out, h1, -⟩ := reencryptLoop_spec G x XBar rnd c.C 0
      (List.replicate c.R.length 0) c.R (by simp [hR]) hR
    exact ⟨{ R := out.1, C := out.2.1, Y := some out.2.2 },
      by simp only [Reencrypt, hcY, h1, Option.map_some']⟩
  | some Y =>
    obtain ⟨out, h1, -⟩ := reencryptLoop_spec G x XBar rnd c.C 0 c.R Y hR (hY Y hcY)
    exact ⟨{ R := out.1, C := out.2.1, Y := some out.2.2 },
      by simp only [Reencrypt, hcY, h1, Option.map_some']⟩

/-- The code of `ReencryptBatches` computes what the specification says, entry by
entry, whenever the batches all have `bs` ciphertexts and there is at least one CPU. -/
theorem ReencryptBatches_eq_each (G : P) (numCPU : ℕ) (priv : F) (pubKeys : List P)
    (batches : List (List (Ciphertext P))) (rnds : ℕ → ℕ → F) (bs : ℕ)
    (hne : batches ≠ []) (hsize : ∀ batch ∈ batches, batch.length = bs)
    (hcpu : 1 ≤ numCPU) :
    ReencryptBatches G numCPU priv pubKeys batches rnds
      = reencryptEach G priv pubKeys bs batches rnds := by
  obtain ⟨batch0, more, rfl⟩ : ∃ batch0 more, batches = batch0 :: more := by
    cases batches with
    | nil => exact absurd rfl hne
    | cons a l => exact ⟨a, l, rfl⟩
  have hb0 : batch0.length = bs := hsize batch0 (List.mem_cons_self _ _)
  have hflat := flatten_length_const bs (batch0 :: more) hsize
  obtain ⟨cd, hcd, hcover⟩ := chunking_cover numCPU ((batch0 :: more).length * bs) hcpu
  by_cases hk : bs = 0 ∨ (batch0 :: more).length ≤ pubKeys.length
  · have hfill := fillBatches_some pubKeys bs (batch0 :: more) 0 []
      (List.replicate ((batch0 :: more).length * bs) { R := [], C := [], Y := none })
      [] (List.replicate ((batch0 :: more).length * bs) none) hsize
      (by rcases hk with h | h
          · exact Or.inl h
          · exact Or.inr (by omega))
      rfl (by simp) (by simp)
    simp only [List.nil_append, List.length_nil, zero_add, List.drop_replicate,
      Nat.sub_self, List.replicate_zero, List.append_nil] at hfill
    unfold ReencryptBatches
    simp only [hb0, hfill, Option.some_bind, hcd]
    rw [runWorkers_eq_forLoop cd.1 cd.2 _ hcover]
    have hslots := forLoop_slots
      (reencryptAt G priv (keysOf pubKeys bs 0 (batch0 :: more).length) rnds)
      (batch0 :: more).flatten []
    simp only [List.nil_append, List.length_nil, hflat] at hslots
    rw [hslots]
    have hL := regroup_mapIdxOpt
      (reencryptAt G priv (keysOf pubKeys bs 0 (batch0 :: more).length) rnds) bs
      (batch0 :: more) 0 [] hsize (by simp)
    simp only [zero_mul, List.nil_append] at hL
    have hbind : ((mapIdxOpt
          (reencryptAt G priv (keysOf pubKeys bs 0 (batch0 :: more).length) rnds)
          (batch0 :: more).flatten 0).map fun out => out).bind
          (fun ciphertexts => regroup ciphertexts (batch0 :: more) 0)
        = (mapIdxOpt
          (reencryptAt G priv (keysOf pubKeys bs 0 (batch0 :: more).length) rnds)
          (batch0 :: more).flatten 0).bind
          (fun flat => regroup flat (batch0 :: more) 0) := by
      cases mapIdxOpt
        (reencryptAt G priv (keysOf pubKeys bs 0 (batch0 :: more).length) rnds)
        (batch0 :: more).flatten 0 <;> rfl
    rw [hbind, hL]
    unfold reencryptEach
    apply mapIdxOpt_congr
    intro b batch hbatch
    have hbl : b < (batch0 :: more).length := by
      by_contra hcon
      rw [List.getElem?_eq_none (by omega)] at hbatch
      simp at hbatch
    have hlen : batch.length = bs := hsize batch (List.getElem?_mem hbatch)
    apply mapIdxOpt_congr
    intro i c hc
    have hil : i < bs := by
      by_contra hcon
      rw [List.getElem?_eq_none (by omega)] at hc
      simp at hc
    simp only [zero_add]
    have hkey := keysOf_getElem? pubKeys bs (batch0 :: more).length 0 b i hbl hil
    simp only [zero_add] at hkey
    have hX : ∃ X, pubKeys[b]? = some X := by
      rcases hk with h | h
      · omega
      · exact ⟨pubKeys[b], List.getElem?_eq_getElem (by omega)⟩
    obtain ⟨X, hX⟩ := hX
    simp only [reencryptAt, hkey, hX, Option.some_bind]
  · have hbs : 0 < bs := by
      by_contra hcon
      exact hk (Or.inl (by omega))
    have hlt : pubKeys.length < (batch0 :: more).length := by
      by_contra hcon
      exact hk (Or.inr (by omega))
    obtain ⟨batch, hbatch⟩ : ∃ batch, (batch0 :: more)[pubKeys.length]? = some batch :=
      ⟨_, List.getElem?_eq_getElem hlt⟩
    have hlen : batch.length = bs := hsize batch (List.getElem?_mem hbatch)
    obtain ⟨c, rest, rfl⟩ : ∃ c rest, batch = c :: rest := by
      cases batch with
      | nil => simp at hlen; omega
      | cons a l => exact ⟨a, l, rfl⟩
    have hnokey : pubKeys[pubKeys.length]? = none := List.getElem?_eq_none (le_refl _)
    have hnone := fillBatches_none pubKeys (batch0 :: more) 0
      ⟨pubKeys.length, c, rest, hbatch, by simp⟩
    unfold ReencryptBatches
    simp only [hnone, Option.none_bind]
    unfold reencryptEach
    symm
    apply mapIdxOpt_none
    refine ⟨pubKeys.length, c :: rest, hbatch, ?_⟩
    simp only [zero_add, mapIdxOpt, hnokey, Option.none_bind]

end

theorem chunking_ranges (numCPU k : ℕ) (hcpu : 0 < numCPU) (cd : ℕ × ℕ)
    (h : chunking numCPU k = some cd) (i : ℕ) (hi : i < k) :
    ∃ d, (d < cd.1 ∧ d * cd.2 ≤ i ∧ i < min ((d + 1) * cd.2) k) ∧
      ∀ e, e < cd.1 ∧ e * cd.2 ≤ i ∧ i < min ((e + 1) * cd.2) k → e = d := by
  obtain ⟨cd', hcd', hcover⟩ := chunking_cover numCPU k hcpu
  rw [h] at hcd'
  simp only [Option.some.injEq] at hcd'
  subst hcd'
  have hdiv : 0 < cd.2 := by
    rcases Nat.eq_zero_or_pos cd.2 with h0 | h0
    · rw [h0] at hcover
      simp at hcover
      omega
    · exact h0
  have h1 : i / cd.2 * cd.2 ≤ i := Nat.div_mul_le_self i cd.2
  have h2 : i < (i / cd.2 + 1) * cd.2 := by
    have := Nat.lt_succ_self (i / cd.2)
    exact (Nat.div_lt_iff_lt_mul hdiv).mp this
  refine ⟨i / cd.2, ⟨?_, h1, lt_min h2 hi⟩, ?_⟩
  · by_contra hcon
    have hle : cd.1 ≤ i / cd.2 := by omega
    have : cd.1 * cd.2 ≤ i / cd.2 * cd.2 := Nat.mul_le_mul_right _ hle
    omega
  · rintro e ⟨-, he1, he2⟩
    have he3 : i < (e + 1) * cd.2 := lt_of_lt_of_le he2 (min_le_left _ _)
    have ha : e ≤ i / cd.2 := (Nat.le_div_iff_mul_le hdiv).mpr he1
    have hb : i / cd.2 < e + 1 := (Nat.div_lt_iff_lt_mul hdiv).mpr he3
    omega

section

variable {F P : Type} [Field F] [AddCommGroup P] [Module F P]

/-- C27: for a non-empty list of batches that all have the size `bs` of the first one
and at least one CPU, `ReencryptBatches(priv, pubKeys, batches)` computes what the
specification says: its result is the list of the same shape whose entry `(b, i)` is
`Reencrypt(priv, pubKeys[b], batches[b][i])`.  It returns when there is a key for each
batch and the ciphertexts are well formed, and the worker ranges
`[d·div, min((d+1)·div, k))` contain each index below `k` exactly once. -/
theorem ReencryptBatches_refines (G : P) (numCPU : ℕ) (priv : F) (pubKeys : List P)
    (batches : List (List (Ciphertext P))) (rnds : ℕ → ℕ → F) (bs : ℕ)
    (hne : batches ≠ []) (hsize : ∀ batch ∈ batches, batch.length = bs)
    (hcpu : 1 ≤ numCPU) :
    ReencryptBatches G numCPU priv pubKeys batches rnds
        = reencryptEach G priv pubKeys bs batches rnds ∧
    (batches.length ≤ pubKeys.length →
      (∀ batch ∈ batches, ∀ c ∈ batch,
        c.R.length = c.C.length ∧ ∀ Y, c.Y = some Y → Y.length = c.C.length) →
      ∃ result, ReencryptBatches G numCPU priv pubKeys batches rnds = some result) ∧
    (∀ result, ReencryptBatches G numCPU priv pubKeys batches rnds = some result →
      result.length = batches.length ∧
      ∀ (b : ℕ) (batch : List (Ciphertext P)), batches[b]? = some batch →
        ∃ out, result[b]? = some out ∧ out.length = batch.length ∧
          ∀ (i : ℕ) (c : Ciphertext P), batch[i]? = some c →
            ∃ X c', pubKeys[b]? = some X ∧ out[i]? = some c' ∧
              Reencrypt G priv X c (rnds (b * bs + i)) = some c') ∧
    (∃ cd, chunking numCPU (batches.length * bs) = some cd ∧
      ∀ i, i < batches.length * bs →
        ∃ d, (d < cd.1 ∧ d * cd.2 ≤ i ∧ i < min ((d + 1) * cd.2) (batches.length * bs)) ∧
          ∀ e, e < cd.1 ∧ e * cd.2 ≤ i ∧
            i < min ((e + 1) * cd.2) (batches.length * bs) → e = d) := by
  have heq := ReencryptBatches_eq_each G numCPU priv pubKeys batches rnds bs hne hsize hcpu
  refine ⟨heq, ?_, ?_, ?_⟩
  · intro hkeys hwf
    rw [heq]
    unfold reencryptEach
    apply mapIdxOpt_total
    intro b batch hbatch
    have hbl : b < batches.length := by
      by_contra hcon
      rw [List.getElem?_eq_none (by omega)] at hbatch
      simp at hbatch
    apply mapIdxOpt_total
    intro i c hc
    simp only [zero_add]
    rw [List.getElem?_eq_getElem (show b < pubKeys.length by omega)]
    simp only [Option.some_bind]
    obtain ⟨h1, h2⟩ := hwf batch (List.getElem?_mem hbatch) c (List.getElem?_mem hc)
    exact Reencrypt_some G priv _ c _ h1 h2
  · intro result hres
    rw [heq] at hres
    unfold reencryptEach at hres
    obtain ⟨hlen, hent⟩ := mapIdxOpt_spec _ batches 0 result hres
    refine ⟨hlen, ?_⟩
    intro b batch hbatch
    obtain ⟨out, hout, hinner⟩ := (hent b).1 batch hbatch
    simp only [zero_add] at hinner
    obtain ⟨hlen2, hent2⟩ := mapIdxOpt_spec _ batch 0 out hinner
    refine ⟨out, hout, hlen2, ?_⟩
    intro i c hc
    obtain ⟨c', hc', hre⟩ := (hent2 i).1 c hc
    simp only [zero_add] at hre
    cases hX : pubKeys[b]? with
    | none => rw [hX] at hre; simp at hre
    | some X =>
      rw [hX] at hre
      exact ⟨X, c', rfl, hc', hre⟩
  · obtain ⟨cd, hcd, -⟩ := chunking_cover numCPU (batches.length * bs) hcpu
    exact ⟨cd, hcd, fun i hi => chunking_ranges numCPU _ hcpu cd hcd i hi⟩

end

theorem ReencryptBatches_refines_witness :
    [toyBatch, toyBatch] ≠ [] ∧ (∀ batch ∈ [toyBatch, toyBatch], batch.length = 3) ∧
    1 ≤ 2 ∧
    (ReencryptBatches (1 : ZMod 7) 2 (3 : ZMod 7) [2, 5] [toyBatch, toyBatch]
          (fun _ => toyRnd)
        = reencryptEach (1 : ZMod 7) (3 : ZMod 7) [2, 5] 3 [toyBatch, toyBatch]
          (fun _ => toyRnd) ∧
    ([toyBatch, toyBatch].length ≤ [(2 : ZMod 7), 5].length →
      (∀ batch ∈ [toyBatch, toyBatch], ∀ c ∈ batch,
        c.R.length = c.C.length ∧ ∀ Y, c.Y = some Y → Y.length = c.C.length) →
      ∃ result, ReencryptBatches (1 : ZMod 7) 2 (3 : ZMod 7) [2, 5] [toyBatch, toyBatch]
        (fun _ => toyRnd) = some result) ∧
    (∀ result, ReencryptBatches (1 : ZMod 7) 2 (3 : ZMod 7) [2, 5] [toyBatch, toyBatch]
        (fun _ => toyRnd) = some result →
      result.length = [toyBatch, toyBatch].length ∧
      ∀ (b : ℕ) (batch : List (Ciphertext (ZMod 7))),
        [toyBatch, toyBatch][b]? = some batch →
        ∃ out, result[b]? = some out ∧ out.length = batch.length ∧
          ∀ (i : ℕ) (c : Ciphertext (ZMod 7)), batch[i]? = some c →
            ∃ X c', [(2 : ZMod 7), 5][b]? = some X ∧ out[i]? = some c' ∧
              Reencrypt (1 : ZMod 7) (3 : ZMod 7) X c ((fun _ => toyRnd) (b * 3 + i))
                = some c') ∧
    (∃ cd, chunking 2 ([toyBatch, toyBatch].length * 3) = some cd ∧
      ∀ i, i < [toyBatch, toyBatch].length * 3 →
        ∃ d, (d < cd.1 ∧ d * cd.2 ≤ i ∧
            i < min ((d + 1) * cd.2) ([toyBatch, toyBatch].length * 3)) ∧
          ∀ e, e < cd.1 ∧ e * cd.2 ≤ i ∧
            i < min ((e + 1) * cd.2) ([toyBatch, toyBatch].length * 3) → e = d)) :=
  ⟨by simp, by
    intro batch hb
    simp only [List.mem_cons, List.mem_singleton, List.not_mem_nil, or_false, or_self] at hb
    subst hb
    rfl, by decide,
    ReencryptBatches_refines (1 : ZMod 7) 2 (3 : ZMod 7) [2, 5] [toyBatch, toyBatch]
      (fun _ => toyRnd) 3 (by simp) (by
        intro batch hb
        simp only [List.mem_cons, List.mem_singleton, List.not_mem_nil, or_false,
          or_self] at hb
        subst hb
        rfl) (by decide)⟩

end ReencBatchesProofs

/-! ### Index panics of the extraction functions -/

section ExtractProofs

/-- C30: the extraction functions do index out of range on messages in which every
message has a point and every point carries non-empty data.  On the one-point message
whose point carries the single byte `MSG`, `ExtractInnerAndTraps` calls
`ExtractPlaintext` on the empty rest `msgs[m][1:]`, which indexes the empty
`plaintext` at `len(plaintext)-1`; on the one-point message whose point carries the
single byte `TRAP`, `ExtractPlaintext` cuts a one-byte `plaintext` to
`4 + NONCE_LEN` bytes. -/
theorem ExtractInnerAndTraps_panics {R P : Type} (E : Embedding R P) (pt0 pt1 : P)
    (h0 : E.Data pt0 = .ok [MSG]) (h1 : E.Data pt1 = .ok [TRAP]) :
    ExtractInnerAndTraps E [[pt0]] = none ∧ ExtractPlaintext E [pt1] = none ∧
    ExtractPlaintext E ([pt0].tail) = none := by
  refine ⟨?_, ?_, ?_⟩
  · simp [ExtractInnerAndTraps, extractInnerLoop, h0, MSG, TRAP, ExtractPlaintext,
      extractLoop]
  · simp [ExtractPlaintext, extractLoop, h1, TRAP, NONCE_LEN]
  · simp [ExtractPlaintext, extractLoop]

theorem ExtractInnerAndTraps_panics_witness :
    toyEmbedding.Data [0] = .ok [MSG] ∧ toyEmbedding.Data [1] = .ok [TRAP] ∧
    (ExtractInnerAndTraps toyEmbedding [[[0]]] = none ∧
      ExtractPlaintext toyEmbedding [[1]] = none ∧
      ExtractPlaintext toyEmbedding ([[0]].tail) = none) :=
  ⟨rfl, rfl, ExtractInnerAndTraps_panics toyEmbedding [0] [1] rfl rfl⟩

end ExtractProofs

/-! ### The client: trap messages and commitments -/

section ClientProofs

/-- C28: a trap message of `Client.Submit` does not have the number of points of the
real messages.  `generateTrapMsgs` does not read its argument `msgSize`; for the client
`toyClient` (message size 2, 29 bytes per point) the real message has two points, the
trap message has one, and the submitted ciphertexts have the lengths 2 and 1. -/
theorem Submit_trap_length :
    generateMessages toyExtern toyTable (1 : ZMod 7) toyClient toyClientRand 3 1 [[3, 4]]
      = some [[4, 2]] ∧
    generateTrapMsgs toyTable toyClient toyClientRand 3
      (generateTraps toyClient toyClientRand 0) ([(4 : ZMod 7), 2].length) = some [[1]] ∧
    (∃ commit sargs,
      Submit toyExtern toyTable (1 : ZMod 7) toyClient toyClientRand 3 1 1 [[3, 4]]
        = some (commit, (1, sargs)) ∧
      sargs.Ciphertexts.map (fun c => c.C.length) = [2, 1]) ∧
    (∀ (E : Embedding Unit (ZMod 7)) (c : Client (ZMod 7)) (rnd : ClientRand (ZMod 7) Unit)
      (fuel : ℕ) (traps : List Trap) (msgSize msgSize' : ℕ),
      generateTrapMsgs E c rnd fuel traps msgSize
        = generateTrapMsgs E c rnd fuel traps msgSize') :=
  ⟨by decide, by decide, ⟨some (0, toyCommitArgs), toySubmitArgs, by decide, by decide⟩,
    fun _ _ _ _ _ _ _ => rfl⟩

theorem generateTraps_Gid {F P R : Type} (c : Client P) (rnd : ClientRand F R) (gid : Int) :
    ∀ trap ∈ generateTraps c rnd gid, trap.Gid = gid := by
  intro trap h
  simp only [generateTraps, List.mem_map] at h
  obtain ⟨t, -, rfl⟩ := h
  rfl

variable {F P R : Type} [Field F] [AddCommGroup P] [Module F P]

/-- C29: the call of `ServerRPC.Commit` that `Client.Submit(gid, round, plaintexts)`
makes in trap mode goes to the entry group `c.id` with `Round = 0` and `Gid = c.id`,
for traps that carry `Gid = c.id`, whatever `gid` and `round` are, while the call of
`ServerRPC.Submit` goes to the entry group `gid` with `Round = round` and
`Gid = gid`. -/
theorem Submit_commit_args (X : Extern F P) (E : Embedding R P) (G : P) (c : Client P)
    (rnd : ClientRand F R) (fuel : ℕ) (gid round : Int) (plaintexts : List (List ℕ))
    (g g' : Int) (cargs : CommitArgs) (sargs : SubmitArgs F P)
    (h : Submit X E G c rnd fuel gid round plaintexts = some (some (g, cargs), (g', sargs))) :
    g = c.id ∧ cargs.info.Round = 0 ∧ cargs.info.Gid = c.id ∧
    generateCommitArgs X c c.id (generateTraps c rnd c.id) = some cargs ∧
    (∀ trap ∈ generateTraps c rnd c.id, trap.Gid = c.id) ∧
    g' = gid ∧ sargs.info.Round = round ∧ sargs.info.Gid = gid := by
  unfold Submit at h
  cases hm : generateMessages X E G c rnd fuel round plaintexts with
  | none => rw [hm] at h; simp at h
  | some msgs =>
    rw [hm] at h
    simp only [Option.some_bind] at h
    by_cases hmode : c.params.Mode = TRAP_MODE
    · rw [if_pos hmode] at h
      cases msgs with
      | nil => simp at h
      | cons msg0 msgs =>
        simp only at h
        cases ht : generateTrapMsgs E c rnd fuel (generateTraps c rnd c.id) msg0.length with
        | none => rw [ht] at h; simp at h
        | some trapMsgs =>
          rw [ht] at h
          simp only [Option.some_bind] at h
          cases hc : generateCommitArgs X c c.id (generateTraps c rnd c.id) with
          | none => rw [hc] at h; simp at h
          | some cargs' =>
            rw [hc] at h
            simp only [Option.some_bind] at h
            cases hk : atInt c.groupKeys c.id with
            | none => rw [hk] at h; simp at h
            | some k =>
              rw [hk] at h
              simp only [Option.some_bind] at h
              cases hs : generateSubmitArgs X G c rnd gid round (msg0 :: msgs ++ trapMsgs) with
              | none => rw [hs] at h; simp at h
              | some sargs' =>
                rw [hs] at h
                simp only [Option.map_some', Option.some.injEq, Prod.mk.injEq] at h
                obtain ⟨⟨h1, h2⟩, h3, h4⟩ := h
                subst h1 h2 h3 h4
                have hcr : cargs'.info.Round = 0 ∧ cargs'.info.Gid = c.id := by
                  unfold generateCommitArgs at hc
                  cases hcm : mapIdxOpt (fun _ trap => Commit X.Sum256 trap)
                      (generateTraps c rnd c.id) 0 with
                  | none => rw [hcm] at hc; simp at hc
                  | some comms =>
                    rw [hcm] at hc
                    simp only [Option.map_some', Option.some.injEq] at hc
                    subst hc
                    exact ⟨rfl, rfl⟩
                have hsr : sargs'.info.Round = round ∧ sargs'.info.Gid = gid := by
                  unfold generateSubmitArgs at hs
                  cases hgk : atInt c.groupKeys gid with
                  | none => rw [hgk] at hs; simp at hs
                  | some key =>
                    rw [hgk] at hs
                    simp only [Option.map_some', Option.some.injEq] at hs
                    subst hs
                    exact ⟨rfl, rfl⟩
                exact ⟨rfl, hcr.1, hcr.2, rfl, generateTraps_Gid c rnd c.id, rfl, hsr.1,
                  hsr.2⟩
    · rw [if_neg hmode] at h
      cases hs : generateSubmitArgs X G c rnd gid round msgs with
      | none => rw [hs] at h; simp at h
      | some sargs' => rw [hs] at h; simp at h

theorem Submit_commit_args_witness :
    Submit toyExtern toyTable (1 : ZMod 7) toyClient toyClientRand 3 1 1 [[3, 4]]
      = some (some (0, toyCommitArgs), (1, toySubmitArgs)) ∧
    ((0 : Int) = toyClient.id ∧ toyCommitArgs.info.Round = 0 ∧
    toyCommitArgs.info.Gid = toyClient.id ∧
    generateCommitArgs toyExtern toyClient toyClient.id
      (generateTraps toyClient toyClientRand toyClient.id) = some toyCommitArgs ∧
    (∀ trap ∈ generateTraps toyClient toyClientRand toyClient.id, trap.Gid = toyClient.id) ∧
    (1 : Int) = 1 ∧ toySubmitArgs.info.Round = 1 ∧ toySubmitArgs.info.Gid = 1) :=
  ⟨by decide,
    Submit_commit_args toyExtern toyTable (1 : ZMod 7) toyClient toyClientRand 3 1 1 [[3, 4]]
      0 1 toyCommitArgs toySubmitArgs (by decide)⟩

end ClientProofs

/-! ### The chain of a group -/

section ChainProofs

theorem getD_of_lt {α : Type} (l : List α) (k : ℕ) (d : α) (hk : k < l.length) :
    l[k]? = some (l.getD k d) := by
  simp [List.getD_eq_getElem?_getD, List.getElem?_eq_getElem hk]

theorem searchIdx_get (l : List ℕ) :
    ∀ (i k : ℕ), l.Nodup → k < l.length →
      searchIdx ((l.getD k 0 : ℕ) : Int) l i = ((i + k : ℕ) : Int) := by
  induction l with
  | nil => intro i k _ hk; simp at hk
  | cons a l ih =>
    intro i k hnd hk
    obtain ⟨hnot, hnd'⟩ := List.nodup_cons.mp hnd
    cases k with
    | zero => simp [searchIdx]
    | succ k =>
      simp only [List.length_cons, add_lt_add_iff_right] at hk
      have hmem : l.getD k 0 ∈ l := by
        have := getD_of_lt l k 0 hk
        exact List.getElem?_mem this
      have hne : a ≠ l.getD k 0 := fun h => hnot (h ▸ hmem)
      have hne' : ¬ ((a : Int) = ((l.getD k 0 : ℕ) : Int)) := by
        intro h
        exact hne (by exact_mod_cast h)
      simp only [searchIdx, List.getD_cons_succ, if_neg hne']
      rw [ih (i + 1) k hnd' hk]
      congr 1
      omega

theorem memberIdx_get (Members : List ℕ) (k : ℕ) (hnd : Members.Nodup)
    (hk : k < Members.length) : memberIdx Members (Members.getD k 0) = (k : Int) := by
  unfold memberIdx
  rw [searchIdx_get Members 0 k hnd hk]
  simp

theorem getD_range (t k : ℕ) (hk : k < t) : (List.range t).getD k 0 = k := by
  simp [List.getD_eq_getElem?_getD, List.getElem?_range hk]

theorem searchIdx_range (t k : ℕ) (hk : k < t) :
    searchIdx (k : Int) (List.range t) 0 = (k : Int) := by
  have h := searchIdx_get (List.range t) 0 k (List.nodup_range t) (by simpa using hk)
  rw [getD_range t k hk] at h
  simpa using h

theorem nextInGroup_range (t k : ℕ) (ht : 0 < t) :
    nextInGroup (List.range t) (k : Int) = some ((k + 1) % t) := by
  unfold nextInGroup
  have hlen : (List.range t).length = t := List.length_range t
  rw [hlen, if_neg (by omega)]
  have e1 : ((k : Int) + 1) % (t : Int) = (((k + 1) % t : ℕ) : Int) := by
    push_cast
    rfl
  have e : (((k : Int) + 1) % (t : Int)).toNat = (k + 1) % t := by
    rw [e1]
    exact Int.toNat_ofNat _
  rw [e]
  exact List.getElem?_range (Nat.mod_lt _ ht)

theorem getLast?_range (t : ℕ) (ht : 0 < t) : (List.range t).getLast? = some (t - 1) := by
  obtain ⟨n, rfl⟩ : ∃ n, t = n + 1 := ⟨t - 1, by omega⟩
  rw [List.range_succ]
  simp

theorem verifyLoop_spec (rpc : RPC) (Members : List ℕ) (Cur : ℕ) (Group : List ℕ) :
    ∀ (infoCur : ℕ), (∀ idx ∈ Group, idx < Members.length) →
      verifyLoop rpc Members Cur Group infoCur
        = some ((Group.filter fun idx => !decide (idx = Cur)).map
              (fun idx => { rpc := rpc, server := Members.getD idx 0, Cur := Cur }),
            if (Group.filter fun idx => !decide (idx = Cur)) = [] then infoCur else Cur) := by
  induction Group with
  | nil => intro infoCur _; simp [verifyLoop]
  | cons idx Group ih =>
    intro infoCur h
    have hrest : ∀ j ∈ Group, j < Members.length := fun j hj => h j (List.mem_cons_of_mem _ hj)
    by_cases hc : idx = Cur
    · simp only [verifyLoop, if_pos hc]
      rw [ih infoCur hrest]
      simp [hc]
    · simp only [verifyLoop, if_neg hc]
      rw [getD_of_lt Members idx 0 (h idx (List.mem_cons_self _ _))]
      simp only
      rw [ih Cur hrest]
      simp [hc]

theorem filter_ne_length (l : List ℕ) (a : ℕ) (hnd : l.Nodup) :
    l.length ≤ (l.filter fun x => !decide (x = a)).length + 1 := by
  induction l with
  | nil => simp
  | cons x l ih =>
    obtain ⟨hnot, hnd'⟩ := List.nodup_cons.mp hnd
    by_cases hx : x = a
    · subst hx
      have hall : (l.filter fun y => !decide (y = x)) = l := by
        apply List.filter_eq_self.mpr
        intro y hy
        have : y ≠ x := fun e => hnot (e ▸ hy)
        simpa using this
      simp [hall]
    · have := ih hnd'
      simp [List.filter_cons, hx]
      omega

theorem waitCount_range (Mode : Int) (t i : ℕ) (ht : 0 < t) :
    waitCount Mode (List.range t) i
      = some (if Mode = VER_MODE ∧ i ≠ 0 then t - 2 else 0) := by
  unfold waitCount
  by_cases hm : Mode = VER_MODE
  · rw [if_pos hm, List.getElem?_range ht]
    by_cases hi : i = 0
    · simp [hi]
    · simp [hm, hi]
  · simp [hm]

theorem card_lt_of_mem_range {t : ℕ} {Members : List ℕ} (hlen : t ≤ Members.length) :
    ∀ idx ∈ List.range t, idx < Members.length := by
  intro idx h
  have := List.mem_range.mp h
  omega

theorem shuffle_range (Mode : Int) (Members : List ℕ) (t i : ℕ) (hlen : t ≤ Members.length)
    (hi : i < t) :
    shuffle Mode Members (i : Int) (List.range t) i
      = some { waits := if Mode = VER_MODE ∧ i ≠ 0 then t - 2 else 0,
               verify := if Mode = VER_MODE then
                   ((List.range t).filter fun idx => !decide (idx = i)).map
                     (fun idx => { rpc := RPC.VerifyShuffle, server := Members.getD idx 0,
                                   Cur := i })
                 else [],
               next := some (if i + 1 < t
                 then { rpc := RPC.Shuffle, server := Members.getD (i + 1) 0, Cur := i + 1 }
                 else { rpc := RPC.Reencrypt, server := Members.getD 0 0, Cur := 0 }) } := by
  have ht : 0 < t := by omega
  unfold shuffle
  rw [waitCount_range Mode t i ht, getLast?_range t ht]
  simp only [Option.some_bind]
  have hv : (if Mode = VER_MODE then verifyLoop RPC.VerifyShuffle Members i (List.range t) 0
        else some ([], 0))
      = some (if Mode = VER_MODE then
            ((List.range t).filter fun idx => !decide (idx = i)).map
              (fun idx => { rpc := RPC.VerifyShuffle, server := Members.getD idx 0, Cur := i })
          else [],
          if Mode = VER_MODE then
            (if ((List.range t).filter fun idx => !decide (idx = i)) = [] then 0 else i)
          else 0) := by
    by_cases hm : Mode = VER_MODE
    · rw [if_pos hm, if_pos hm, if_pos hm,
        verifyLoop_spec RPC.VerifyShuffle Members i (List.range t) 0
          (card_lt_of_mem_range hlen)]
    · rw [if_neg hm, if_neg hm, if_neg hm]
  rw [hv]
  simp only [Option.some_bind]
  by_cases hl : i + 1 < t
  · have hne : ¬ (((t - 1 : ℕ) : Int) = (i : Int)) := by
      intro h
      have : t - 1 = i := by exact_mod_cast h
      omega
    simp only [hne, decide_False, Bool.not_false, if_true, searchIdx_range t i hi,
      nextInGroup_range t i ht, Option.some_bind, Nat.mod_eq_of_lt hl,
      getD_of_lt Members (i + 1) 0 (by omega), Option.map_some', if_pos hl]
  · have he : ((t - 1 : ℕ) : Int) = (i : Int) := by
      have : t - 1 = i := by omega
      exact_mod_cast this
    simp only [he, decide_True, Bool.not_true, List.getElem?_range ht, Option.some_bind,
      getD_of_lt Members 0 0 (by omega), Option.map_some', if_neg hl]
    rfl

theorem verifyShuffle_range (Members : List ℕ) (t i j : ℕ) (hlen : t ≤ Members.length)
    (hi : i < t) (ok : Bool) :
    verifyShuffle Members (j : Int) (List.range t) i ok
      = (if (i + 1) % t = j then (if ok then some none else none)
         else some (some { rpc := RPC.ShuffleOK, server := Members.getD ((i + 1) % t) 0,
                           Cur := i })) := by
  have ht : 0 < t := by omega
  have hn : (i + 1) % t < t := Nat.mod_lt _ ht
  unfold verifyShuffle
  simp only [searchIdx_range t i hi, nextInGroup_range t i ht, Option.some_bind,
    getD_of_lt Members ((i + 1) % t) 0 (by omega), Nat.cast_inj]

theorem verifyReencrypt_range (Members : List ℕ) (t j cur : ℕ) (hlen : t ≤ Members.length)
    (hj : j < t) :
    verifyReencrypt Members (j : Int) (List.range t) cur
      = some { rpc := RPC.ReencryptOK, server := Members.getD ((j + 1) % t) 0, Cur := cur } := by
  have ht : 0 < t := by omega
  have hn : (j + 1) % t < t := Nat.mod_lt _ ht
  unfold verifyReencrypt
  simp only [searchIdx_range t j hj, nextInGroup_range t j ht, Option.some_bind,
    getD_of_lt Members ((j + 1) % t) 0 (by omega), Option.map_some']

theorem verifyAll_shuffle (Members : List ℕ) (t i : ℕ) (hnd : Members.Nodup)
    (hlen : t ≤ Members.length) (hi : i < t) (J : List ℕ) :
    (∀ j ∈ J, j < t) → ∀ (st : ChainState),
      ∃ st', verifyAll Members (List.range t)
          (J.map fun j => { rpc := RPC.VerifyShuffle, server := Members.getD j 0, Cur := i })
          st = some st' ∧
        st'.trace = st.trace ∧ st'.reencOK = st.reencOK ∧
        st'.shufOK (Members.getD ((i + 1) % t) 0)
          = st.shufOK (Members.getD ((i + 1) % t) 0)
            + (J.filter fun j => !decide (j = (i + 1) % t)).length := by
  induction J with
  | nil => intro _ st; exact ⟨st, rfl, rfl, rfl, by simp⟩
  | cons j J ih =>
    intro hJ st
    have hj : j < t := hJ j (List.mem_cons_self _ _)
    have hrest : ∀ x ∈ J, x < t := fun x hx => hJ x (List.mem_cons_of_mem _ hx)
    simp only [List.map_cons, verifyAll, memberIdx_get Members j hnd (by omega),
      verifyShuffle_range Members t i j hlen hi true]
    by_cases hn : (i + 1) % t = j
    · simp only [if_pos hn, if_true]
      obtain ⟨st', h1, h2, h3, h4⟩ := ih hrest st
      refine ⟨st', h1, h2, h3, ?_⟩
      rw [h4]
      simp [List.filter_cons, hn]
    · simp only [if_neg hn]
      obtain ⟨st', h1, h2, h3, h4⟩ := ih hrest
        { st with shufOK := queueOK st.shufOK (Members.getD ((i + 1) % t) 0) }
      refine ⟨st', h1, h2, h3, ?_⟩
      rw [h4]
      have hn' : ¬ (j = (i + 1) % t) := fun h => hn h.symm
      simp [List.filter_cons, hn', queueOK]
      omega

theorem verifyAll_reencrypt (Members : List ℕ) (t cur : ℕ) (hnd : Members.Nodup)
    (hlen : t ≤ Members.length) (J : List ℕ) :
    (∀ j ∈ J, j < t) → ∀ (st : ChainState),
      ∃ st', verifyAll Members (List.range t)
          (J.map fun j => { rpc := RPC.VerifyReencrypt, server := Members.getD j 0,
                            Cur := cur })
          st = some st' ∧
        st'.trace = st.trace ∧ st'.shufOK = st.shufOK := by
  induction J with
  | nil => intro _ st; exact ⟨st, rfl, rfl, rfl⟩
  | cons j J ih =>
    intro hJ st
    have hj : j < t := hJ j (List.mem_cons_self _ _)
    have hrest : ∀ x ∈ J, x < t := fun x hx => hJ x (List.mem_cons_of_mem _ hx)
    simp only [List.map_cons, verifyAll, memberIdx_get Members j hnd (by omega),
      verifyReencrypt_range Members t j cur hlen hj]
    obtain ⟨st', h1, h2, h3⟩ := ih hrest
      { st with reencOK := queueOK st.reencOK (Members.getD ((j + 1) % t) 0) }
    exact ⟨st', h1, h2, h3⟩

theorem reencrypt_range (Mode : Int) (Members : List ℕ) (t i cur : ℕ)
    (hlen : t ≤ Members.length) (hi : i < t) :
    reencrypt Mode Members (i : Int) (List.range t) cur
      = some { waits := if Mode = VER_MODE ∧ cur ≠ 0 then t - 2 else 0,
               verify := if Mode = VER_MODE then
                   ((List.range t).filter fun idx => !decide (idx = cur)).map
                     (fun idx => { rpc := RPC.VerifyReencrypt, server := Members.getD idx 0,
                                   Cur := cur })
                 else [],
               next := if i + 1 < t then
                   some { rpc := RPC.Reencrypt, server := Members.getD (i + 1) 0,
                          Cur := if Mode = VER_MODE then
                              (if ((List.range t).filter fun idx => !decide (idx = cur)) = []
                                then i + 1 else cur)
                            else i + 1 }
                 else none } := by
  have ht : 0 < t := by omega
  have hn : (i + 1) % t < t := Nat.mod_lt _ ht
  unfold reencrypt
  rw [waitCount_range Mode t cur ht, getLast?_range t ht]
  simp only [Option.some_bind, searchIdx_range t i hi, nextInGroup_range t i ht,
    getD_of_lt Members ((i + 1) % t) 0 (by omega)]
  have hv : (if Mode = VER_MODE then
        verifyLoop RPC.VerifyReencrypt Members cur (List.range t) ((i + 1) % t)
        else some ([], (i + 1) % t))
      = some (if Mode = VER_MODE then
            ((List.range t).filter fun idx => !decide (idx = cur)).map
              (fun idx => { rpc := RPC.VerifyReencrypt, server := Members.getD idx 0,
                            Cur := cur })
          else [],
          if Mode = VER_MODE then
            (if ((List.range t).filter fun idx => !decide (idx = cur)) = []
              then (i + 1) % t else cur)
          else (i + 1) % t) := by
    by_cases hm : Mode = VER_MODE
    · rw [if_pos hm, if_pos hm, if_pos hm,
        verifyLoop_spec RPC.VerifyReencrypt Members cur (List.range t) ((i + 1) % t)
          (card_lt_of_mem_range hlen)]
    · rw [if_neg hm, if_neg hm, if_neg hm]
  rw [hv]
  simp only [Option.map_some']
  by_cases hl : i + 1 < t
  · have hne : ¬ (((t - 1 : ℕ) : Int) = (i : Int)) := by
      intro h
      have : t - 1 = i := by exact_mod_cast h
      omega
    simp only [hne, decide_False, Bool.not_false, if_true, Nat.mod_eq_of_lt hl, if_pos hl]
  · have he : ((t - 1 : ℕ) : Int) = (i : Int) := by
      have : t - 1 = i := by omega
      exact_mod_cast this
    simp only [he, decide_True, Bool.not_true, if_neg hl]
    rfl

theorem chainStep_shuffle (Mode : Int) (Members : List ℕ) (t i : ℕ) (hnd : Members.Nodup)
    (hlen : t ≤ Members.length) (hi : i < t) (st : ChainState)
    (hq : Mode = VER_MODE → i ≠ 0 → t - 2 ≤ st.shufOK (Members.getD i 0)) :
    ∃ st', chainStep Mode Members (List.range t) st
          { rpc := RPC.Shuffle, server := Members.getD i 0, Cur := i }
        = some (st', some (if i + 1 < t
            then { rpc := RPC.Shuffle, server := Members.getD (i + 1) 0, Cur := i + 1 }
            else { rpc := RPC.Reencrypt, server := Members.getD 0 0, Cur := 0 })) ∧
      st'.trace = st.trace ++ [(RPC.Shuffle, (i : Int))] ∧
      (Mode = VER_MODE → i + 1 < t → t - 2 ≤ st'.shufOK (Members.getD (i + 1) 0)) := by
  have hwait : ¬ (st.shufOK (Members.getD i 0)
      < if Mode = VER_MODE ∧ i ≠ 0 then t - 2 else 0) := by
    by_cases hc : Mode = VER_MODE ∧ i ≠ 0
    · rw [if_pos hc]
      have := hq hc.1 hc.2
      omega
    · rw [if_neg hc]
      omega
  simp only [chainStep, memberIdx_get Members i hnd (by omega),
    shuffle_range Mode Members t i hlen hi, Option.some_bind, if_neg hwait]
  by_cases hm : Mode = VER_MODE
  · simp only [if_pos hm]
    obtain ⟨st', h1, h2, -, h4⟩ := verifyAll_shuffle Members t i hnd hlen hi
      ((List.range t).filter fun idx => !decide (idx = i))
      (fun j hj => List.mem_range.mp (List.mem_filter.mp hj).1)
      { st with shufOK := dequeOK st.shufOK (Members.getD i 0)
                  (if Mode = VER_MODE ∧ i ≠ 0 then t - 2 else 0),
                trace := st.trace ++ [(RPC.Shuffle, (i : Int))] }
    refine ⟨st', ?_, h2, ?_⟩
    · rw [h1]
      rfl
    · intro _ hl
      have hmod : (i + 1) % t = i + 1 := Nat.mod_eq_of_lt hl
      rw [hmod] at h4
      rw [h4]
      have c1 := filter_ne_length (List.range t) i (List.nodup_range t)
      have c2 := filter_ne_length ((List.range t).filter fun idx => !decide (idx = i)) (i + 1)
        ((List.nodup_range t).filter _)
      rw [List.length_range] at c1
      omega
  · simp only [if_neg hm, verifyAll, Option.map_some']
    exact ⟨_, rfl, rfl, fun h => absurd h hm⟩

theorem chainStep_reencrypt (Mode : Int) (Members : List ℕ) (t i cur : ℕ)
    (hnd : Members.Nodup) (hlen : t ≤ Members.length) (hi : i < t) (st : ChainState)
    (hcur : Mode = VER_MODE → cur = 0) :
    ∃ st' cur', chainStep Mode Members (List.range t) st
          { rpc := RPC.Reencrypt, server := Members.getD i 0, Cur := cur }
        = some (st', if i + 1 < t
            then some { rpc := RPC.Reencrypt, server := Members.getD (i + 1) 0, Cur := cur' }
            else none) ∧
      st'.trace = st.trace ++ [(RPC.Reencrypt, (i : Int))] ∧
      (Mode = VER_MODE → i + 1 < t → cur' = 0) := by
  have hwait : ¬ (st.reencOK (Members.getD i 0)
      < if Mode = VER_MODE ∧ cur ≠ 0 then t - 2 else 0) := by
    by_cases hc : Mode = VER_MODE ∧ cur ≠ 0
    · exact absurd (hcur hc.1) hc.2
    · rw [if_neg hc]
      omega
  simp only [chainStep, memberIdx_get Members i hnd (by omega),
    reencrypt_range Mode Members t i cur hlen hi, Option.some_bind, if_neg hwait]
  by_cases hm : Mode = VER_MODE
  · simp only [if_pos hm]
    obtain ⟨st', h1, h2, -⟩ := verifyAll_reencrypt Members t cur hnd hlen
      ((List.range t).filter fun idx => !decide (idx = cur))
      (fun j hj => List.mem_range.mp (List.mem_filter.mp hj).1)
      { st with reencOK := dequeOK st.reencOK (Members.getD i 0)
                  (if Mode = VER_MODE ∧ cur ≠ 0 then t - 2 else 0),
                trace := st.trace ++ [(RPC.Reencrypt, (i : Int))] }
    refine ⟨st', (if ((List.range t).filter fun idx => !decide (idx = cur)) = []
        then i + 1 else cur), ?_, h2, ?_⟩
    · rw [h1]
      rfl
    · intro _ hl
      have hc0 : cur = 0 := hcur hm
      have hmem : 1 ∈ (List.range t).filter fun idx => !decide (idx = cur) := by
        rw [List.mem_filter]
        exact ⟨List.mem_range.mpr (by omega), by simp [hc0]⟩
      have hne : ((List.range t).filter fun idx => !decide (idx = cur)) ≠ [] :=
        List.ne_nil_of_mem hmem
      rw [if_neg hne]
      exact hc0
  · simp only [if_neg hm, verifyAll, Option.map_some']
    exact ⟨_, i + 1, rfl, rfl, fun h => absurd h hm⟩

theorem runChain_reencrypt (Mode : Int) (Members : List ℕ) (t : ℕ) (hnd : Members.Nodup)
    (hlen : t ≤ Members.length) :
    ∀ (n i cur : ℕ) (st : ChainState), i + (n + 1) = t → (Mode = VER_MODE → cur = 0) →
      ∃ st', runChain Mode Members (List.range t) (n + 1) st
            { rpc := RPC.Reencrypt, server := Members.getD i 0, Cur := cur } = some st' ∧
        st'.trace = st.trace
          ++ (List.range' i (n + 1)).map fun k => (RPC.Reencrypt, (k : Int)) := by
  intro n
  induction n with
  | zero =>
    intro i cur st hin hcur
    obtain ⟨st', cur', h1, h2, -⟩ :=
      chainStep_reencrypt Mode Members t i cur hnd hlen (by omega) st hcur
    rw [if_neg (by omega)] at h1
    refine ⟨st', ?_, ?_⟩
    · simp only [runChain, h1]
    · rw [h2]
      simp [List.range']
  | succ n ih =>
    intro i cur st hin hcur
    obtain ⟨st1, cur', h1, h2, h3⟩ :=
      chainStep_reencrypt Mode Members t i cur hnd hlen (by omega) st hcur
    have hl : i + 1 < t := by omega
    rw [if_pos hl] at h1
    obtain ⟨st', h4, h5⟩ := ih (i + 1) cur' st1 (by omega) (fun hm => h3 hm hl)
    refine ⟨st', ?_, ?_⟩
    · rw [runChain, h1]
      exact h4
    · rw [h5, h2, List.append_assoc]
      rfl

theorem runChain_shuffle (Mode : Int) (Members : List ℕ) (t : ℕ) (hnd : Members.Nodup)
    (hlen : t ≤ Members.length) :
    ∀ (n i : ℕ) (st : ChainState), i + (n + 1) = t →
      (Mode = VER_MODE → i ≠ 0 → t - 2 ≤ st.shufOK (Members.getD i 0)) →
      ∃ st', runChain Mode Members (List.range t) (n + 1 + t) st
            { rpc := RPC.Shuffle, server := Members.getD i 0, Cur := i } = some st' ∧
        st'.trace = st.trace
          ++ ((List.range' i (n + 1)).map fun k => (RPC.Shuffle, (k : Int)))
          ++ (List.range' 0 t).map fun k => (RPC.Reencrypt, (k : Int)) := by
  intro n
  induction n with
  | zero =>
    intro i st hin hq
    obtain ⟨st1, h1, h2, -⟩ := chainStep_shuffle Mode Members t i hnd hlen (by omega) st hq
    rw [if_neg (by omega)] at h1
    obtain ⟨m, rfl⟩ : ∃ m, t = m + 1 := ⟨t - 1, by omega⟩
    obtain ⟨st', h4, h5⟩ := runChain_reencrypt Mode Members (m + 1) hnd hlen m 0 0 st1
      (by omega) (fun _ => rfl)
    refine ⟨st', ?_, ?_⟩
    · have e : 0 + 1 + (m + 1) = (m + 1) + 1 := by omega
      rw [e, runChain, h1]
      exact h4
    · rw [h5, h2]
      simp [List.range']
  | succ n ih =>
    intro i st hin hq
    obtain ⟨st1, h1, h2, h3⟩ := chainStep_shuffle Mode Members t i hnd hlen (by omega) st hq
    have hl : i + 1 < t := by omega
    rw [if_pos hl] at h1
    obtain ⟨st', h4, h5⟩ := ih (i + 1) st1 (by omega) (fun hm _ => h3 hm hl)
    refine ⟨st', ?_, ?_⟩
    · have e : n + 1 + 1 + t = (n + 1 + t) + 1 := by omega
      rw [e, runChain, h1]
      exact h4
    · rw [h5, h2]
      simp [List.range', List.append_assoc]

/-- C22: for `Group = [0, …, threshold-1]` in a group of distinct servers, in either
mode, the chain started by `collect` at `Cur = Group[0]` runs `shuffle` at the members
`0, 1, …, threshold-1` in this order, each once; the last of them passes the batch to
the member `Group[0]` with a `Reencrypt` call, and `reencrypt` is then run at the
members `0, 1, …, threshold-1` in this order, each once, after which the batch leaves
the group. -/
theorem chain_order (Mode : Int) (Members : List ℕ) (threshold : ℕ) (ht : 1 ≤ threshold)
    (hlen : threshold ≤ Members.length) (hnd : Members.Nodup) :
    ∃ c st, startCall Members (Xrange threshold) = some c ∧
      runChain Mode Members (Xrange threshold) (2 * threshold) startState c = some st ∧
      st.trace = ((Xrange threshold).map fun i => (RPC.Shuffle, (i : Int)))
        ++ (Xrange threshold).map (fun i => (RPC.Reencrypt, (i : Int))) ∧
      (shuffle Mode Members ((threshold - 1 : ℕ) : Int) (Xrange threshold)
          (threshold - 1)).map (fun step => step.next)
        = some (some { rpc := RPC.Reencrypt, server := Members.getD 0 0, Cur := 0 }) := by
  obtain ⟨n, rfl⟩ : ∃ n, threshold = n + 1 := ⟨threshold - 1, by omega⟩
  obtain ⟨st, h1, h2⟩ := runChain_shuffle Mode Members (n + 1) hnd hlen n 0 startState
    (by omega) (fun _ h => absurd rfl h)
  refine ⟨{ rpc := RPC.Shuffle, server := Members.getD 0 0, Cur := 0 }, st, ?_, ?_, ?_, ?_⟩
  · simp only [startCall, Xrange, List.getElem?_range (Nat.succ_pos n), Option.some_bind,
      getD_of_lt Members 0 0 (by omega), Option.map_some']
  · have e : 2 * (n + 1) = n + 1 + (n + 1) := by omega
    rw [e]
    exact h1
  · rw [h2]
    simp [Xrange, startState, List.range_eq_range']
  · have hs := shuffle_range Mode Members (n + 1) n hlen (by omega)
    simp only [Xrange, Nat.add_sub_cancel]
    rw [hs]
    simp

theorem chain_order_witness :
    1 ≤ 3 ∧ 3 ≤ [10, 11, 12].length ∧ [10, 11, 12].Nodup ∧
    ∃ c st, startCall [10, 11, 12] (Xrange 3) = some c ∧
      runChain VER_MODE [10, 11, 12] (Xrange 3) (2 * 3) startState c = some st ∧
      st.trace = ((Xrange 3).map fun i => (RPC.Shuffle, (i : Int)))
        ++ (Xrange 3).map (fun i => (RPC.Reencrypt, (i : Int))) ∧
      (shuffle VER_MODE [10, 11, 12] ((3 - 1 : ℕ) : Int) (Xrange 3) (3 - 1)).map
          (fun step => step.next)
        = some (some { rpc := RPC.Reencrypt, server := [10, 11, 12].getD 0 0, Cur := 0 }) :=
  ⟨by decide, by decide, by decide,
    chain_order VER_MODE [10, 11, 12] 3 (by decide) (by decide) (by decide)⟩

/-- C23: in VER mode the `ReencryptOK` signals do not go to the next re-encrypter.
In the group of servers `10, 11, 12` with `Group = [0, 1, 2]`, after the member at
position 0 has re-encrypted, the verifier at position 1 signals position 2 and the
verifier at position 2 signals position 0, so position 1 receives none of the
`threshold - 2 = 1` signals; the `Reencrypt` call it receives carries `Cur = 0`, with
which it does not dequeue, where `Cur = 1` would make it dequeue one signal.  The
target of `verifyReencrypt` does not depend on `Cur`.  `verifyShuffle` sends the
signals to the next member of the chain. -/
theorem verifyReencrypt_signal_target :
    reencrypt VER_MODE [10, 11, 12] (memberIdx [10, 11, 12] 10) [0, 1, 2] 0
      = some { waits := 0,
               verify := [{ rpc := RPC.VerifyReencrypt, server := 11, Cur := 0 },
                          { rpc := RPC.VerifyReencrypt, server := 12, Cur := 0 }],
               next := some { rpc := RPC.Reencrypt, server := 11, Cur := 0 } } ∧
    verifyReencrypt [10, 11, 12] (memberIdx [10, 11, 12] 11) [0, 1, 2] 0
      = some { rpc := RPC.ReencryptOK, server := 12, Cur := 0 } ∧
    verifyReencrypt [10, 11, 12] (memberIdx [10, 11, 12] 12) [0, 1, 2] 0
      = some { rpc := RPC.ReencryptOK, server := 10, Cur := 0 } ∧
    (verifyAll [10, 11, 12] [0, 1, 2]
        [{ rpc := RPC.VerifyReencrypt, server := 11, Cur := 0 },
         { rpc := RPC.VerifyReencrypt, server := 12, Cur := 0 }] startState).map
        (fun st => [st.reencOK 10, st.reencOK 11, st.reencOK 12]) = some [1, 0, 1] ∧
    (reencrypt VER_MODE [10, 11, 12] (memberIdx [10, 11, 12] 11) [0, 1, 2] 0).map
        (fun step => step.waits) = some 0 ∧
    (reencrypt VER_MODE [10, 11, 12] (memberIdx [10, 11, 12] 11) [0, 1, 2] 1).map
        (fun step => step.waits) = some 1 ∧
    (∀ (Members : List ℕ) (idx : Int) (Group : List ℕ) (Cur Cur' : ℕ),
      (verifyReencrypt Members idx Group Cur).map (fun c => c.server)
        = (verifyReencrypt Members idx Group Cur').map (fun c => c.server)) ∧
    verifyShuffle [10, 11, 12] (memberIdx [10, 11, 12] 11) [0, 1, 2] 0 true = some none ∧
    verifyShuffle [10, 11, 12] (memberIdx [10, 11, 12] 12) [0, 1, 2] 0 true
      = some (some { rpc := RPC.ShuffleOK, server := 11, Cur := 0 }) := by
  refine ⟨by decide, by decide, by decide, by decide, by decide, by decide, ?_, by decide,
    by decide⟩
  intro Members idx Group Cur Cur'
  simp only [verifyReencrypt]
  cases nextInGroup Group (searchIdx idx Group 0) with
  | none => rfl
  | some nextIdx =>
    simp only [Option.some_bind]
    cases Members[nextIdx]? with
    | none => rfl
    | some next => rfl

end ChainProofs

end Atom
